import Mathlib

/-!
Chopper: neighbour joining and k-mer counting.

A shallow embedding of `include/chopper/split/neighbour_joining.hpp` and
`include/chopper/count/count_kmers.hpp`.

Modelling conventions.
* `double` is modelled by exact rational arithmetic (`ℚ`): the rounding error
  of a double operation is not part of the model. Where a computed value lands
  on or next to a rounding tie, the double computation can differ from the
  value of the model.
* A SeqAn `String<T>` is a `List T`; `s[i]` is `s.getD i default` and
  `s[i] = v` is `s.set i v`.
* A vertex descriptor is `Option Nat`; `none` is the nil descriptor
  `getNil<TVertexDescriptor>()`, `some v` is the vertex with id `v`.
* The tree `Graph<Tree<double>>` is a vertex counter (`addVertex` hands out
  the ids 0, 1, 2, ... in order), the list of its edges in insertion order
  and the designated root.
* A failing `assert` stops the run: functions that contain one return
  `Except`, the error carrying the state at the point of failure.
-/

namespace Chopper

/-! ## Loops -/

/-- Runs `body j`, `body (j+1)`, ... for `fuel` consecutive indices. -/
def loopFrom {σ : Type} (body : Nat → σ → σ) : Nat → Nat → σ → σ
  | 0, _, st => st
  | k + 1, j, st => loopFrom body k (j + 1) (body j st)

/-- The loop `for (j = lo; j < hi; ++j) st = body j st`. -/
def forLoop {σ : Type} (lo hi : Nat) (body : Nat → σ → σ) (init : σ) : σ :=
  loopFrom body (hi - lo) lo init

/-- Like `loopFrom`, for a body that may stop the run. -/
def loopFromE {ε σ : Type} (body : Nat → σ → Except ε σ) : Nat → Nat → σ → Except ε σ
  | 0, _, st => .ok st
  | k + 1, j, st =>
    match body j st with
    | .error e => .error e
    | .ok st1 => loopFromE body k (j + 1) st1

/-- The loop `for (j = lo; j < hi; ++j)` with a body that may stop the run. -/
def forLoopE {ε σ : Type} (lo hi : Nat) (body : Nat → σ → Except ε σ) (init : σ) :
    Except ε σ :=
  loopFromE body (hi - lo) lo init

/-! ## Rounding -/

/-- The C function `round`: nearest integer, halfway cases away from zero. -/
def cround (x : ℚ) : ℤ :=
  if 0 ≤ x then ⌊x + 1 / 2⌋ else -⌊-x + 1 / 2⌋

/-- The value `ceil(log10(x))` for a positive `x`: the least integer `d`
with `x ≤ 10 ^ d`. -/
def ceilLog10 (x : ℚ) : ℤ := Int.clog 10 x

/-- Helper function for rounding to n significant digits. The operations
`log10`, `pow`, the product, `round` and the quotient are taken in exact
arithmetic; the statements of this file use the function by name and by its
value on inputs where every intermediate value is exact in double precision. -/
def roundToSignificantFigures (num : ℚ) (n : ℤ) : ℚ :=
  if num = 0 then 0
  else
    let d : ℤ := ceilLog10 (if num < 0 then -num else num)
    let power : ℤ := n - d
    let magnitude : ℚ := (10 : ℚ) ^ power
    let shifted : ℤ := cround (num * magnitude)
    (shifted : ℚ) / magnitude

/-! ## The tree -/

/-- A vertex descriptor; `none` is the nil descriptor. -/
abbrev TVertexDescriptor := Option Nat

/-- The nil vertex descriptor. -/
def nilVertex : TVertexDescriptor := none

/-- A tree edge from `parent` to `child` with its cargo. -/
structure Edge where
  parent : TVertexDescriptor
  child : TVertexDescriptor
  weight : ℚ
deriving DecidableEq

/-- The guide tree: vertices are the ids below `numVertices`. -/
structure Graph where
  numVertices : Nat
  edges : List Edge
  data_root : TVertexDescriptor
deriving DecidableEq

/-- A default-constructed graph. -/
def Graph.empty : Graph := ⟨0, [], nilVertex⟩

/-- Removes all vertices (and with them all edges). -/
def clearVertices (g : Graph) : Graph :=
  { g with numVertices := 0, edges := [] }

/-- Adds a vertex and returns its descriptor. -/
def addVertex (g : Graph) : Graph × TVertexDescriptor :=
  ({ g with numVertices := g.numVertices + 1 }, some g.numVertices)

/-- Adds the edge `parent → child` with cargo `w`. -/
def addEdge (g : Graph) (parent child : TVertexDescriptor) (w : ℚ) : Graph :=
  { g with edges := g.edges ++ [⟨parent, child, w⟩] }

/-- The state in which a failing `assert` stopped the run. -/
structure Aborted where
  g : Graph
  mat : List ℚ
deriving DecidableEq

/-! ## main_cycle -/

/-- The variables of `main_cycle` that live across merge iterations. -/
structure NJState where
  mat : List ℚ
  g : Graph
  connector : List TVertexDescriptor
  av : List ℚ
  dToAllOthers : List ℚ
  sumOfBranches : ℚ
  fnseqs : ℚ
deriving DecidableEq

/-- Lines 27-37: copies the upper triangle to the lower triangle and sums
all branches. Returns the matrix and `sumOfBranches`. -/
def copyTriangle (nseq : Nat) (mat : List ℚ) : List ℚ × ℚ :=
  forLoop 1 nseq (fun col st =>
    forLoop 0 col (fun row st =>
      let mat1 := st.1.set (col * nseq + row) (st.1.getD (row * nseq + col) 0)
      (mat1, st.2 + mat1.getD (col * nseq + row) 0)) st) (mat, 0)

/-- Lines 40-45: the row sums of the matrix. -/
def initDToAllOthers (nseq : Nat) (mat : List ℚ) : List ℚ :=
  forLoop 0 nseq (fun col d =>
    forLoop 0 nseq (fun row d =>
      d.set col (d.getD col 0 + mat.getD (col * nseq + row) 0)) d) (List.replicate nseq 0)

/-- The state of `main_cycle` when the merge loop is entered. -/
def initState (mat : List ℚ) (g : Graph) (nseq : Nat) (connector : List TVertexDescriptor)
    (av : List ℚ) : NJState :=
  let ms := copyTriangle nseq mat
  { mat := ms.1, g := g, connector := connector, av := av,
    dToAllOthers := initDToAllOthers nseq ms.1, sumOfBranches := ms.2,
    fnseqs := (nseq : ℚ) }

/-- The locals of the pair search (lines 50-56). -/
structure Selection where
  notFound : Bool
  tmin : ℚ
  mini : Nat
  minj : Nat
  dMinIToOthers : ℚ
  dMinJToOthers : ℚ
deriving DecidableEq

/-- Lines 66-67: the value `total` of the pair `(row, col)`. -/
def pairTotal (nseq : Nat) (s : NJState) (row col : Nat) : ℚ :=
  (s.dToAllOthers.getD row 0 + s.dToAllOthers.getD col 0
      + (s.fnseqs - 2) * s.mat.getD (row * nseq + col) 0
      + 2 * (s.sumOfBranches - s.dToAllOthers.getD row 0 - s.dToAllOthers.getD col 0))
    / (2 * (s.fnseqs - 2))

/-- Lines 64-78: the body of the inner search loop. -/
def selectBody (nseq : Nat) (s : NJState) (col row : Nat) (sel : Selection) : Selection :=
  if s.connector.getD row nilVertex ≠ nilVertex then
    let total := pairTotal nseq s row col
    if sel.notFound || decide (total < sel.tmin) then
      { notFound := false, tmin := total, mini := row, minj := col,
        dMinIToOthers := s.dToAllOthers.getD row 0,
        dMinJToOthers := s.dToAllOthers.getD col 0 }
    else sel
  else sel

/-- Lines 50-81: the search for the next pair to join. -/
def selectPair (nseq : Nat) (s : NJState) : Selection :=
  forLoop 1 nseq (fun col sel =>
    if s.connector.getD col nilVertex ≠ nilVertex then
      forLoop 0 col (selectBody nseq s col) sel
    else sel) ⟨true, 0, 0, 0, 0, 0⟩

/-- The variables written by the update loop (lines 123-148). -/
structure UpdateState where
  mat : List ℚ
  dToAllOthers : List ℚ
  sumOfBranches : ℚ
  new_sum : ℚ
deriving DecidableEq

/-- Lines 126-146: one iteration of the update loop. -/
def updateBody (nseq mini minj : Nat) (connector : List TVertexDescriptor) (g : Graph)
    (j : Nat) (u : UpdateState) : Except Aborted UpdateState :=
  if connector.getD j nilVertex ≠ nilVertex ∧ mini ≠ j then
    let new_value := (u.mat.getD (mini * nseq + j) 0 + u.mat.getD (minj * nseq + j) 0) / 2
    if u.mat.getD (mini * nseq + j) 0 = u.mat.getD (j * nseq + mini) 0 then
      let d := u.dToAllOthers.set j (u.dToAllOthers.getD j 0 - new_value)
      let new_sum := u.new_sum + new_value
      let m := (u.mat.set (mini * nseq + j) new_value).set (j * nseq + mini) new_value
      let sob := u.sumOfBranches - new_value
      .ok ⟨(m.set (j * nseq + minj) 0).set (minj * nseq + j) 0, d, sob, new_sum⟩
    else .error ⟨g, u.mat⟩
  else
    if u.mat.getD (j * nseq + minj) 0 = u.mat.getD (minj * nseq + j) 0 then
      .ok ⟨(u.mat.set (j * nseq + minj) 0).set (minj * nseq + j) 0, u.dToAllOthers,
        u.sumOfBranches - u.mat.getD (j * nseq + minj) 0, u.new_sum⟩
    else .error ⟨g, u.mat⟩

/-- Lines 48-149: one iteration of the merge loop. -/
def mergeStep (nseq : Nat) (s : NJState) : Except Aborted NJState :=
  let sel := selectPair nseq s
  let mini := sel.mini
  let minj := sel.minj
  let dmin := s.mat.getD (mini * nseq + minj) 0
  let dMinIToOthers := sel.dMinIToOthers / (s.fnseqs - 2)
  let dMinJToOthers := sel.dMinJToOthers / (s.fnseqs - 2)
  let iBranch0 := (dmin + dMinIToOthers - dMinJToOthers) / 2
  let jBranch0 := dmin - iBranch0
  let iBranch1 := iBranch0 - s.av.getD mini 0
  let jBranch1 := jBranch0 - s.av.getD minj 0
  let iBranch := if iBranch1 < 0 then 0 else iBranch1
  let jBranch := if jBranch1 < 0 then 0 else jBranch1
  let gv := addVertex s.g
  let internalVertex := gv.2
  let g1 := addEdge gv.1 internalVertex (s.connector.getD mini nilVertex)
    (roundToSignificantFigures iBranch 5)
  let g2 := addEdge g1 internalVertex (s.connector.getD minj nilVertex)
    (roundToSignificantFigures jBranch 5)
  let dmin1 := if dmin < 0 then 0 else dmin
  let av := s.av.set mini (dmin1 / 2)
  let fnseqs := s.fnseqs - 1
  let connector := (s.connector.set minj nilVertex).set mini internalVertex
  match forLoopE 0 nseq (updateBody nseq mini minj connector g2)
      ⟨s.mat, s.dToAllOthers, s.sumOfBranches, 0⟩ with
  | .error e => .error e
  | .ok u =>
    .ok { mat := u.mat, g := g2, connector := connector, av := av,
          dToAllOthers := u.dToAllOthers.set mini u.new_sum,
          sumOfBranches := u.sumOfBranches, fnseqs := fnseqs }

/-- Lines 47-149: the merge loop, run for `k` iterations. -/
def mergeLoop (nseq : Nat) : Nat → NJState → Except Aborted NJState
  | 0, s => .ok s
  | k + 1, s =>
    match mergeStep nseq s with
    | .error e => .error e
    | .ok s1 => mergeLoop nseq k s1

/-- The function `main_cycle`; it is called with `nseq ≥ 3` only. -/
def main_cycle (mat : List ℚ) (g : Graph) (nseq : Nat) (connector : List TVertexDescriptor)
    (av : List ℚ) : Except Aborted NJState :=
  mergeLoop nseq (nseq - 3) (initState mat g nseq connector av)

/-! ## neighbour_joining -/

/-- Lines 204-209: adds the leaves, fills `connector` and zeroes the diagonal. -/
def initLeaves (nseq : Nat) (g : Graph) (connector : List TVertexDescriptor) (mat : List ℚ) :
    Graph × List TVertexDescriptor × List ℚ :=
  forLoop 0 nseq (fun i st =>
    ((addVertex st.1).1, st.2.1.set i (some i), st.2.2.set (i * nseq + i) 0))
    (g, connector, mat)

/-- Lines 216-226: collects the indices of the remaining nodes. Returns `l`
and `count`. -/
def findRemaining (nseq : Nat) (connector : List TVertexDescriptor) : List Nat × Nat :=
  forLoop 0 nseq (fun i st =>
    if connector.getD i nilVertex ≠ nilVertex then (st.1.set st.2 i, st.2 + 1) else st)
    (List.replicate 3 0, 0)

/-- Lines 213-264: resolves the last three nodes and designates the root. -/
def finalJoin (nseq : Nat) (s : NJState) : Graph :=
  let l := (findRemaining nseq s.connector).1
  let l0 := l.getD 0 0
  let l1 := l.getD 1 0
  let l2 := l.getD 2 0
  let m := fun (i j : Nat) => s.mat.getD (i * nseq + j) 0
  let b0 := (m l0 l1 + m l0 l2 - m l1 l2) / 2 - s.av.getD l0 0
  let b1 := (m l1 l2 + m l0 l1 - m l0 l2) / 2 - s.av.getD l1 0
  let b2 := (m l1 l2 + m l0 l2 - m l0 l1) / 2 - s.av.getD l2 0
  let branch0 := if b0 < 0 then 0 else b0
  let branch1 := if b1 < 0 then 0 else b1
  let branch2 := if b2 < 0 then 0 else b2
  let gv := addVertex s.g
  let internalVertex := gv.2
  let g1 := addEdge gv.1 internalVertex (s.connector.getD l0 nilVertex)
    (roundToSignificantFigures branch0 5)
  let g2 := addEdge g1 internalVertex (s.connector.getD l1 nilVertex)
    (roundToSignificantFigures branch1 5)
  let gr := addVertex g2
  let the_root := gr.2
  let g3 := addEdge gr.1 the_root (s.connector.getD l2 nilVertex)
    (roundToSignificantFigures (branch2 / 2) 5)
  let g4 := addEdge g3 the_root internalVertex (roundToSignificantFigures (branch2 / 2) 5)
  { g4 with data_root := the_root }

/-- The body of `neighbour_joining` for a given `nseq`. -/
def neighbour_joining_n (nseq : Nat) (mat : List ℚ) : Except Aborted Graph :=
  let g := Graph.empty
  if nseq = 0 then .error ⟨g, mat⟩
  else
    let g := clearVertices g
    if nseq = 1 then
      let gv := addVertex g
      .ok { gv.1 with data_root := gv.2 }
    else if nseq = 2 then
      let gv1 := addVertex g
      let gv2 := addVertex gv1.1
      let gv3 := addVertex gv2.1
      let internalVertex := gv3.2
      let g1 := addEdge gv3.1 internalVertex gv1.2
        (roundToSignificantFigures (mat.getD 1 0 / 2) 5)
      let g2 := addEdge g1 internalVertex gv2.2
        (roundToSignificantFigures (mat.getD 1 0 / 2) 5)
      .ok { g2 with data_root := internalVertex }
    else
      let av : List ℚ := List.replicate nseq 0
      let connector : List TVertexDescriptor := List.replicate nseq nilVertex
      let st := initLeaves nseq g connector mat
      match main_cycle st.2.2 st.1 nseq st.2.1 av with
      | .error e => .error e
      | .ok s => .ok (finalJoin nseq s)

/-- The function `neighbour_joining`: `nseq` is the integer part of the
square root of the length of the flattened matrix. -/
def neighbour_joining (mat : List ℚ) : Except Aborted Graph :=
  neighbour_joining_n (Nat.sqrt mat.length) mat

/-! ## Notions used in the statements -/

deriving instance DecidableEq for Except

/-- The matrix entry in row `i` and column `j`. -/
def entry (nseq : Nat) (mat : List ℚ) (i j : Nat) : ℚ := mat.getD (i * nseq + j) 0

/-- The slot `i` of the connector table holds a vertex. -/
def isLive (connector : List TVertexDescriptor) (i : Nat) : Prop :=
  connector.getD i nilVertex ≠ nilVertex

instance (connector : List TVertexDescriptor) (i : Nat) : Decidable (isLive connector i) := by
  unfold isLive; infer_instance

/-- The live slots of the connector table. -/
def liveSet (nseq : Nat) (connector : List TVertexDescriptor) : Finset Nat :=
  (Finset.range nseq).filter (fun i => isLive connector i)

/-- The number of edges whose child is the vertex `v`. -/
def parentCount (g : Graph) (v : Nat) : Nat :=
  g.edges.countP (fun e => decide (e.child = some v))

/-- The number of edges whose parent is the vertex `v`. -/
def childCount (g : Graph) (v : Nat) : Nat :=
  g.edges.countP (fun e => decide (e.parent = some v))

/-- The result of the pair search is a found pair of live slots that attains
the least `total` among the live pairs `(r, c)` scanned before the position
`(C, R)` (all columns below `C`, and the rows below `R` of column `C`), and
among those of least `total` it is the first in scan order. -/
structure SelInv (n : Nat) (s : NJState) (C R : Nat) (sel : Selection) : Prop where
  none_found : sel.notFound = true → ∀ r c, r < c → c < n → isLive s.connector r →
    isLive s.connector c → ¬ (c < C ∨ (c = C ∧ r < R))
  lt : sel.notFound = false → sel.mini < sel.minj ∧ sel.minj < n
  live : sel.notFound = false → isLive s.connector sel.mini ∧ isLive s.connector sel.minj
  scanned : sel.notFound = false → (sel.minj < C ∨ (sel.minj = C ∧ sel.mini < R))
  vals : sel.notFound = false → sel.tmin = pairTotal n s sel.mini sel.minj ∧
    sel.dMinIToOthers = s.dToAllOthers.getD sel.mini 0 ∧
    sel.dMinJToOthers = s.dToAllOthers.getD sel.minj 0
  least : sel.notFound = false → ∀ r c, r < c → c < n → isLive s.connector r →
    isLive s.connector c → (c < C ∨ (c = C ∧ r < R)) →
    (sel.tmin < pairTotal n s r c ∨
      (sel.tmin = pairTotal n s r c ∧ (sel.minj < c ∨ (sel.minj = c ∧ sel.mini ≤ r))))

/-- The working matrix covers `n * n` entries and is symmetric. -/
structure MatInv (n : Nat) (mat : List ℚ) : Prop where
  len : n * n ≤ mat.length
  symm : ∀ a b, a < n → b < n → entry n mat a b = entry n mat b a

/-- The entry `(a, b)` of the working matrix after the update loop of a merge of
`(mini, minj)` has run for the columns below `J`, in terms of the matrix `old`
before the loop. -/
def mergedEntry (n : Nat) (old : List ℚ) (connector : List TVertexDescriptor)
    (mini minj J a b : Nat) : ℚ :=
  if (a = minj ∧ b < J) ∨ (b = minj ∧ a < J) then 0
  else if a = mini ∧ b < J ∧ isLive connector b ∧ b ≠ mini then
    (entry n old mini b + entry n old minj b) / 2
  else if b = mini ∧ a < J ∧ isLive connector a ∧ a ≠ mini then
    (entry n old mini a + entry n old minj a) / 2
  else entry n old a b

/-- The connector table and the tree after `k` merges: the live slots hold the
roots of the subtrees built so far. -/
structure TreeInv (n k : Nat) (s : NJState) : Prop where
  conn_len : s.connector.length = n
  num : s.g.numVertices = n + k
  live_card : (liveSet n s.connector).card + k = n
  conn_lt : ∀ i v, s.connector.getD i nilVertex = some v → v < s.g.numVertices
  conn_inj : ∀ i j v, s.connector.getD i nilVertex = some v →
    s.connector.getD j nilVertex = some v → i = j
  edges_wf : ∀ e ∈ s.g.edges, ∃ p c, e.parent = some p ∧ e.child = some c ∧ c < p ∧
    p < s.g.numVertices
  parents_live : ∀ i v, s.connector.getD i nilVertex = some v → parentCount s.g v = 0
  parents_dead : ∀ v, v < s.g.numVertices → (∀ i, s.connector.getD i nilVertex ≠ some v) →
    parentCount s.g v = 1
  children_leaf : ∀ v, v < n → childCount s.g v = 0
  children_inner : ∀ v, n ≤ v → v < s.g.numVertices → childCount s.g v = 2

/-- The state in which `neighbour_joining` enters the merge loop of
`main_cycle`, for `nseq ≥ 3`. -/
def startState (nseq : Nat) (mat : List ℚ) : NJState :=
  let st := initLeaves nseq (clearVertices Graph.empty) (List.replicate nseq nilVertex) mat
  initState st.2.2 st.1 nseq st.2.1 (List.replicate nseq 0)

/-- The live slots below `J`, in increasing order. -/
def liveList (J : Nat) (connector : List TVertexDescriptor) : List Nat :=
  (List.range J).filter (fun i => decide (isLive connector i))

/-- The graph `g` is a rooted binary tree over the items `0 .. n-1`: every
edge joins two vertices, the designated root is the child of no edge, every
other vertex is the child of exactly one edge, the items have no children and
every other vertex has exactly two. -/
structure IsRootedBinaryTree (n : Nat) (g : Graph) : Prop where
  items : n ≤ g.numVertices
  edges_wf : ∀ e ∈ g.edges, ∃ p c, e.parent = some p ∧ e.child = some c ∧ c < p ∧
    p < g.numVertices
  root : ∃ r, g.data_root = some r ∧ r < g.numVertices ∧ parentCount g r = 0 ∧
    ∀ v, v < g.numVertices → v ≠ r → parentCount g v = 1
  leaf_children : ∀ v, v < n → childCount g v = 0
  inner_children : ∀ v, n ≤ v → v < g.numVertices → childCount g v = 2

/-- The 4-point matrix of the specification. -/
def mat4 : List ℚ := [0, 5, 9, 9, 5, 0, 10, 10, 9, 10, 0, 8, 9, 10, 8, 0]

/-- A 4-point matrix in which the pairs `(0, 3)` and `(1, 2)` tie for the
least `total`. -/
def matTie : List ℚ := [0, 2, 2, 1, 2, 0, 1, 2, 2, 1, 0, 2, 1, 2, 2, 0]

/-! ## count_kmers -/

/-- A cluster `std::pair<std::string, std::vector<std::string>>`: its id and
the names of its members. -/
abbrev Cluster := String × List String

/-- A decoded sequence over `seqan3::dna4`, each letter given by its rank. -/
abbrev Sequence := List Nat

/-- Insertion into a `std::set<uint64_t>`, kept as a strictly increasing list:
a value that is present already is not inserted again. -/
def setInsert (h : Nat) : List Nat → List Nat
  | [] => [h]
  | x :: xs => if h < x then h :: x :: xs else if h = x then x :: xs else x :: setInsert h xs

/-- The function `print_safely`, on the text written to `std::cout` so far.
The set `result` enters through its size only. A failing `assert` stops the
run with the text written so far. -/
def print_safely (cluster : Cluster) (result : List Nat) (out : String) : Except String String :=
  if cluster.2.length ≥ 1 then
    let out1 := out ++ cluster.2.getD 0 ""
    let out2 := forLoop 1 cluster.2.length (fun i o => o ++ ";" ++ cluster.2.getD i "") out1
    .ok (out2 ++ "\t" ++ toString result.length ++ "\t" ++ cluster.1 ++ "\n")
  else .error out

/-- Lines 43-46 of `compute_hashes`: the set of the hash values of all sequences
of one cluster. -/
def hashCluster (compute_fn : Sequence → List Nat) (sequence_vector : List Sequence) :
    List Nat :=
  sequence_vector.foldl (fun result seq =>
    (compute_fn seq).foldl (fun result hash => setInsert hash result) result) []

/-- The function `compute_hashes` on the clusters that this worker takes from
the cluster view, in the order in which it takes them. -/
def compute_hashes (compute_fn : Sequence → List Nat) :
    List (Cluster × List Sequence) → String → Except String String
  | [], out => .ok out
  | (cluster, sequence_vector) :: rest, out =>
    match print_safely cluster (hashCluster compute_fn sequence_vector) out with
    | .error e => .error e
    | .ok out1 => compute_hashes compute_fn rest out1

/-- Modelled from the spec: the type `count_config` is declared outside the
given sources; the specification lists its fields as `num_threads`, `k`, `w`
and `disable_minimizers`. -/
structure count_config where
  num_threads : Nat
  k : Nat
  w : Nat
  disable_minimizers : Bool

/-- The lambda `worker` of `count_kmers` (lines 79-85). The two hash views of
SeqAn3 are parameters. -/
def worker (config : count_config) (compute_minimiser compute_kmers : Sequence → List Nat)
    (cluster_view : List (Cluster × List Sequence)) (out : String) : Except String String :=
  if config.disable_minimizers then compute_hashes compute_kmers cluster_view out
  else compute_hashes compute_minimiser cluster_view out

/-- The reference count of the specification, computed in one thread: all hash
values of all sequences of the cluster are collected, duplicates are collapsed,
and the remaining values are counted. -/
def referenceCount (compute_fn : Sequence → List Nat) (sequence_vector : List Sequence) : Nat :=
  ((sequence_vector.map compute_fn).flatten.dedup).length

/-- A configuration that selects the k-mer hash. -/
def exampleConfig : count_config := ⟨4, 1, 1, true⟩

/-- The sequences of a small cluster. -/
def exampleSeqs : List Sequence := [[0, 1, 2], [2, 3]]

/-- The same sequences, reordered and with one of them twice. -/
def exampleSeqs2 : List Sequence := [[2, 3], [0, 1, 2], [2, 3]]

/-- Line 54 of `count_kmers`: the number of counting threads. -/
def counting_threads (config : count_config) : Nat :=
  if config.num_threads ≤ 1 then 1 else config.num_threads - 1

/-- What `count_kmers` sets up: the depth of the asynchronous cluster buffer
(line 77) and the handles of the launched workers (lines 88-91), each named by
the index of its launch. -/
structure Launched where
  buffer_depth : Nat
  handles : List Nat
deriving DecidableEq

/-- The function `count_kmers`, as far as the number of threads goes. -/
def count_kmers (config : count_config) : Launched :=
  let counting_threads := counting_threads config
  { buffer_depth := counting_threads,
    handles := forLoop 0 counting_threads (fun i handles => handles ++ [i]) [] }

/-- The unrounded length `(dmin + d[i] / (r - 2) - d[j] / (r - 2)) / 2` of the
branch from the joined node `i` to the new vertex (lines 89-92). -/
def branchToNew (n : Nat) (s : NJState) (i j : Nat) : ℚ :=
  (entry n s.mat i j + s.dToAllOthers.getD i 0 / (s.fnseqs - 2)
    - s.dToAllOthers.getD j 0 / (s.fnseqs - 2)) / 2

/-- The connector table after the merge of `(i, j)` in state `s`. -/
def mergedConnector (s : NJState) (i j : Nat) : List TVertexDescriptor :=
  (s.connector.set j nilVertex).set i (some s.g.numVertices)

/-- The tree after the merge of `(i, j)` in state `s`: one more vertex and the
two edges from it to the joined nodes. -/
def mergedGraph (n : Nat) (s : NJState) (i j : Nat) : Graph :=
  { numVertices := s.g.numVertices + 1,
    edges := s.g.edges ++
      [⟨some s.g.numVertices, s.connector.getD i nilVertex,
         roundToSignificantFigures (max 0 (branchToNew n s i j - s.av.getD i 0)) 5⟩,
       ⟨some s.g.numVertices, s.connector.getD j nilVertex,
         roundToSignificantFigures
           (max 0 (entry n s.mat i j - branchToNew n s i j - s.av.getD j 0)) 5⟩],
    data_root := s.g.data_root }

/-- The new distance `(mat[i][m] + mat[j][m]) / 2` from the node `m` to the
node merged from `i` and `j`. -/
def newDist (n : Nat) (old : List ℚ) (i j m : Nat) : ℚ :=
  (entry n old i m + entry n old j m) / 2

/-- The columns `m` below `J` for which the update loop takes its first
branch: `m` is live and is not `mini`. -/
def updated (connector : List TVertexDescriptor) (mini J : Nat) : Finset Nat :=
  (Finset.range J).filter (fun m => isLive connector m ∧ mini ≠ m)

/-- The columns below `J` for which the update loop takes its second branch. -/
def skipped (connector : List TVertexDescriptor) (mini J : Nat) : Finset Nat :=
  (Finset.range J).filter (fun m => ¬ (isLive connector m ∧ mini ≠ m))

/-- The bookkeeping of `main_cycle` after `k` merges: the lengths of the
tables, the number of remaining nodes, and the zero entries of the matrix (the
diagonal, and the rows and columns of removed nodes). -/
structure AuxInv (n k : Nat) (s : NJState) : Prop where
  av_len : s.av.length = n
  d_len : s.dToAllOthers.length = n
  fnseqs_eq : s.fnseqs = (n : ℚ) - (k : ℚ)
  diag : ∀ a, a < n → entry n s.mat a a = 0
  dead : ∀ a b, a < n → b < n → (¬ isLive s.connector a ∨ ¬ isLive s.connector b) →
    entry n s.mat a b = 0

/-- The sum of the distances from the node `i` to all live nodes. -/
def liveRowSum (n : Nat) (s : NJState) (i : Nat) : ℚ :=
  ∑ j in liveSet n s.connector, entry n s.mat i j

/-- The sum of the distances over all live pairs `i < j`. -/
def livePairSum (n : Nat) (s : NJState) : ℚ :=
  ∑ i in liveSet n s.connector,
    ∑ j in (liveSet n s.connector).filter (fun j => i < j), entry n s.mat i j

/-- The cached sums agree with the matrix: `dToAllOthers[i]` is the sum of the
row `i` over the live nodes, for every live `i`, and `sumOfBranches` is the sum
over the live pairs. -/
structure SumInv (n : Nat) (s : NJState) : Prop where
  rowsum : ∀ i, i ∈ liveSet n s.connector → s.dToAllOthers.getD i 0 = liveRowSum n s i
  total : s.sumOfBranches = livePairSum n s

/-- Two states of the merge loop agree in everything the algorithm reads: all
variables are equal, except that the two matrices need only have the same length
and the same entries inside the `n × n` square. -/
structure StateEq (n : Nat) (s t : NJState) : Prop where
  g : s.g = t.g
  connector : s.connector = t.connector
  av : s.av = t.av
  dToAllOthers : s.dToAllOthers = t.dToAllOthers
  sumOfBranches : s.sumOfBranches = t.sumOfBranches
  fnseqs : s.fnseqs = t.fnseqs
  len : s.mat.length = t.mat.length
  entries : ∀ a b, a < n → b < n → entry n s.mat a b = entry n t.mat a b

/-- An input that agrees with `mat4` on the strictly upper triangle and differs
from it on the diagonal and in the lower triangle. -/
def mat4b : List ℚ := [7, 5, 9, 9, 1, 7, 10, 10, 2, 3, 7, 8, 4, 5, 6, 7]

end Chopper

/-! # Theorems -/

namespace Chopper

/-! ## Loops, lists and indices -/

theorem loopFrom_inv {σ : Type} (body : Nat → σ → σ) (I : Nat → σ → Prop) :
    ∀ (fuel j : Nat) (st : σ), I j st →
      (∀ i s, j ≤ i → i < j + fuel → I i s → I (i + 1) (body i s)) →
      I (j + fuel) (loopFrom body fuel j st) := by
  intro fuel
  induction fuel with
  | zero => intro j st h0 _; simpa [loopFrom] using h0
  | succ k ih =>
    intro j st h0 hstep
    have h1 : I (j + 1) (body j st) := hstep j st (le_refl j) (by omega) h0
    have h2 := ih (j + 1) (body j st) h1 (fun i s hi1 hi2 hI => hstep i s (by omega) (by omega) hI)
    have e : j + (k + 1) = j + 1 + k := by omega
    rw [e]
    simpa [loopFrom] using h2

theorem forLoop_inv {σ : Type} (lo hi : Nat) (body : Nat → σ → σ) (init : σ)
    (I : Nat → σ → Prop) (hle : lo ≤ hi) (h0 : I lo init)
    (hstep : ∀ i s, lo ≤ i → i < hi → I i s → I (i + 1) (body i s)) :
    I hi (forLoop lo hi body init) := by
  have h := loopFrom_inv body I (hi - lo) lo init h0
    (fun i s h1 h2 hI => hstep i s h1 (by omega) hI)
  have e : lo + (hi - lo) = hi := by omega
  rw [e] at h
  exact h

theorem loopFromE_inv {ε σ : Type} (body : Nat → σ → Except ε σ) (I : Nat → σ → Prop) :
    ∀ (fuel j : Nat) (st : σ), I j st →
      (∀ i s, j ≤ i → i < j + fuel → I i s → ∃ s1, body i s = .ok s1 ∧ I (i + 1) s1) →
      ∃ s1, loopFromE body fuel j st = .ok s1 ∧ I (j + fuel) s1 := by
  intro fuel
  induction fuel with
  | zero => intro j st h0 _; exact ⟨st, by simp [loopFromE], by simpa using h0⟩
  | succ k ih =>
    intro j st h0 hstep
    obtain ⟨s1, hb, h1⟩ := hstep j st (le_refl j) (by omega) h0
    obtain ⟨s2, hl, h2⟩ := ih (j + 1) s1 h1
      (fun i s hi1 hi2 hI => hstep i s (by omega) (by omega) hI)
    refine ⟨s2, ?_, ?_⟩
    · simp [loopFromE, hb, hl]
    · have e : j + (k + 1) = j + 1 + k := by omega
      rw [e]; exact h2

theorem forLoopE_inv {ε σ : Type} (lo hi : Nat) (body : Nat → σ → Except ε σ) (init : σ)
    (I : Nat → σ → Prop) (hle : lo ≤ hi) (h0 : I lo init)
    (hstep : ∀ i s, lo ≤ i → i < hi → I i s → ∃ s1, body i s = .ok s1 ∧ I (i + 1) s1) :
    ∃ s1, forLoopE lo hi body init = .ok s1 ∧ I hi s1 := by
  have h := loopFromE_inv body I (hi - lo) lo init h0
    (fun i s h1 h2 hI => hstep i s h1 (by omega) hI)
  have e : lo + (hi - lo) = hi := by omega
  rw [e] at h
  exact h

theorem getD_set {α : Type} (l : List α) (i j : Nat) (v d : α) :
    (l.set i v).getD j d = if i = j ∧ i < l.length then v else l.getD j d := by
  simp only [List.getD_eq_getElem?_getD, List.getElem?_set]
  by_cases h : i = j
  · subst h
    by_cases h2 : i < l.length
    · simp [h2]
    · simp [h2, List.getElem?_eq_none (not_lt.mp h2)]
  · simp [h]

theorem idx_inj (n a b c d : Nat) (hb : b < n) (hd : d < n) :
    a * n + b = c * n + d ↔ a = c ∧ b = d := by
  constructor
  · intro h
    have h1 : (a * n + b) / n = (c * n + d) / n := by rw [h]
    have hn : 0 < n := by omega
    rw [Nat.mul_comm a n, Nat.mul_comm c n, Nat.mul_add_div hn, Nat.mul_add_div hn,
      Nat.div_eq_of_lt hb, Nat.div_eq_of_lt hd] at h1
    simp at h1
    subst h1
    simpa using h
  · rintro ⟨rfl, rfl⟩; rfl

theorem idx_lt (n a b : Nat) (ha : a < n) (hb : b < n) : a * n + b < n * n := by
  have : (a + 1) * n ≤ n * n := Nat.mul_le_mul_right n ha
  nlinarith

/-- Writing the entry `(c, d)` changes that entry and no other. -/
theorem entry_set (n : Nat) (mat : List ℚ) (a b c d : Nat) (v : ℚ) (hb : b < n)
    (hc : c < n) (hd : d < n) (hlen : n * n ≤ mat.length) :
    entry n (mat.set (c * n + d) v) a b = if a = c ∧ b = d then v else entry n mat a b := by
  unfold entry
  rw [getD_set]
  have hlt : c * n + d < mat.length := lt_of_lt_of_le (idx_lt n c d hc hd) hlen
  have hiff := idx_inj n c d a b hd hb
  by_cases h : a = c ∧ b = d
  · obtain ⟨rfl, rfl⟩ := h
    simp [hlt]
  · have h2 : ¬ (c * n + d = a * n + b) := by
      intro hh; exact h ⟨(hiff.mp hh).1.symm, (hiff.mp hh).2.symm⟩
    simp [h, h2]

/-! ## The initial state of main_cycle -/

/-- The matrix after the triangle copy: the lower triangle mirrors the upper one. -/
theorem copyTriangle_spec (n : Nat) (mat : List ℚ) (hn : 1 ≤ n) (hlen : n * n ≤ mat.length) :
    (copyTriangle n mat).1.length = mat.length ∧
    ∀ a b, a < n → b < n →
      entry n (copyTriangle n mat).1 a b = if b < a then entry n mat b a else entry n mat a b := by
  have h := forLoop_inv 1 n (fun col st =>
    forLoop 0 col (fun row st =>
      let mat1 := st.1.set (col * n + row) (st.1.getD (row * n + col) 0)
      (mat1, st.2 + mat1.getD (col * n + row) 0)) st) (mat, (0 : ℚ))
    (fun col st => st.1.length = mat.length ∧ ∀ a b, a < n → b < n →
      entry n st.1 a b = if b < a ∧ a < col then entry n mat b a else entry n mat a b)
    hn ⟨rfl, fun a b _ _ => by
      have : ¬ (b < a ∧ a < 1) := by omega
      rw [if_neg this]⟩
    (by
      intro col st hc1 hc2 hP
      have hq := forLoop_inv 0 col (fun row (st : List ℚ × ℚ) =>
        let mat1 := st.1.set (col * n + row) (st.1.getD (row * n + col) 0)
        (mat1, st.2 + mat1.getD (col * n + row) 0)) st
        (fun row st => st.1.length = mat.length ∧ ∀ a b, a < n → b < n →
          entry n st.1 a b = if b < a ∧ (a < col ∨ (a = col ∧ b < row)) then entry n mat b a
            else entry n mat a b)
        (Nat.zero_le col) ⟨hP.1, fun a b ha hb => by
          rw [hP.2 a b ha hb]
          have : (b < a ∧ a < col) ↔ (b < a ∧ (a < col ∨ (a = col ∧ b < 0))) := by omega
          simp only [this]⟩
        (by
          intro row st2 _ hr hQ
          refine ⟨by simpa using hQ.1, ?_⟩
          intro a b ha hb
          have hl : n * n ≤ st2.1.length := by rw [hQ.1]; exact hlen
          have hrow : row < n := by omega
          show entry n (st2.1.set (col * n + row) (st2.1.getD (row * n + col) 0)) a b = _
          rw [entry_set n st2.1 a b col row _ hb hc2 hrow hl]
          by_cases hab : a = col ∧ b = row
          · obtain ⟨rfl, rfl⟩ := hab
            have h1 := hQ.2 b a hrow hc2
            unfold entry at h1
            rw [h1]
            have c1 : ¬ (a < b ∧ (b < a ∨ (b = a ∧ a < b))) := by omega
            have c2 : (b < a ∧ (a < a ∨ (a = a ∧ b < b + 1))) := by omega
            rw [if_neg c1, if_pos c2, if_pos ⟨rfl, rfl⟩]
            rfl
          · rw [if_neg hab, hQ.2 a b ha hb]
            have : (b < a ∧ (a < col ∨ (a = col ∧ b < row))) ↔
                (b < a ∧ (a < col ∨ (a = col ∧ b < row + 1))) := by omega
            simp only [this])
      refine ⟨hq.1, fun a b ha hb => ?_⟩
      rw [hq.2 a b ha hb]
      have : (b < a ∧ (a < col ∨ (a = col ∧ b < col))) ↔ (b < a ∧ a < col + 1) := by omega
      simp only [this])
  refine ⟨h.1, fun a b ha hb => ?_⟩
  have h2 := h.2 a b ha hb
  rw [show (copyTriangle n mat).1 = _ from rfl] at *
  unfold copyTriangle
  rw [h2]
  have : (b < a ∧ a < n) ↔ b < a := by constructor <;> intro hh <;> [exact hh.1; exact ⟨hh, ha⟩]
  simp only [this]

/-! ## The pair search -/

theorem selectBody_inv (n : Nat) (s : NJState) (C R : Nat) (sel : Selection)
    (hC : isLive s.connector C) (hRC : R < C) (hCn : C < n) (h : SelInv n s C R sel) :
    SelInv n s C (R + 1) (selectBody n s C R sel) := by
  unfold selectBody
  by_cases hR : s.connector.getD R nilVertex ≠ nilVertex
  · rw [if_pos hR]
    by_cases hupd : (sel.notFound || decide (pairTotal n s R C < sel.tmin)) = true
    · rw [if_pos hupd]
      refine ⟨by simp, fun _ => ⟨hRC, hCn⟩, fun _ => ⟨hR, hC⟩, fun _ => by right; simp,
        fun _ => ⟨rfl, rfl, rfl⟩, ?_⟩
      intro _ r c hrc hcn hr hc hb
      show pairTotal n s R C < pairTotal n s r c ∨
        (pairTotal n s R C = pairTotal n s r c ∧ (C < c ∨ (C = c ∧ R ≤ r)))
      by_cases hnew : c = C ∧ r = R
      · obtain ⟨rfl, rfl⟩ := hnew
        right; exact ⟨rfl, Or.inr ⟨rfl, le_refl _⟩⟩
      · have hb2 : c < C ∨ (c = C ∧ r < R) := by omega
        cases hnf : sel.notFound with
        | true => exact absurd hb2 (h.none_found hnf r c hrc hcn hr hc)
        | false =>
          have hlt : pairTotal n s R C < sel.tmin := by simpa [hnf] using hupd
          rcases h.least hnf r c hrc hcn hr hc hb2 with h1 | h1
          · left; exact lt_trans hlt h1
          · left; rw [← h1.1]; exact hlt
    · rw [if_neg hupd]
      have hnf : sel.notFound = false := by
        cases hx : sel.notFound with
        | true => simp [hx] at hupd
        | false => rfl
      have hge : sel.tmin ≤ pairTotal n s R C := by
        have : ¬ (pairTotal n s R C < sel.tmin) := by simpa [hnf] using hupd
        exact not_lt.mp this
      refine ⟨fun h1 => (by rw [hnf] at h1; cases h1), h.lt, h.live, fun h1 => ?_, h.vals, ?_⟩
      · have := h.scanned h1; omega
      · intro h1 r c hrc hcn hr hc hb
        by_cases hnew : c = C ∧ r = R
        · obtain ⟨rfl, rfl⟩ := hnew
          have hs := h.scanned h1
          rcases lt_or_eq_of_le hge with h2 | h2
          · left; exact h2
          · right; exact ⟨h2, by omega⟩
        · exact h.least h1 r c hrc hcn hr hc (by omega)
  · rw [if_neg hR]
    refine ⟨?_, h.lt, h.live, fun h1 => ?_, h.vals, ?_⟩
    · intro h1 r c hrc hcn hr hc hb
      have hne : ¬ (c = C ∧ r = R) := by
        rintro ⟨rfl, rfl⟩; exact hR hr
      exact h.none_found h1 r c hrc hcn hr hc (by omega)
    · have := h.scanned h1; omega
    · intro h1 r c hrc hcn hr hc hb
      have hne : ¬ (c = C ∧ r = R) := by
        rintro ⟨rfl, rfl⟩; exact hR hr
      exact h.least h1 r c hrc hcn hr hc (by omega)

/-- The pair search, characterised: see `SelInv`; every pair of columns below
`n` has been scanned. -/
theorem selectPair_inv (n : Nat) (s : NJState) (hn : 1 ≤ n) :
    SelInv n s n 0 (selectPair n s) := by
  unfold selectPair
  refine forLoop_inv 1 n _ _ (fun C sel => SelInv n s C 0 sel) hn ?_ ?_
  · refine ⟨?_, by simp, by simp, by simp, by simp, by simp⟩
    intro _ r c hrc _ _ _ hb
    omega
  · intro C sel hC1 hCn h
    show SelInv n s (C + 1) 0 (if s.connector.getD C nilVertex ≠ nilVertex then
      forLoop 0 C (selectBody n s C) sel else sel)
    by_cases hC : s.connector.getD C nilVertex ≠ nilVertex
    · rw [if_pos hC]
      have hq := forLoop_inv 0 C (selectBody n s C) sel (fun R sel => R ≤ C ∧ SelInv n s C R sel)
        (Nat.zero_le C) ⟨Nat.zero_le C, h⟩
        (fun R sel2 _ hRC hI => ⟨hRC, selectBody_inv n s C R sel2 hC hRC hCn hI.2⟩)
      have hq := hq.2
      refine ⟨?_, hq.lt, hq.live, fun h1 => ?_, hq.vals, ?_⟩
      · intro h1 r c hrc hcn hr hc hb
        exact hq.none_found h1 r c hrc hcn hr hc (by omega)
      · have h2 := hq.scanned h1
        have h3 := hq.lt h1
        omega
      · intro h1 r c hrc hcn hr hc hb
        exact hq.least h1 r c hrc hcn hr hc (by omega)
    · rw [if_neg hC]
      refine ⟨?_, h.lt, h.live, fun h1 => ?_, h.vals, ?_⟩
      · intro h1 r c hrc hcn hr hc hb
        have hne : c ≠ C := by rintro rfl; exact hC hc
        exact h.none_found h1 r c hrc hcn hr hc (by omega)
      · have := h.scanned h1; omega
      · intro h1 r c hrc hcn hr hc hb
        have hne : c ≠ C := by rintro rfl; exact hC hc
        exact h.least h1 r c hrc hcn hr hc (by omega)

/-! ## The update loop of a merge -/

theorem mergedEntry_succ_of_ne (n : Nat) (old : List ℚ) (connector : List TVertexDescriptor)
    (mini minj J a b : Nat) (h1 : ¬ (a = minj ∧ b = J)) (h2 : ¬ (a = J ∧ b = minj))
    (h3 : ¬ (a = mini ∧ b = J ∧ isLive connector J ∧ J ≠ mini))
    (h4 : ¬ (b = mini ∧ a = J ∧ isLive connector J ∧ J ≠ mini)) :
    mergedEntry n old connector mini minj (J + 1) a b
      = mergedEntry n old connector mini minj J a b := by
  unfold mergedEntry
  have c1 : (a = minj ∧ b < J + 1 ∨ b = minj ∧ a < J + 1) ↔
      (a = minj ∧ b < J ∨ b = minj ∧ a < J) := by omega
  have c2 : (a = mini ∧ b < J + 1 ∧ isLive connector b ∧ b ≠ mini) ↔
      (a = mini ∧ b < J ∧ isLive connector b ∧ b ≠ mini) := by
    constructor
    · rintro ⟨x1, x2, x3, x4⟩
      refine ⟨x1, ?_, x3, x4⟩
      by_contra hb
      have : b = J := by omega
      subst this
      exact h3 ⟨x1, rfl, x3, x4⟩
    · rintro ⟨x1, x2, x3, x4⟩
      exact ⟨x1, by omega, x3, x4⟩
  have c3 : (b = mini ∧ a < J + 1 ∧ isLive connector a ∧ a ≠ mini) ↔
      (b = mini ∧ a < J ∧ isLive connector a ∧ a ≠ mini) := by
    constructor
    · rintro ⟨x1, x2, x3, x4⟩
      refine ⟨x1, ?_, x3, x4⟩
      by_contra hb
      have : a = J := by omega
      subst this
      exact h4 ⟨x1, rfl, x3, x4⟩
    · rintro ⟨x1, x2, x3, x4⟩
      exact ⟨x1, by omega, x3, x4⟩
  simp only [c1, c2, c3]

theorem mergedEntry_old (n : Nat) (old : List ℚ) (connector : List TVertexDescriptor)
    (mini minj J a b : Nat) (h1 : ¬ (a = minj ∧ b < J ∨ b = minj ∧ a < J))
    (h2 : ¬ (a = mini ∧ b < J ∧ isLive connector b ∧ b ≠ mini))
    (h3 : ¬ (b = mini ∧ a < J ∧ isLive connector a ∧ a ≠ mini)) :
    mergedEntry n old connector mini minj J a b = entry n old a b := by
  unfold mergedEntry
  rw [if_neg h1, if_neg h2, if_neg h3]

theorem updateBody_inv (n mini minj : Nat) (connector : List TVertexDescriptor) (g : Graph)
    (old : List ℚ) (hold : MatInv n old) (hi : mini < n) (hj : minj < n) (hij : mini ≠ minj)
    (hdead : ¬ isLive connector minj) (J : Nat) (hJ : J < n) (u : UpdateState)
    (hlen : u.mat.length = old.length)
    (hI : ∀ a b, a < n → b < n → entry n u.mat a b = mergedEntry n old connector mini minj J a b) :
    ∃ u1, updateBody n mini minj connector g J u = .ok u1 ∧ u1.mat.length = old.length ∧
      ∀ a b, a < n → b < n →
        entry n u1.mat a b = mergedEntry n old connector mini minj (J + 1) a b := by
  have hl : n * n ≤ u.mat.length := by rw [hlen]; exact hold.len
  unfold updateBody
  by_cases hc : connector.getD J nilVertex ≠ nilVertex ∧ mini ≠ J
  · rw [if_pos hc]
    have hcl : isLive connector J := hc.1
    have hJj : J ≠ minj := by rintro rfl; exact hdead hc.1
    have e1 : entry n u.mat mini J = entry n old mini J := by
      rw [hI mini J hi hJ]; exact mergedEntry_old _ _ _ _ _ _ _ _ (by omega) (by omega) (by omega)
    have e2 : entry n u.mat minj J = entry n old minj J := by
      rw [hI minj J hj hJ]; exact mergedEntry_old _ _ _ _ _ _ _ _ (by omega) (by omega) (by omega)
    have e3 : entry n u.mat J mini = entry n old J mini := by
      rw [hI J mini hJ hi]; exact mergedEntry_old _ _ _ _ _ _ _ _ (by omega) (by omega) (by omega)
    have hassert : u.mat.getD (mini * n + J) 0 = u.mat.getD (J * n + mini) 0 := by
      have := hold.symm mini J hi hJ
      unfold entry at e1 e3 this
      rw [e1, e3, this]
    rw [if_pos hassert]
    refine ⟨_, rfl, by simp [hlen], ?_⟩
    intro a b ha hb
    show entry n ((((u.mat.set (mini * n + J) _).set (J * n + mini) _).set (J * n + minj) 0).set
      (minj * n + J) 0) a b = _
    rw [entry_set n _ a b minj J 0 hb hj hJ (by simpa using hl),
      entry_set n _ a b J minj 0 hb hJ hj (by simpa using hl),
      entry_set n _ a b J mini _ hb hJ hi (by simpa using hl),
      entry_set n _ a b mini J _ hb hi hJ hl, hI a b ha hb]
    unfold entry at e1 e2
    rw [e1, e2]
    by_cases h1 : a = minj ∧ b = J
    · rw [if_pos h1]; unfold mergedEntry; rw [if_pos (by omega)]
    rw [if_neg h1]
    by_cases h2 : a = J ∧ b = minj
    · rw [if_pos h2]; unfold mergedEntry; rw [if_pos (by omega)]
    rw [if_neg h2]
    by_cases h3 : a = J ∧ b = mini
    · obtain ⟨rfl, rfl⟩ := h3
      rw [if_pos ⟨rfl, rfl⟩]; unfold mergedEntry
      rw [if_neg (by omega), if_neg (by omega), if_pos ⟨rfl, by omega, hcl, by omega⟩]
      rfl
    rw [if_neg h3]
    by_cases h4 : a = mini ∧ b = J
    · obtain ⟨rfl, rfl⟩ := h4
      rw [if_pos ⟨rfl, rfl⟩]; unfold mergedEntry
      rw [if_neg (by omega), if_pos ⟨rfl, by omega, hcl, by omega⟩]
      rfl
    rw [if_neg h4]
    exact (mergedEntry_succ_of_ne n old connector mini minj J a b h1 h2 (by omega) (by omega)).symm
  · rw [if_neg hc]
    have e1 : entry n u.mat J minj = entry n old J minj := by
      rw [hI J minj hJ hj]
      refine mergedEntry_old _ _ _ _ _ _ _ _ (by omega) ?_ (by omega)
      rintro ⟨_, _, x3, _⟩; exact hdead x3
    have e2 : entry n u.mat minj J = entry n old minj J := by
      rw [hI minj J hj hJ]
      refine mergedEntry_old _ _ _ _ _ _ _ _ (by omega) (by omega) ?_
      rintro ⟨_, _, x3, _⟩; exact hdead x3
    have hassert : u.mat.getD (J * n + minj) 0 = u.mat.getD (minj * n + J) 0 := by
      have := hold.symm J minj hJ hj
      unfold entry at e1 e2 this
      rw [e1, e2, this]
    rw [if_pos hassert]
    refine ⟨_, rfl, by simp [hlen], ?_⟩
    intro a b ha hb
    show entry n ((u.mat.set (J * n + minj) 0).set (minj * n + J) 0) a b = _
    rw [entry_set n _ a b minj J 0 hb hj hJ (by simpa using hl),
      entry_set n _ a b J minj 0 hb hJ hj hl, hI a b ha hb]
    by_cases h1 : a = minj ∧ b = J
    · rw [if_pos h1]; unfold mergedEntry; rw [if_pos (by omega)]
    rw [if_neg h1]
    by_cases h2 : a = J ∧ b = minj
    · rw [if_pos h2]; unfold mergedEntry; rw [if_pos (by omega)]
    rw [if_neg h2]
    refine (mergedEntry_succ_of_ne n old connector mini minj J a b h1 h2 ?_ ?_).symm
    · rintro ⟨_, _, x3, x4⟩; exact hc ⟨x3, fun h => x4 h.symm⟩
    · rintro ⟨_, _, x3, x4⟩; exact hc ⟨x3, fun h => x4 h.symm⟩

/-- The update loop of a merge never fails an assertion on a symmetric matrix,
and yields the merged matrix. -/
theorem updateLoop_spec (n mini minj : Nat) (connector : List TVertexDescriptor) (g : Graph)
    (old : List ℚ) (hold : MatInv n old) (hi : mini < n) (hj : minj < n) (hij : mini ≠ minj)
    (hdead : ¬ isLive connector minj) (d : List ℚ) (sob ns : ℚ) :
    ∃ u, forLoopE 0 n (updateBody n mini minj connector g) ⟨old, d, sob, ns⟩ = .ok u ∧
      u.mat.length = old.length ∧
      ∀ a b, a < n → b < n → entry n u.mat a b = mergedEntry n old connector mini minj n a b := by
  refine forLoopE_inv 0 n _ _ (fun J (u : UpdateState) => u.mat.length = old.length ∧
      ∀ a b, a < n → b < n → entry n u.mat a b = mergedEntry n old connector mini minj J a b)
    (Nat.zero_le n) ⟨rfl, fun a b _ _ => ?_⟩ ?_
  · exact (mergedEntry_old _ _ _ _ _ _ _ _ (by omega) (by omega) (by omega)).symm
  · intro J u _ hJ hI
    exact updateBody_inv n mini minj connector g old hold hi hj hij hdead J hJ u hI.1 hI.2

theorem mergedEntry_symm (n : Nat) (old : List ℚ) (hold : MatInv n old)
    (connector : List TVertexDescriptor) (mini minj J a b : Nat) (ha : a < n) (hb : b < n) :
    mergedEntry n old connector mini minj J a b = mergedEntry n old connector mini minj J b a := by
  unfold mergedEntry
  have c1 : (a = minj ∧ b < J ∨ b = minj ∧ a < J) ↔ (b = minj ∧ a < J ∨ a = minj ∧ b < J) := by
    omega
  simp only [c1]
  by_cases h0 : (b = minj ∧ a < J ∨ a = minj ∧ b < J)
  · rw [if_pos h0, if_pos h0]
  rw [if_neg h0, if_neg h0]
  by_cases h1 : a = mini ∧ b < J ∧ isLive connector b ∧ b ≠ mini
  · rw [if_pos h1]
    have h2 : ¬ (b = mini ∧ a < J ∧ isLive connector a ∧ a ≠ mini) := by omega
    rw [if_neg h2, if_pos h1]
  rw [if_neg h1]
  by_cases h2 : b = mini ∧ a < J ∧ isLive connector a ∧ a ≠ mini
  · rw [if_pos h2, if_pos h2]
  rw [if_neg h2, if_neg h2, if_neg h1]
  exact hold.symm a b ha hb

/-! ## One merge step -/

theorem parentCount_addEdge (g : Graph) (p c : TVertexDescriptor) (w : ℚ) (v : Nat) :
    parentCount (addEdge g p c w) v = parentCount g v + if c = some v then 1 else 0 := by
  unfold parentCount addEdge
  simp only [List.countP_append, List.countP_cons, List.countP_nil]
  by_cases h : c = some v <;> simp [h]

theorem childCount_addEdge (g : Graph) (p c : TVertexDescriptor) (w : ℚ) (v : Nat) :
    childCount (addEdge g p c w) v = childCount g v + if p = some v then 1 else 0 := by
  unfold childCount addEdge
  simp only [List.countP_append, List.countP_cons, List.countP_nil]
  by_cases h : p = some v <;> simp [h]

theorem parentCount_eq_zero (g : Graph) (v : Nat)
    (h : ∀ e ∈ g.edges, e.child ≠ some v) : parentCount g v = 0 := by
  unfold parentCount
  rw [List.countP_eq_zero]
  intro e he
  simpa using h e he

theorem childCount_eq_zero (g : Graph) (v : Nat)
    (h : ∀ e ∈ g.edges, e.parent ≠ some v) : childCount g v = 0 := by
  unfold childCount
  rw [List.countP_eq_zero]
  intro e he
  simpa using h e he

theorem isLive_iff (connector : List TVertexDescriptor) (i : Nat) :
    isLive connector i ↔ ∃ v, connector.getD i nilVertex = some v := by
  unfold isLive nilVertex
  cases connector.getD i none <;> simp

theorem isLive_lt (connector : List TVertexDescriptor) (i : Nat) (h : isLive connector i) :
    i < connector.length := by
  by_contra hlt
  apply h
  simp [List.getD_eq_getElem?_getD, List.getElem?_eq_none (not_lt.mp hlt)]

/-- Two live slots exist when at least two slots are live. -/
theorem exists_live_pair (n : Nat) (connector : List TVertexDescriptor)
    (h : 2 ≤ (liveSet n connector).card) :
    ∃ p q, p < q ∧ q < n ∧ isLive connector p ∧ isLive connector q := by
  obtain ⟨a, ha, b, hb, hab⟩ := Finset.one_lt_card.mp h
  simp only [liveSet, Finset.mem_filter, Finset.mem_range] at ha hb
  rcases Nat.lt_or_gt_of_ne hab with h1 | h1
  · exact ⟨a, b, h1, hb.1, ha.2, hb.2⟩
  · exact ⟨b, a, h1, ha.1, hb.2, ha.2⟩

/-- The pair search finds two distinct live slots when two exist. -/
theorem selectPair_found (n : Nat) (s : NJState)
    (h : 2 ≤ (liveSet n s.connector).card) :
    (selectPair n s).mini < (selectPair n s).minj ∧ (selectPair n s).minj < n ∧
    isLive s.connector (selectPair n s).mini ∧ isLive s.connector (selectPair n s).minj := by
  obtain ⟨p, q, hpq, hq, hp, hq2⟩ := exists_live_pair n s.connector h
  have hinv := selectPair_inv n s (by omega)
  have hnf : (selectPair n s).notFound = false := by
    cases hx : (selectPair n s).notFound with
    | false => rfl
    | true => exact absurd (Or.inl hq) (hinv.none_found hx p q hpq hq hp hq2)
  exact ⟨(hinv.lt hnf).1, (hinv.lt hnf).2, (hinv.live hnf).1, (hinv.live hnf).2⟩

/-- The connector table after a merge of `(mini, minj)`. -/
theorem connector_merge (connector : List TVertexDescriptor) (mini minj : Nat)
    (v : TVertexDescriptor) (hi : mini < connector.length) (hij : mini ≠ minj) (i : Nat) :
    ((connector.set minj nilVertex).set mini v).getD i nilVertex =
      if i = mini then v else if i = minj then nilVertex else connector.getD i nilVertex := by
  rw [getD_set, getD_set]
  by_cases h1 : i = mini
  · subst h1; simp [hi]
  · have h1' : ¬ mini = i := fun h => h1 h.symm
    by_cases h2 : i = minj
    · subst h2
      by_cases h3 : i < connector.length
      · simp [h1, h1', h3]
      · simp [h1, h1', h3, List.getD_eq_getElem?_getD, List.getElem?_eq_none (not_lt.mp h3)]
    · have h2' : ¬ minj = i := fun h => h2 h.symm
      simp [h1, h1', h2, h2']

theorem updateLoop_result (n mini minj : Nat) (connector : List TVertexDescriptor) (g : Graph)
    (old : List ℚ) (hold : MatInv n old) (hi : mini < n) (hj : minj < n) (hij : mini ≠ minj)
    (hdead : ¬ isLive connector minj) (d : List ℚ) (sob ns : ℚ) (r : Except Aborted UpdateState)
    (hr : forLoopE 0 n (updateBody n mini minj connector g) ⟨old, d, sob, ns⟩ = r) :
    ∃ u, r = .ok u ∧ u.mat.length = old.length ∧
      ∀ a b, a < n → b < n → entry n u.mat a b = mergedEntry n old connector mini minj n a b := by
  obtain ⟨u, hu, h1, h2⟩ := updateLoop_spec n mini minj connector g old hold hi hj hij hdead d sob ns
  exact ⟨u, by rw [← hr, hu], h1, h2⟩

/-- The shape of the state after one merge step: no assertion fails, one vertex
and two edges are added, and the matrix is the merged matrix. -/
theorem mergeStep_spec (n : Nat) (s : NJState) (hm : MatInv n s.mat)
    (hlt : (selectPair n s).mini < (selectPair n s).minj) (hjn : (selectPair n s).minj < n)
    (hil : (selectPair n s).mini < s.connector.length) :
    ∃ s1, mergeStep n s = .ok s1 ∧
      s1.connector = (s.connector.set (selectPair n s).minj nilVertex).set (selectPair n s).mini
        (some s.g.numVertices) ∧
      s1.g.numVertices = s.g.numVertices + 1 ∧ s1.g.data_root = s.g.data_root ∧
      (∃ wi wj, s1.g.edges = s.g.edges ++
        [⟨some s.g.numVertices, s.connector.getD (selectPair n s).mini nilVertex, wi⟩,
         ⟨some s.g.numVertices, s.connector.getD (selectPair n s).minj nilVertex, wj⟩]) ∧
      s1.mat.length = s.mat.length ∧
      ∀ a b, a < n → b < n → entry n s1.mat a b =
        mergedEntry n s.mat s1.connector (selectPair n s).mini (selectPair n s).minj n a b := by
  have hdead : ¬ isLive ((s.connector.set (selectPair n s).minj nilVertex).set
      (selectPair n s).mini (some s.g.numVertices)) (selectPair n s).minj := by
    unfold isLive
    rw [connector_merge _ _ _ _ hil (by omega)]
    simp [show (selectPair n s).minj ≠ (selectPair n s).mini by omega]
  unfold mergeStep
  dsimp only
  split
  · rename_i e heq
    obtain ⟨u, hu, -⟩ := updateLoop_result n _ _ _ _ s.mat hm (by omega) hjn (by omega) hdead
      _ _ _ _ heq
    cases hu
  · rename_i u heq
    obtain ⟨u1, hu, h1, h2⟩ := updateLoop_result n _ _ _ _ s.mat hm (by omega) hjn (by omega)
      hdead _ _ _ _ heq
    cases hu
    refine ⟨_, rfl, rfl, rfl, rfl, ?_, h1, h2⟩
    refine ⟨?_, ?_, ?_⟩
    pick_goal 3
    · simp only [addEdge, addVertex, List.append_assoc, List.singleton_append]
      exact rfl

theorem parentCount_two (g g1 : Graph) (e1 e2 : Edge) (h : g1.edges = g.edges ++ [e1, e2])
    (v : Nat) :
    parentCount g1 v = parentCount g v + (if e1.child = some v then 1 else 0)
      + (if e2.child = some v then 1 else 0) := by
  unfold parentCount
  rw [h]
  simp only [List.countP_append, List.countP_cons, List.countP_nil]
  by_cases h1 : e1.child = some v <;> by_cases h2 : e2.child = some v <;> simp [h1, h2]

theorem childCount_two (g g1 : Graph) (e1 e2 : Edge) (h : g1.edges = g.edges ++ [e1, e2])
    (v : Nat) :
    childCount g1 v = childCount g v + (if e1.parent = some v then 1 else 0)
      + (if e2.parent = some v then 1 else 0) := by
  unfold childCount
  rw [h]
  simp only [List.countP_append, List.countP_cons, List.countP_nil]
  by_cases h1 : e1.parent = some v <;> by_cases h2 : e2.parent = some v <;> simp [h1, h2]

/-- No edge leads to a vertex that does not exist yet. -/
theorem parentCount_fresh (n k : Nat) (s : NJState) (ht : TreeInv n k s) (v : Nat)
    (hv : s.g.numVertices ≤ v) : parentCount s.g v = 0 := by
  apply parentCount_eq_zero
  intro e he hc
  obtain ⟨p, c, _, h2, h3, h4⟩ := ht.edges_wf e he
  rw [h2] at hc
  cases hc
  omega

theorem childCount_fresh (n k : Nat) (s : NJState) (ht : TreeInv n k s) (v : Nat)
    (hv : s.g.numVertices ≤ v) : childCount s.g v = 0 := by
  apply childCount_eq_zero
  intro e he hc
  obtain ⟨p, c, h1, _, h3, h4⟩ := ht.edges_wf e he
  rw [h1] at hc
  cases hc
  omega

/-- One merge step keeps the matrix symmetric and the forest well formed, and
fails no assertion. -/
theorem mergeStep_inv (n k : Nat) (s : NJState) (hm : MatInv n s.mat) (ht : TreeInv n k s)
    (hk : k + 2 ≤ n) :
    ∃ s1, mergeStep n s = .ok s1 ∧ MatInv n s1.mat ∧ TreeInv n (k + 1) s1 := by
  have hcard : 2 ≤ (liveSet n s.connector).card := by have := ht.live_card; omega
  obtain ⟨hlt, hjn, hli, hlj⟩ := selectPair_found n s hcard
  have hil := isLive_lt _ _ hli
  obtain ⟨s1, hs1, hconn, hnum, -, ⟨wi, wj, hedges⟩, hlen, hent⟩ :=
    mergeStep_spec n s hm hlt hjn hil
  obtain ⟨vi, hvi⟩ := (isLive_iff _ _).mp hli
  obtain ⟨vj, hvj⟩ := (isLive_iff _ _).mp hlj
  generalize hmi : (selectPair n s).mini = mini at *
  generalize hmj : (selectPair n s).minj = minj at *
  have hget : ∀ i, s1.connector.getD i nilVertex =
      if i = mini then some s.g.numVertices else if i = minj then nilVertex
      else s.connector.getD i nilVertex := by
    intro i; rw [hconn]; exact connector_merge _ _ _ _ hil (by omega) i
  have hvij : vi ≠ vj := by
    intro h
    have := ht.conn_inj mini minj vi hvi (h ▸ hvj)
    omega
  have hvi_lt := ht.conn_lt _ _ hvi
  have hvj_lt := ht.conn_lt _ _ hvj
  rw [hvi, hvj] at hedges
  have hpc := fun v => parentCount_two s.g s1.g _ _ hedges v
  have hcc := fun v => childCount_two s.g s1.g _ _ hedges v
  simp only [Option.some.injEq] at hpc hcc
  refine ⟨s1, hs1, ⟨by rw [hlen]; exact hm.len, ?_⟩, ?_⟩
  · intro a b ha hb
    rw [hent a b ha hb, hent b a hb ha]
    exact mergedEntry_symm n s.mat hm _ _ _ _ a b ha hb
  · constructor
    · rw [hconn]; simp [ht.conn_len]
    · rw [hnum, ht.num]; omega
    · have hlive1 : ∀ i, isLive s1.connector i ↔ (i ≠ minj ∧ isLive s.connector i) := by
        intro i
        unfold isLive
        rw [hget]
        by_cases h1 : i = mini
        · subst h1
          simp only [if_true]
          exact ⟨fun _ => ⟨by omega, hli⟩, fun _ => by simp [nilVertex]⟩
        · by_cases h2 : i = minj
          · subst h2; simp [h1]
          · simp [h1, h2]
      have hset : liveSet n s1.connector = (liveSet n s.connector).erase minj := by
        ext i
        simp only [liveSet, Finset.mem_filter, Finset.mem_range, Finset.mem_erase, hlive1]
        tauto
      have hmem : minj ∈ liveSet n s.connector := by
        simp only [liveSet, Finset.mem_filter, Finset.mem_range]
        exact ⟨hjn, hlj⟩
      rw [hset, Finset.card_erase_of_mem hmem]
      have := ht.live_card
      omega
    · intro i v h
      rw [hget] at h
      split_ifs at h with h1 h2
      · cases h; omega
      · cases h
      · have := ht.conn_lt i v h; omega
    · intro i j v h1 h2
      rw [hget] at h1 h2
      split_ifs at h1 h2 with c1 c2 c3 c4 c5 c6
      · omega
      · cases h2
      · cases h1; have := ht.conn_lt j _ h2; omega
      · cases h1
      · cases h1
      · cases h1
      · cases h2; have := ht.conn_lt i _ h1; omega
      · cases h2
      · exact ht.conn_inj i j v h1 h2
    · intro e he
      rw [hedges] at he
      simp only [List.mem_append, List.mem_cons, List.mem_singleton, List.not_mem_nil,
        or_false] at he
      rcases he with he | he | he
      · obtain ⟨p, c, h1, h2, h3, h4⟩ := ht.edges_wf e he
        exact ⟨p, c, h1, h2, h3, by omega⟩
      · subst he; exact ⟨_, _, rfl, rfl, hvi_lt, by omega⟩
      · subst he; exact ⟨_, _, rfl, rfl, hvj_lt, by omega⟩
    · intro i v h
      rw [hget] at h
      rw [hpc]
      split_ifs at h with h1 h2
      · cases h
        rw [parentCount_fresh n k s ht _ (le_refl _)]
        simp [show vi ≠ s.g.numVertices by omega, show vj ≠ s.g.numVertices by omega]
      · cases h
      · have e1 : vi ≠ v := fun hh => h1 (ht.conn_inj i mini v h (hh ▸ hvi))
        have e2 : vj ≠ v := fun hh => h2 (ht.conn_inj i minj v h (hh ▸ hvj))
        rw [ht.parents_live i v h]
        simp [e1, e2]
    · intro v hv hdead
      rw [hpc]
      have hne : v ≠ s.g.numVertices := by
        intro hh
        apply hdead mini
        rw [hget]; simp [hh]
      have hv2 : v < s.g.numVertices := by omega
      by_cases e1 : vi = v
      · subst e1
        rw [ht.parents_live mini vi hvi]
        simp [show vj ≠ vi from fun h => hvij h.symm]
      · by_cases e2 : vj = v
        · subst e2
          rw [ht.parents_live minj vj hvj]
          simp [e1]
        · have hd : ∀ i, s.connector.getD i nilVertex ≠ some v := by
            intro i hi
            by_cases c1 : i = mini
            · subst c1; rw [hvi] at hi; cases hi; exact e1 rfl
            · by_cases c2 : i = minj
              · subst c2; rw [hvj] at hi; cases hi; exact e2 rfl
              · apply hdead i
                rw [hget, if_neg c1, if_neg c2]; exact hi
          rw [ht.parents_dead v hv2 hd]
          simp [e1, e2]
    · intro v hv
      rw [hcc, ht.children_leaf v hv]
      have : s.g.numVertices ≠ v := by have := ht.num; omega
      simp [this]
    · intro v hv1 hv2
      rw [hcc]
      by_cases h : v = s.g.numVertices
      · subst h
        rw [childCount_fresh n k s ht _ (le_refl _)]
        simp
      · have hne : s.g.numVertices ≠ v := fun hh => h hh.symm
        rw [ht.children_inner v hv1 (by omega), if_neg hne]

/-! ## The merge loop and its initial state -/

/-- The merge loop fails no assertion and keeps the invariants. -/
theorem mergeLoop_inv (n : Nat) : ∀ (m k : Nat) (s : NJState), MatInv n s.mat → TreeInv n k s →
    k + m + 1 ≤ n →
    ∃ s1, mergeLoop n m s = .ok s1 ∧ MatInv n s1.mat ∧ TreeInv n (k + m) s1 := by
  intro m
  induction m with
  | zero => intro k s hm ht _; exact ⟨s, rfl, hm, ht⟩
  | succ m ih =>
    intro k s hm ht hk
    obtain ⟨s1, h1, hm1, ht1⟩ := mergeStep_inv n k s hm ht (by omega)
    obtain ⟨s2, h2, hm2, ht2⟩ := ih (k + 1) s1 hm1 ht1 (by omega)
    refine ⟨s2, ?_, hm2, ?_⟩
    · simp [mergeLoop, h1, h2]
    · have e : k + (m + 1) = k + 1 + m := by omega
      rw [e]; exact ht2

/-- The leaves, the connector table and the matrix after the first
initialisation. -/
theorem initLeaves_spec (n : Nat) (g : Graph) (connector : List TVertexDescriptor)
    (mat : List ℚ) (hc : connector.length = n) (hlen : n * n ≤ mat.length) :
    (initLeaves n g connector mat).1.numVertices = g.numVertices + n ∧
    (initLeaves n g connector mat).1.edges = g.edges ∧
    (initLeaves n g connector mat).1.data_root = g.data_root ∧
    (initLeaves n g connector mat).2.1.length = n ∧
    (∀ i, (initLeaves n g connector mat).2.1.getD i nilVertex
      = if i < n then some i else nilVertex) ∧
    (initLeaves n g connector mat).2.2.length = mat.length ∧
    ∀ a b, a < n → b < n → entry n (initLeaves n g connector mat).2.2 a b
      = if a = b then 0 else entry n mat a b := by
  have h := forLoop_inv 0 n (fun i (st : Graph × List TVertexDescriptor × List ℚ) =>
      ((addVertex st.1).1, st.2.1.set i (some i), st.2.2.set (i * n + i) 0)) (g, connector, mat)
    (fun J st => st.1.numVertices = g.numVertices + J ∧ st.1.edges = g.edges ∧
      st.1.data_root = g.data_root ∧ st.2.1.length = n ∧
      (∀ i, st.2.1.getD i nilVertex = if i < J then some i else connector.getD i nilVertex) ∧
      st.2.2.length = mat.length ∧
      ∀ a b, a < n → b < n → entry n st.2.2 a b = if a = b ∧ a < J then 0 else entry n mat a b)
    (Nat.zero_le n) ⟨rfl, rfl, rfl, hc, fun i => by simp, rfl, fun a b _ _ => by simp⟩
    (by
      intro J st _ hJ ⟨h1, h2, h3, h4, h5, h6, h7⟩
      refine ⟨by simp [addVertex, h1]; omega, by simp [addVertex, h2], by simp [addVertex, h3],
        by simp [h4], ?_, by simp [h6], ?_⟩
      · intro i
        show (st.2.1.set J (some J)).getD i nilVertex = _
        rw [getD_set, h5]
        by_cases hi : J = i
        · subst hi; simp [h4, hJ]
        · have : ¬ (J = i ∧ J < st.2.1.length) := fun hh => hi hh.1
          rw [if_neg this]
          have e : (i < J + 1) ↔ (i < J) := by omega
          simp only [e]
      · intro a b ha hb
        show entry n (st.2.2.set (J * n + J) 0) a b = _
        rw [entry_set n _ a b J J 0 hb hJ hJ (by rw [h6]; exact hlen), h7 a b ha hb]
        by_cases hab : a = J ∧ b = J
        · obtain ⟨rfl, rfl⟩ := hab; simp
        · rw [if_neg hab]
          have e : (a = b ∧ a < J + 1) ↔ (a = b ∧ a < J) := by omega
          simp only [e])
  obtain ⟨h1, h2, h3, h4, h5, h6, h7⟩ := h
  refine ⟨h1, h2, h3, h4, ?_, h6, ?_⟩
  · intro i
    have := h5 i
    unfold initLeaves
    rw [this]
    by_cases hi : i < n
    · simp [hi]
    · simp [hi, List.getD_eq_getElem?_getD, List.getElem?_eq_none (by omega : connector.length ≤ i),
        nilVertex]
  · intro a b ha hb
    have := h7 a b ha hb
    unfold initLeaves
    rw [this]
    have e : (a = b ∧ a < n) ↔ a = b := by constructor <;> intro hh <;> [exact hh.1; exact ⟨hh, ha⟩]
    simp only [e]

theorem liveSet_card_eq (n : Nat) (connector : List TVertexDescriptor) :
    (liveSet n connector).card
      = ((List.range n).filter (fun i => decide (isLive connector i))).length := by
  rfl

/-- The merge loop is entered with a symmetric matrix and `n` isolated leaves. -/
theorem startState_inv (n : Nat) (mat : List ℚ) (hn : 1 ≤ n) (hlen : n * n ≤ mat.length) :
    MatInv n (startState n mat).mat ∧ TreeInv n 0 (startState n mat) := by
  obtain ⟨h1, h2, h3, h4, h5, h6, h7⟩ := initLeaves_spec n (clearVertices Graph.empty)
    (List.replicate n nilVertex) mat (by simp) hlen
  obtain ⟨c1, c2⟩ := copyTriangle_spec n
    (initLeaves n (clearVertices Graph.empty) (List.replicate n nilVertex) mat).2.2 hn
    (by rw [h6]; exact hlen)
  have hconn : (startState n mat).connector
      = (initLeaves n (clearVertices Graph.empty) (List.replicate n nilVertex) mat).2.1 := rfl
  have hg : (startState n mat).g
      = (initLeaves n (clearVertices Graph.empty) (List.replicate n nilVertex) mat).1 := rfl
  have hmat : (startState n mat).mat = (copyTriangle n
      (initLeaves n (clearVertices Graph.empty) (List.replicate n nilVertex) mat).2.2).1 := rfl
  have hedges : (startState n mat).g.edges = [] := by rw [hg, h2]; rfl
  have hnum : (startState n mat).g.numVertices = n := by
    rw [hg, h1]; simp [clearVertices]
  have hget : ∀ i v, (startState n mat).connector.getD i nilVertex = some v → i < n ∧ v = i := by
    intro i v h
    rw [hconn, h5] at h
    by_cases hi : i < n
    · rw [if_pos hi] at h; cases h; exact ⟨hi, rfl⟩
    · rw [if_neg hi] at h; cases h
  constructor
  · constructor
    · rw [hmat, c1, h6]; exact hlen
    · intro a b ha hb
      rw [hmat, c2 a b ha hb, c2 b a hb ha]
      rcases Nat.lt_trichotomy a b with h | h | h
      · rw [if_neg (by omega), if_pos h]
      · subst h; rfl
      · rw [if_pos h, if_neg (by omega)]
  · constructor
    · rw [hconn]; exact h4
    · rw [hnum]; rfl
    · have : liveSet n (startState n mat).connector = Finset.range n := by
        ext i
        simp only [liveSet, isLive, Finset.mem_filter, Finset.mem_range, hconn, h5]
        constructor
        · exact fun h => h.1
        · intro h; exact ⟨h, by simp [h, nilVertex]⟩
      rw [this]; simp
    · intro i v h
      rw [hnum]
      have := hget i v h
      omega
    · intro i j v hi hj
      have := hget i v hi
      have := hget j v hj
      omega
    · intro e he
      rw [hedges] at he
      cases he
    · intro i v _
      apply parentCount_eq_zero
      intro e he
      rw [hedges] at he
      cases he
    · intro v hv hd
      exfalso
      rw [hnum] at hv
      apply hd v
      rw [hconn, h5, if_pos hv]
    · intro v _
      apply childCount_eq_zero
      intro e he
      rw [hedges] at he
      cases he
    · intro v h1 h2
      rw [hnum] at h2
      omega

/-! ## The final resolution -/

theorem liveList_succ (J : Nat) (connector : List TVertexDescriptor) :
    liveList (J + 1) connector
      = liveList J connector ++ (if isLive connector J then [J] else []) := by
  unfold liveList
  rw [List.range_succ, List.filter_append]
  by_cases h : isLive connector J <;> simp [h]

/-- The scan for the remaining nodes stores the first three live slots. -/
theorem findRemaining_inv (n : Nat) (connector : List TVertexDescriptor) :
    (findRemaining n connector).1.length = 3 ∧
    (findRemaining n connector).2 = (liveList n connector).length ∧
    ∀ t, t < 3 → t < (liveList n connector).length →
      (findRemaining n connector).1.getD t 0 = (liveList n connector).getD t 0 := by
  unfold findRemaining
  refine forLoop_inv 0 n _ _ (fun J (st : List Nat × Nat) => st.1.length = 3 ∧
      st.2 = (liveList J connector).length ∧
      ∀ t, t < 3 → t < (liveList J connector).length →
        st.1.getD t 0 = (liveList J connector).getD t 0)
    (Nat.zero_le n) ⟨by simp, by simp [liveList], fun t _ h => by simp [liveList] at h⟩ ?_
  intro J st _ _ ⟨h1, h2, h3⟩
  show (fun (st : List Nat × Nat) => st.1.length = 3 ∧ st.2 = (liveList (J + 1) connector).length ∧
      ∀ t, t < 3 → t < (liveList (J + 1) connector).length →
        st.1.getD t 0 = (liveList (J + 1) connector).getD t 0)
    (if connector.getD J nilVertex ≠ nilVertex then (st.1.set st.2 J, st.2 + 1) else st)
  rw [liveList_succ]
  by_cases hl : connector.getD J nilVertex ≠ nilVertex
  · have hl2 : isLive connector J := hl
    rw [if_pos hl, if_pos hl2]
    refine ⟨by simp [h1], by simp [h2], ?_⟩
    intro t ht1 ht2
    show (st.1.set st.2 J).getD t 0 = _
    rw [getD_set]
    by_cases ht : st.2 = t
    · rw [if_pos ⟨ht, by omega⟩]
      rw [List.getD_eq_getElem?_getD, List.getElem?_append_right (by omega)]
      simp [← ht, h2]
    · rw [if_neg (fun hh => ht hh.1)]
      have hlt : t < (liveList J connector).length := by
        simp only [List.length_append, List.length_singleton] at ht2
        omega
      rw [h3 t ht1 hlt]
      simp [List.getD_eq_getElem?_getD, List.getElem?_append_left hlt]
  · have hl2 : ¬ isLive connector J := hl
    rw [if_neg hl, if_neg hl2, List.append_nil]
    exact ⟨h1, h2, h3⟩

theorem liveList_mem (n : Nat) (connector : List TVertexDescriptor) (i : Nat) :
    i ∈ liveList n connector ↔ i < n ∧ isLive connector i := by
  simp [liveList]

theorem liveList_sorted (n : Nat) (connector : List TVertexDescriptor) :
    (liveList n connector).Pairwise (· < ·) :=
  List.Pairwise.filter _ (List.pairwise_lt_range n)

/-- With exactly three live slots, the scan yields them in increasing order. -/
theorem findRemaining_three (n : Nat) (connector : List TVertexDescriptor)
    (h : (liveSet n connector).card = 3) :
    ∃ a b c, (findRemaining n connector).1 = [a, b, c] ∧ (findRemaining n connector).2 = 3 ∧
      a < b ∧ b < c ∧ c < n ∧
      isLive connector a ∧ isLive connector b ∧ isLive connector c ∧
      ∀ i, i < n → isLive connector i → i = a ∨ i = b ∨ i = c := by
  rw [liveSet_card_eq] at h
  obtain ⟨h1, h2, h3⟩ := findRemaining_inv n connector
  have hL : (liveList n connector).length = 3 := h
  obtain ⟨a, b, c, habc⟩ := List.length_eq_three.mp hL
  obtain ⟨x, y, z, hxyz⟩ := List.length_eq_three.mp h1
  have e0 := h3 0 (by omega) (by omega)
  have e1 := h3 1 (by omega) (by omega)
  have e2 := h3 2 (by omega) (by omega)
  rw [habc, hxyz] at e0 e1 e2
  simp at e0 e1 e2
  subst e0 e1 e2
  have hs := liveList_sorted n connector
  rw [habc] at hs
  simp only [List.pairwise_cons, List.mem_cons, List.mem_singleton, forall_eq_or_imp, forall_eq,
    List.not_mem_nil, false_imp_iff, implies_true, List.Pairwise.nil, and_true] at hs
  have ma := (liveList_mem n connector x).mp (by rw [habc]; simp)
  have mb := (liveList_mem n connector y).mp (by rw [habc]; simp)
  have mc := (liveList_mem n connector z).mp (by rw [habc]; simp)
  refine ⟨x, y, z, hxyz, by rw [h2, hL], hs.1.1, hs.2, mc.1, ma.2, mb.2, mc.2, ?_⟩
  intro i hi hl
  have := (liveList_mem n connector i).mpr ⟨hi, hl⟩
  rw [habc] at this
  simpa using this

/-- The shape of the tree after the final resolution of the three remaining
nodes `a < b < c`. -/
theorem finalJoin_spec (n : Nat) (s : NJState) (a b c : Nat)
    (h : (findRemaining n s.connector).1 = [a, b, c]) :
    (finalJoin n s).numVertices = s.g.numVertices + 2 ∧
    (finalJoin n s).data_root = some (s.g.numVertices + 1) ∧
    ∃ w0 w1 w2 w3, (finalJoin n s).edges = s.g.edges ++
      [⟨some s.g.numVertices, s.connector.getD a nilVertex, w0⟩,
       ⟨some s.g.numVertices, s.connector.getD b nilVertex, w1⟩,
       ⟨some (s.g.numVertices + 1), s.connector.getD c nilVertex, w2⟩,
       ⟨some (s.g.numVertices + 1), some s.g.numVertices, w3⟩] := by
  refine ⟨rfl, rfl, ?_⟩
  refine ⟨?_, ?_, ?_, ?_, ?_⟩
  pick_goal 5
  · unfold finalJoin
    simp only [h, addEdge, addVertex, List.append_assoc, List.singleton_append, List.getD_cons_zero,
      List.getD_cons_succ]
    exact rfl

theorem parentCount_four (g g1 : Graph) (e1 e2 e3 e4 : Edge)
    (h : g1.edges = g.edges ++ [e1, e2, e3, e4]) (v : Nat) :
    parentCount g1 v = parentCount g v + (if e1.child = some v then 1 else 0)
      + (if e2.child = some v then 1 else 0) + (if e3.child = some v then 1 else 0)
      + (if e4.child = some v then 1 else 0) := by
  unfold parentCount
  rw [h]
  simp only [List.countP_append, List.countP_cons, List.countP_nil]
  by_cases h1 : e1.child = some v <;> by_cases h2 : e2.child = some v <;>
    by_cases h3 : e3.child = some v <;> by_cases h4 : e4.child = some v <;>
    simp [h1, h2, h3, h4]

theorem childCount_four (g g1 : Graph) (e1 e2 e3 e4 : Edge)
    (h : g1.edges = g.edges ++ [e1, e2, e3, e4]) (v : Nat) :
    childCount g1 v = childCount g v + (if e1.parent = some v then 1 else 0)
      + (if e2.parent = some v then 1 else 0) + (if e3.parent = some v then 1 else 0)
      + (if e4.parent = some v then 1 else 0) := by
  unfold childCount
  rw [h]
  simp only [List.countP_append, List.countP_cons, List.countP_nil]
  by_cases h1 : e1.parent = some v <;> by_cases h2 : e2.parent = some v <;>
    by_cases h3 : e3.parent = some v <;> by_cases h4 : e4.parent = some v <;>
    simp [h1, h2, h3, h4]

/-- The final resolution turns a forest with three remaining roots into a
rooted binary tree with two more vertices. -/
theorem finalJoin_tree (n k : Nat) (s : NJState) (ht : TreeInv n k s) (hk : k + 3 = n) :
    (finalJoin n s).numVertices = 2 * n - 1 ∧ IsRootedBinaryTree n (finalJoin n s) := by
  have hcard : (liveSet n s.connector).card = 3 := by have := ht.live_card; omega
  obtain ⟨a, b, c, hl, -, hab, hbc, hcn, hla, hlb, hlc, hall⟩ :=
    findRemaining_three n s.connector hcard
  obtain ⟨hnum, hroot, w0, w1, w2, w3, hedges⟩ := finalJoin_spec n s a b c hl
  obtain ⟨va, hva⟩ := (isLive_iff _ _).mp hla
  obtain ⟨vb, hvb⟩ := (isLive_iff _ _).mp hlb
  obtain ⟨vc, hvc⟩ := (isLive_iff _ _).mp hlc
  rw [hva, hvb, hvc] at hedges
  have hpc := fun v => parentCount_four s.g _ _ _ _ _ hedges v
  have hcc := fun v => childCount_four s.g _ _ _ _ _ hedges v
  simp only [Option.some.injEq] at hpc hcc
  have hva_lt := ht.conn_lt _ _ hva
  have hvb_lt := ht.conn_lt _ _ hvb
  have hvc_lt := ht.conn_lt _ _ hvc
  have hab2 : va ≠ vb := fun hh => by have := ht.conn_inj a b va hva (hh ▸ hvb); omega
  have hac2 : va ≠ vc := fun hh => by have := ht.conn_inj a c va hva (hh ▸ hvc); omega
  have hbc2 : vb ≠ vc := fun hh => by have := ht.conn_inj b c vb hvb (hh ▸ hvc); omega
  have hsnum := ht.num
  refine ⟨by rw [hnum, hsnum]; omega, ?_⟩
  constructor
  · rw [hnum]; omega
  · intro e he
    rw [hedges] at he
    simp only [List.mem_append, List.mem_cons, List.mem_singleton, List.not_mem_nil,
      or_false] at he
    rw [hnum]
    rcases he with he | he | he | he | he
    · obtain ⟨p, c, h1, h2, h3, h4⟩ := ht.edges_wf e he
      exact ⟨p, c, h1, h2, h3, by omega⟩
    · subst he; exact ⟨_, _, rfl, rfl, hva_lt, by omega⟩
    · subst he; exact ⟨_, _, rfl, rfl, hvb_lt, by omega⟩
    · subst he; exact ⟨_, _, rfl, rfl, by omega, by omega⟩
    · subst he; exact ⟨_, _, rfl, rfl, by omega, by omega⟩
  · refine ⟨s.g.numVertices + 1, hroot, by rw [hnum]; omega, ?_, ?_⟩
    · rw [hpc, parentCount_fresh n k s ht _ (by omega)]
      simp [show va ≠ s.g.numVertices + 1 by omega, show vb ≠ s.g.numVertices + 1 by omega,
        show vc ≠ s.g.numVertices + 1 by omega]
    · intro v hv hvr
      rw [hnum] at hv
      rw [hpc]
      by_cases e0 : v = s.g.numVertices
      · subst e0
        rw [parentCount_fresh n k s ht _ (le_refl _)]
        simp [show va ≠ s.g.numVertices by omega, show vb ≠ s.g.numVertices by omega,
          show vc ≠ s.g.numVertices by omega]
      · have hv2 : v < s.g.numVertices := by omega
        have e0' : s.g.numVertices ≠ v := fun hh => e0 hh.symm
        by_cases e1 : va = v
        · subst e1
          rw [ht.parents_live a va hva]
          simp [e0', hab2.symm, hac2.symm]
        · by_cases e2 : vb = v
          · subst e2
            rw [ht.parents_live b vb hvb]
            simp [e0', hab2, hbc2.symm]
          · by_cases e3 : vc = v
            · subst e3
              rw [ht.parents_live c vc hvc]
              simp [e0', hac2, hbc2]
            · have hd : ∀ i, s.connector.getD i nilVertex ≠ some v := by
                intro i hi
                have hli : isLive s.connector i := (isLive_iff _ _).mpr ⟨v, hi⟩
                have hin : i < n := by
                  have := isLive_lt _ _ hli
                  rw [ht.conn_len] at this; exact this
                rcases hall i hin hli with h | h | h
                · subst h; rw [hva] at hi; cases hi; exact e1 rfl
                · subst h; rw [hvb] at hi; cases hi; exact e2 rfl
                · subst h; rw [hvc] at hi; cases hi; exact e3 rfl
              rw [ht.parents_dead v hv2 hd]
              simp [e0', e1, e2, e3]
  · intro v hv
    rw [hcc, ht.children_leaf v hv]
    simp [show s.g.numVertices ≠ v by omega, show s.g.numVertices + 1 ≠ v by omega]
  · intro v hv1 hv2
    rw [hnum] at hv2
    rw [hcc]
    by_cases e0 : v = s.g.numVertices
    · subst e0
      rw [childCount_fresh n k s ht _ (le_refl _)]
      simp
    · by_cases e1 : v = s.g.numVertices + 1
      · subst e1
        rw [childCount_fresh n k s ht _ (by omega)]
        simp
      · have e0' : s.g.numVertices ≠ v := fun hh => e0 hh.symm
        have e1' : s.g.numVertices + 1 ≠ v := fun hh => e1 hh.symm
        rw [ht.children_inner v hv1 (by omega), if_neg e0', if_neg e1']

/-! ## neighbour_joining -/

theorem sqrt_sq_le (mat : List ℚ) : Nat.sqrt mat.length * Nat.sqrt mat.length ≤ mat.length :=
  Nat.sqrt_le mat.length

/-- For `n ≥ 3` no assertion fails: the merge loop ends in a state with three
remaining nodes and the result is its final resolution. -/
theorem neighbour_joining_n_ge3 (n : Nat) (mat : List ℚ) (hn : 3 ≤ n)
    (hlen : n * n ≤ mat.length) :
    ∃ s, mergeLoop n (n - 3) (startState n mat) = .ok s ∧ MatInv n s.mat ∧
      TreeInv n (n - 3) s ∧ neighbour_joining_n n mat = .ok (finalJoin n s) := by
  obtain ⟨hm, ht⟩ := startState_inv n mat (by omega) hlen
  obtain ⟨s, hs, hm1, ht1⟩ := mergeLoop_inv n (n - 3) 0 (startState n mat) hm ht (by omega)
  rw [Nat.zero_add] at ht1
  refine ⟨s, hs, hm1, ht1, ?_⟩
  have h0 : n ≠ 0 := by omega
  have h1 : n ≠ 1 := by omega
  have h2 : n ≠ 2 := by omega
  have hmc : main_cycle
      (initLeaves n (clearVertices Graph.empty) (List.replicate n nilVertex) mat).2.2
      (initLeaves n (clearVertices Graph.empty) (List.replicate n nilVertex) mat).1 n
      (initLeaves n (clearVertices Graph.empty) (List.replicate n nilVertex) mat).2.1
      (List.replicate n 0) = .ok s := hs
  unfold neighbour_joining_n
  simp only [h0, h1, h2, if_false, hmc]

/-- For `n ≥ 3` the result is a rooted binary tree with `2n - 1` vertices. -/
theorem neighbour_joining_n_tree (n : Nat) (mat : List ℚ) (hn : 3 ≤ n)
    (hlen : n * n ≤ mat.length) :
    ∃ g, neighbour_joining_n n mat = .ok g ∧ g.numVertices = 2 * n - 1 ∧
      IsRootedBinaryTree n g := by
  obtain ⟨s, -, -, ht, hres⟩ := neighbour_joining_n_ge3 n mat hn hlen
  obtain ⟨h1, h2⟩ := finalJoin_tree n (n - 3) s ht (by omega)
  exact ⟨_, hres, h1, h2⟩

theorem neighbour_joining_n_one (mat : List ℚ) :
    neighbour_joining_n 1 mat = .ok ⟨1, [], some 0⟩ := rfl

theorem neighbour_joining_n_two (mat : List ℚ) :
    neighbour_joining_n 2 mat = .ok ⟨3,
      [⟨some 2, some 0, roundToSignificantFigures (mat.getD 1 0 / 2) 5⟩,
       ⟨some 2, some 1, roundToSignificantFigures (mat.getD 1 0 / 2) 5⟩], some 2⟩ := rfl

theorem tree_two (w : ℚ) :
    IsRootedBinaryTree 2 ⟨3, [⟨some 2, some 0, w⟩, ⟨some 2, some 1, w⟩], some 2⟩ := by
  constructor
  · simp
  · intro e he
    simp only [List.mem_cons, List.mem_singleton, List.not_mem_nil, or_false] at he
    rcases he with he | he
    · subst he; exact ⟨2, 0, rfl, rfl, by omega, by simp⟩
    · subst he; exact ⟨2, 1, rfl, rfl, by omega, by simp⟩
  · refine ⟨2, rfl, by simp, by simp [parentCount], ?_⟩
    intro v hv hne
    have hv3 : v < 3 := hv
    interval_cases v
    · simp [parentCount]
    · simp [parentCount]
    · exact absurd rfl hne
  · intro v hv
    interval_cases v <;> simp [childCount]
  · intro v h1 h2
    have hv3 : v < 3 := h2
    interval_cases v
    simp [childCount]

/-! ## The claims about neighbour_joining -/

/-- C1, as stated, fails: on the 4-point matrix of the specification the tree
has 7 vertices, not `2 * 4 - 2 = 6`. -/
theorem C1_counterexample :
    Nat.sqrt mat4.length = 4 ∧
    (neighbour_joining mat4).toOption.map Graph.numVertices = some 7 ∧
    (neighbour_joining mat4).toOption.map Graph.numVertices ≠ some (2 * 4 - 2) := by
  decide!

/-- C1, amended: for every input with `n = floor(sqrt(length)) ≥ 3` the tree
returned by `neighbour_joining` has exactly `2n - 1` vertices: the `n` original
leaves `0 .. n-1`, which have no children, and `n - 1` further vertices with two
children each (one per merge step of `main_cycle` and two from the final
resolution). -/
theorem C1_vertex_count (mat : List ℚ) (hn : 3 ≤ Nat.sqrt mat.length) :
    ∃ g, neighbour_joining mat = .ok g ∧ g.numVertices = 2 * Nat.sqrt mat.length - 1 ∧
      (∀ v, v < Nat.sqrt mat.length → childCount g v = 0) ∧
      (∀ v, Nat.sqrt mat.length ≤ v → v < 2 * Nat.sqrt mat.length - 1 → childCount g v = 2) := by
  obtain ⟨g, h1, h2, h3⟩ := neighbour_joining_n_tree _ mat hn (sqrt_sq_le mat)
  exact ⟨g, h1, h2, h3.leaf_children, fun v a b => h3.inner_children v a (by omega)⟩

theorem C1_vertex_count_witness :
    3 ≤ Nat.sqrt mat4.length ∧
    ∃ g, neighbour_joining mat4 = .ok g ∧ g.numVertices = 2 * Nat.sqrt mat4.length - 1 ∧
      (∀ v, v < Nat.sqrt mat4.length → childCount g v = 0) ∧
      (∀ v, Nat.sqrt mat4.length ≤ v → v < 2 * Nat.sqrt mat4.length - 1 →
        childCount g v = 2) :=
  ⟨by decide!, C1_vertex_count mat4 (by decide!)⟩

/-- C3: for every input with `n ≥ 2` the graph returned by `neighbour_joining`
is a rooted binary tree over the original items: the designated root is the
child of no edge, every other vertex is the child of exactly one edge, the
vertices `0 .. n-1` have no children and every other vertex has exactly two. -/
theorem C3_rooted_binary_tree (mat : List ℚ) (hn : 2 ≤ Nat.sqrt mat.length) :
    ∃ g, neighbour_joining mat = .ok g ∧ IsRootedBinaryTree (Nat.sqrt mat.length) g := by
  by_cases h2 : Nat.sqrt mat.length = 2
  · unfold neighbour_joining
    rw [h2, neighbour_joining_n_two]
    exact ⟨_, rfl, tree_two _⟩
  · obtain ⟨g, h1, -, h3⟩ := neighbour_joining_n_tree _ mat (by omega) (sqrt_sq_le mat)
    exact ⟨g, h1, h3⟩

theorem C3_rooted_binary_tree_witness :
    2 ≤ Nat.sqrt matTie.length ∧
    ∃ g, neighbour_joining matTie = .ok g ∧ IsRootedBinaryTree (Nat.sqrt matTie.length) g :=
  ⟨by decide!, C3_rooted_binary_tree matTie (by decide!)⟩

/-- C4: on the 4-point matrix of the specification the single merge iteration
joins the pair `(0, 1)`, with weight 2 to leaf 0 and weight 3 to leaf 1; the
final resolution puts weight 3 on the edge to the merged node, 4 on the edge to
leaf 2, and 2 on each of the two root edges. -/
theorem C4_four_point :
    (selectPair 4 (startState 4 mat4)).mini = 0 ∧
    (selectPair 4 (startState 4 mat4)).minj = 1 ∧
    neighbour_joining mat4 = .ok ⟨7,
      [⟨some 4, some 0, 2⟩, ⟨some 4, some 1, 3⟩, ⟨some 5, some 4, 3⟩, ⟨some 5, some 2, 4⟩,
       ⟨some 6, some 3, 2⟩, ⟨some 6, some 5, 2⟩], some 6⟩ := by
  decide!

/-- C6: base cases of `neighbour_joining`. For `n = 1` the result has one
vertex, no edges, and that vertex is the root; for `n = 2` it has the leaves 0
and 1 and one internal vertex, which is the root, with one edge to each leaf of
weight `roundToSignificantFigures (d(0,1) / 2) 5`, where `d(0,1)` is the entry
at flat index 1. -/
theorem C6_base_cases (mat : List ℚ) :
    (Nat.sqrt mat.length = 1 → neighbour_joining mat = .ok ⟨1, [], some 0⟩) ∧
    (Nat.sqrt mat.length = 2 → neighbour_joining mat = .ok ⟨3,
      [⟨some 2, some 0, roundToSignificantFigures (mat.getD 1 0 / 2) 5⟩,
       ⟨some 2, some 1, roundToSignificantFigures (mat.getD 1 0 / 2) 5⟩], some 2⟩) := by
  constructor
  · intro h; unfold neighbour_joining; rw [h]; rfl
  · intro h; unfold neighbour_joining; rw [h]; rfl

theorem C6_base_cases_witness :
    (Nat.sqrt [(0 : ℚ)].length = 1 ∧ neighbour_joining [0] = .ok ⟨1, [], some 0⟩) ∧
    (Nat.sqrt [(0 : ℚ), 3, 3, 0].length = 2 ∧ neighbour_joining [0, 3, 3, 0] = .ok ⟨3,
      [⟨some 2, some 0, roundToSignificantFigures (([0, 3, 3, 0] : List ℚ).getD 1 0 / 2) 5⟩,
       ⟨some 2, some 1, roundToSignificantFigures (([0, 3, 3, 0] : List ℚ).getD 1 0 / 2) 5⟩],
      some 2⟩) :=
  ⟨⟨by decide!, (C6_base_cases [0]).1 (by decide!)⟩,
   ⟨by decide!, (C6_base_cases [0, 3, 3, 0]).2 (by decide!)⟩⟩

/-- C9, as stated, fails: the input `[0, 2]` has length 2, which is not a
perfect square, and `neighbour_joining` returns a tree with one vertex for it. -/
theorem C9_counterexample :
    (¬ ∃ k, k * k = ([0, 2] : List ℚ).length) ∧
    neighbour_joining [0, 2] = .ok ⟨1, [], some 0⟩ := by
  refine ⟨?_, by decide!⟩
  rintro ⟨k, hk⟩
  have hk2 : k * k = 2 := hk
  have : k < 2 := by nlinarith
  interval_cases k <;> omega

/-- C9, amended: for every input whose length is not a perfect square
`neighbour_joining` raises no error: it takes `n = floor(sqrt(length))`, which
is then at least 1, adds vertices and returns a tree, with 1 vertex for
`n = 1`, 3 for `n = 2` and `2n - 1` for `n ≥ 3`, the last one being the root. -/
theorem C9_non_square (mat : List ℚ) (h : ¬ ∃ k, k * k = mat.length) :
    1 ≤ Nat.sqrt mat.length ∧
    ∃ g, neighbour_joining mat = .ok g ∧
      g.numVertices = (if Nat.sqrt mat.length = 1 then 1 else if Nat.sqrt mat.length = 2 then 3
        else 2 * Nat.sqrt mat.length - 1) ∧
      g.data_root = some (g.numVertices - 1) := by
  have hpos : 1 ≤ Nat.sqrt mat.length := by
    by_contra hc
    have h0 : Nat.sqrt mat.length = 0 := by omega
    have : mat.length = 0 := Nat.sqrt_eq_zero.mp h0
    exact h ⟨0, by rw [this]⟩
  refine ⟨hpos, ?_⟩
  by_cases h1 : Nat.sqrt mat.length = 1
  · refine ⟨⟨1, [], some 0⟩, ?_, by simp [h1], rfl⟩
    unfold neighbour_joining; rw [h1]; rfl
  · by_cases h2 : Nat.sqrt mat.length = 2
    · have hg : neighbour_joining mat = neighbour_joining_n 2 mat := by
        unfold neighbour_joining; rw [h2]
      rw [neighbour_joining_n_two] at hg
      exact ⟨_, hg, by simp [h2], rfl⟩
    · obtain ⟨s, -, -, ht, hres⟩ :=
        neighbour_joining_n_ge3 _ mat (by omega) (sqrt_sq_le mat)
      obtain ⟨h3, -⟩ := finalJoin_tree _ _ s ht (by omega)
      refine ⟨_, hres, by simp [h1, h2, h3], ?_⟩
      have hnum : (finalJoin (Nat.sqrt mat.length) s).numVertices = s.g.numVertices + 2 := rfl
      have hroot : (finalJoin (Nat.sqrt mat.length) s).data_root = some (s.g.numVertices + 1) :=
        rfl
      rw [hroot, hnum]; rfl

theorem C9_non_square_witness :
    (¬ ∃ k, k * k = ([0, 2] : List ℚ).length) ∧ 1 ≤ Nat.sqrt ([0, 2] : List ℚ).length ∧
    ∃ g, neighbour_joining [0, 2] = .ok g ∧
      g.numVertices = (if Nat.sqrt ([0, 2] : List ℚ).length = 1 then 1
        else if Nat.sqrt ([0, 2] : List ℚ).length = 2 then 3
        else 2 * Nat.sqrt ([0, 2] : List ℚ).length - 1) ∧
      g.data_root = some (g.numVertices - 1) :=
  have hns : ¬ ∃ k, k * k = ([0, 2] : List ℚ).length := by
    rintro ⟨k, hk⟩
    have hk2 : k * k = 2 := hk
    have : k < 2 := by nlinarith
    interval_cases k <;> omega
  ⟨hns, C9_non_square [0, 2] hns⟩

/-- C10: `neighbour_joining` rejects `n = 0`. For the empty input the check
`nseq != 0` fails with no vertex created and no matrix entry written; for every
input of length at least 1 that check passes (`n ≥ 1`), and no later
assertion fails either: a tree is returned. -/
theorem C10_rejects_empty (mat : List ℚ) :
    neighbour_joining [] = .error ⟨⟨0, [], nilVertex⟩, []⟩ ∧
    (1 ≤ mat.length → Nat.sqrt mat.length ≠ 0 ∧ ∃ g, neighbour_joining mat = .ok g) := by
  refine ⟨by decide!, fun h => ?_⟩
  have hpos : 1 ≤ Nat.sqrt mat.length := Nat.sqrt_pos.mpr h
  refine ⟨by omega, ?_⟩
  by_cases h1 : Nat.sqrt mat.length = 1
  · exact ⟨_, by unfold neighbour_joining; rw [h1]; rfl⟩
  · by_cases h2 : Nat.sqrt mat.length = 2
    · exact ⟨_, by unfold neighbour_joining; rw [h2]; rfl⟩
    · obtain ⟨g, hg, -⟩ := neighbour_joining_n_tree _ mat (by omega) (sqrt_sq_le mat)
      exact ⟨g, hg⟩

theorem C10_rejects_empty_witness :
    neighbour_joining [] = .error ⟨⟨0, [], nilVertex⟩, []⟩ ∧
    1 ≤ mat4.length ∧ Nat.sqrt mat4.length ≠ 0 ∧ ∃ g, neighbour_joining mat4 = .ok g :=
  ⟨(C10_rejects_empty mat4).1, by decide, (C10_rejects_empty mat4).2 (by decide)⟩

/-- C2, as stated, fails: in the merge iteration on `matTie` the live pairs
`(0, 3)` and `(1, 2)` both attain the least `total`; the first of them in
row-major order is `(0, 3)`, and the pair that is joined is `(1, 2)`. -/
theorem C2_counterexample :
    isLive (startState 4 matTie).connector 0 ∧ isLive (startState 4 matTie).connector 3 ∧
    pairTotal 4 (startState 4 matTie) 0 3 = pairTotal 4 (startState 4 matTie) 1 2 ∧
    (∀ q, q < 4 → ∀ p, p < q →
      pairTotal 4 (startState 4 matTie) 0 3 ≤ pairTotal 4 (startState 4 matTie) p q) ∧
    (selectPair 4 (startState 4 matTie)).mini = 1 ∧
    (selectPair 4 (startState 4 matTie)).minj = 2 ∧
    ¬ ((selectPair 4 (startState 4 matTie)).mini < 0 ∨
      ((selectPair 4 (startState 4 matTie)).mini = 0 ∧
        (selectPair 4 (startState 4 matTie)).minj ≤ 3)) := by
  decide!

/-- C2, amended: in every merge iteration of `main_cycle` the pair that is
joined is a live pair `mini < minj` of least `total`, and when several live
pairs `(i, j)`, `i < j`, attain that least value it is the first one in the scan
order of the search, which goes column by column: the pair with the smallest
`j` and, among those, the smallest `i`. -/
theorem C2_tie_break (n : Nat) (s : NJState) (r c : Nat) (hrc : r < c) (hcn : c < n)
    (hr : isLive s.connector r) (hc : isLive s.connector c) :
    (selectPair n s).mini < (selectPair n s).minj ∧ (selectPair n s).minj < n ∧
    isLive s.connector (selectPair n s).mini ∧ isLive s.connector (selectPair n s).minj ∧
    pairTotal n s (selectPair n s).mini (selectPair n s).minj ≤ pairTotal n s r c ∧
    (pairTotal n s r c = pairTotal n s (selectPair n s).mini (selectPair n s).minj →
      (selectPair n s).minj < c ∨
        ((selectPair n s).minj = c ∧ (selectPair n s).mini ≤ r)) := by
  have hinv := selectPair_inv n s (by omega)
  have hnf : (selectPair n s).notFound = false := by
    cases hx : (selectPair n s).notFound with
    | false => rfl
    | true => exact absurd (Or.inl hcn) (hinv.none_found hx r c hrc hcn hr hc)
  have hv := (hinv.vals hnf).1
  have hl := hinv.least hnf r c hrc hcn hr hc (Or.inl hcn)
  rw [hv] at hl
  refine ⟨(hinv.lt hnf).1, (hinv.lt hnf).2, (hinv.live hnf).1, (hinv.live hnf).2, ?_, ?_⟩
  · rcases hl with h | h
    · exact le_of_lt h
    · exact le_of_eq h.1
  · intro he
    rcases hl with h | h
    · rw [he] at h; exact absurd h (lt_irrefl _)
    · exact h.2

theorem C2_tie_break_witness :
    (0 < 3 ∧ 3 < 4 ∧ isLive (startState 4 matTie).connector 0 ∧
      isLive (startState 4 matTie).connector 3) ∧
    (selectPair 4 (startState 4 matTie)).mini < (selectPair 4 (startState 4 matTie)).minj ∧
    (selectPair 4 (startState 4 matTie)).minj < 4 ∧
    isLive (startState 4 matTie).connector (selectPair 4 (startState 4 matTie)).mini ∧
    isLive (startState 4 matTie).connector (selectPair 4 (startState 4 matTie)).minj ∧
    pairTotal 4 (startState 4 matTie) (selectPair 4 (startState 4 matTie)).mini
      (selectPair 4 (startState 4 matTie)).minj ≤ pairTotal 4 (startState 4 matTie) 0 3 ∧
    (pairTotal 4 (startState 4 matTie) 0 3 =
        pairTotal 4 (startState 4 matTie) (selectPair 4 (startState 4 matTie)).mini
          (selectPair 4 (startState 4 matTie)).minj →
      (selectPair 4 (startState 4 matTie)).minj < 3 ∨
        ((selectPair 4 (startState 4 matTie)).minj = 3 ∧
          (selectPair 4 (startState 4 matTie)).mini ≤ 0)) :=
  ⟨by decide!, C2_tie_break 4 (startState 4 matTie) 0 3 (by decide) (by decide) (by decide!)
    (by decide!)⟩

/-! ## count_kmers -/

theorem mem_setInsert (h x : Nat) (l : List Nat) : x ∈ setInsert h l ↔ x = h ∨ x ∈ l := by
  induction l with
  | nil => simp [setInsert]
  | cons y ys ih =>
    unfold setInsert
    by_cases h1 : h < y
    · simp [h1]
    · by_cases h2 : h = y
      · subst h2; simp
      · simp only [h1, h2, if_false, List.mem_cons, ih]
        tauto

theorem setInsert_sorted (h : Nat) (l : List Nat) (hl : l.Pairwise (· < ·)) :
    (setInsert h l).Pairwise (· < ·) := by
  induction l with
  | nil => simp [setInsert]
  | cons y ys ih =>
    rw [List.pairwise_cons] at hl
    unfold setInsert
    by_cases h1 : h < y
    · rw [if_pos h1]
      refine List.pairwise_cons.mpr ⟨?_, List.pairwise_cons.mpr hl⟩
      intro a ha
      rcases List.mem_cons.mp ha with rfl | ha
      · exact h1
      · exact lt_trans h1 (hl.1 a ha)
    · by_cases h2 : h = y
      · rw [if_neg h1, if_pos h2]; exact List.pairwise_cons.mpr hl
      · rw [if_neg h1, if_neg h2]
        refine List.pairwise_cons.mpr ⟨?_, ih hl.2⟩
        intro a ha
        rcases (mem_setInsert h a ys).mp ha with rfl | ha
        · omega
        · exact hl.1 a ha

theorem foldl_setInsert (hs : List Nat) : ∀ (l : List Nat), l.Pairwise (· < ·) →
    (hs.foldl (fun result hash => setInsert hash result) l).Pairwise (· < ·) ∧
    ∀ x, x ∈ hs.foldl (fun result hash => setInsert hash result) l ↔ x ∈ hs ∨ x ∈ l := by
  induction hs with
  | nil => intro l hl; simp [hl]
  | cons a as ih =>
    intro l hl
    obtain ⟨h1, h2⟩ := ih (setInsert a l) (setInsert_sorted a l hl)
    refine ⟨h1, fun x => ?_⟩
    rw [List.foldl_cons, h2, mem_setInsert]
    simp only [List.mem_cons]
    tauto

theorem foldl_hashes (f : Sequence → List Nat) (seqs : List Sequence) :
    ∀ (l : List Nat), l.Pairwise (· < ·) →
    (seqs.foldl (fun result seq =>
      (f seq).foldl (fun result hash => setInsert hash result) result) l).Pairwise (· < ·) ∧
    ∀ x, x ∈ seqs.foldl (fun result seq =>
      (f seq).foldl (fun result hash => setInsert hash result) result) l
      ↔ (∃ s ∈ seqs, x ∈ f s) ∨ x ∈ l := by
  induction seqs with
  | nil => intro l hl; simp [hl]
  | cons a as ih =>
    intro l hl
    obtain ⟨h1, h2⟩ := foldl_setInsert (f a) l hl
    obtain ⟨h3, h4⟩ := ih _ h1
    refine ⟨h3, fun x => ?_⟩
    rw [List.foldl_cons, h4, h2]
    simp only [List.mem_cons, exists_eq_or_imp]
    constructor
    · rintro (h | h | h)
      · exact Or.inl (Or.inr h)
      · exact Or.inl (Or.inl h)
      · exact Or.inr h
    · rintro ((h | h) | h)
      · exact Or.inr (Or.inl h)
      · exact Or.inl h
      · exact Or.inr (Or.inr h)

/-- The set built for a cluster is strictly increasing and holds exactly the
hash values of the sequences of the cluster. -/
theorem hashCluster_spec (f : Sequence → List Nat) (seqs : List Sequence) :
    (hashCluster f seqs).Pairwise (· < ·) ∧
    ∀ x, x ∈ hashCluster f seqs ↔ ∃ s ∈ seqs, x ∈ f s := by
  obtain ⟨h1, h2⟩ := foldl_hashes f seqs [] List.Pairwise.nil
  exact ⟨h1, fun x => by rw [hashCluster, h2]; simp⟩

theorem hashCluster_card (f : Sequence → List Nat) (seqs : List Sequence) :
    (hashCluster f seqs).length = (seqs.toFinset.biUnion fun s => (f s).toFinset).card := by
  obtain ⟨h1, h2⟩ := hashCluster_spec f seqs
  have hnd : (hashCluster f seqs).Nodup := h1.imp (fun h => Nat.ne_of_lt h)
  rw [← List.toFinset_card_of_nodup hnd]
  congr 1
  ext x
  simp [h2]

theorem referenceCount_card (f : Sequence → List Nat) (seqs : List Sequence) :
    referenceCount f seqs = (seqs.toFinset.biUnion fun s => (f s).toFinset).card := by
  unfold referenceCount
  rw [← List.toFinset_card_of_nodup (List.nodup_dedup _)]
  congr 1
  ext x
  simp

theorem intercalate_go_append (a b s : String) (l : List String) :
    String.intercalate.go (a ++ b) s l = a ++ String.intercalate.go b s l := by
  induction l generalizing b with
  | nil => simp [String.intercalate.go]
  | cons x xs ih =>
    simp only [String.intercalate.go]
    rw [String.append_assoc, String.append_assoc, ← String.append_assoc b s x, ih]

/-- The loop of `print_safely` over the members after the first. -/
theorem print_loop (members : List String) :
    ∀ (rest pre : List String) (acc : String), members = pre ++ rest →
      loopFrom (fun i o => o ++ ";" ++ members.getD i "") rest.length pre.length acc
        = String.intercalate.go acc ";" rest := by
  intro rest
  induction rest with
  | nil => intro pre acc _; simp [loopFrom, String.intercalate.go]
  | cons x xs ih =>
    intro pre acc h
    have hx : members.getD pre.length "" = x := by
      rw [h, List.getD_eq_getElem?_getD, List.getElem?_append_right (le_refl _)]
      simp
    have := ih (pre ++ [x]) (acc ++ ";" ++ x) (by rw [h]; simp)
    simp only [List.length_append, List.length_singleton] at this
    simp only [List.length_cons, loopFrom, String.intercalate.go, hx]
    exact this

/-- C8: for every cluster `(id, members)` and hash set `S`, `print_safely`
emits exactly one line when `members` is non-empty: the members in their
original order joined by `;`, a tab, the decimal value of the size of `S`, a
tab, the cluster id, and a line end. When `members` is empty it fails its check
and emits nothing. -/
theorem C8_print_safely (id : String) (m : String) (ms : List String) (S : List Nat)
    (out : String) :
    print_safely (id, m :: ms) S out
      = .ok (out ++ (String.intercalate ";" (m :: ms) ++ "\t" ++ toString S.length ++ "\t"
          ++ id ++ "\n")) ∧
    print_safely (id, []) S out = .error out := by
  refine ⟨?_, rfl⟩
  unfold print_safely
  have h1 : (m :: ms).length ≥ 1 := by simp
  simp only [h1, if_true]
  have hl := print_loop (m :: ms) ms [m] (out ++ m) rfl
  have e : forLoop 1 (m :: ms).length (fun i o => o ++ ";" ++ (m :: ms).getD i "")
      (out ++ (m :: ms).getD 0 "") = out ++ String.intercalate ";" (m :: ms) := by
    unfold forLoop
    simp only [List.length_cons, Nat.add_sub_cancel, List.getD_cons_zero]
    simp only [List.length_singleton] at hl
    rw [hl, intercalate_go_append]
    rfl
  rw [e]
  simp only [String.append_assoc]

/-- C7: for every cluster and each of the two hashing schemes (the k-mer hash
when `config.disable_minimizers` is set, the minimiser hash otherwise), the set
whose size `compute_hashes` hands to `print_safely` has as many elements as the
union, over the sequences of the cluster, of the sets of hash values of the
scheme; this equals the reference count and does not change when the sequences
are reordered or duplicated. -/
theorem C7_distinct_count (config : count_config)
    (compute_minimiser compute_kmers : Sequence → List Nat) (cluster : Cluster)
    (seqs seqs2 : List Sequence) (rest : List (Cluster × List Sequence)) (out : String) :
    worker config compute_minimiser compute_kmers ((cluster, seqs) :: rest) out
      = (match print_safely cluster (hashCluster
            (if config.disable_minimizers then compute_kmers else compute_minimiser) seqs) out with
         | .error e => .error e
         | .ok out1 => worker config compute_minimiser compute_kmers rest out1) ∧
    (hashCluster (if config.disable_minimizers then compute_kmers else compute_minimiser)
        seqs).length
      = (seqs.toFinset.biUnion fun s =>
          ((if config.disable_minimizers then compute_kmers else compute_minimiser) s).toFinset).card ∧
    (hashCluster (if config.disable_minimizers then compute_kmers else compute_minimiser)
        seqs).length
      = referenceCount (if config.disable_minimizers then compute_kmers else compute_minimiser)
          seqs ∧
    ((∀ s, s ∈ seqs ↔ s ∈ seqs2) →
      (hashCluster (if config.disable_minimizers then compute_kmers else compute_minimiser)
        seqs2).length
      = (hashCluster (if config.disable_minimizers then compute_kmers else compute_minimiser)
        seqs).length) := by
  refine ⟨?_, hashCluster_card _ _, ?_, ?_⟩
  · unfold worker
    cases config.disable_minimizers <;> simp [compute_hashes]
  · rw [hashCluster_card, referenceCount_card]
  · intro h
    rw [hashCluster_card, hashCluster_card]
    have : seqs2.toFinset = seqs.toFinset := by
      ext s; simp [h s]
    rw [this]

theorem C7_distinct_count_witness :
    (∀ s, s ∈ exampleSeqs ↔ s ∈ exampleSeqs2) ∧
    (hashCluster (if exampleConfig.disable_minimizers then (fun s => s)
        else (fun s => s.take 1)) exampleSeqs2).length
      = (hashCluster (if exampleConfig.disable_minimizers then (fun s => s)
        else (fun s => s.take 1)) exampleSeqs).length :=
  have h : ∀ s, s ∈ exampleSeqs ↔ s ∈ exampleSeqs2 := by
    intro s; simp [exampleSeqs, exampleSeqs2]; tauto
  ⟨h, (C7_distinct_count exampleConfig (fun s => s.take 1) (fun s => s) ("c", ["f"])
    exampleSeqs exampleSeqs2 [] "").2.2.2 h⟩

/-! ## The number of counting threads -/

theorem loopFrom_push_length (k : Nat) : ∀ (j : Nat) (l : List Nat),
    (loopFrom (fun i (handles : List Nat) => handles ++ [i]) k j l).length = l.length + k := by
  induction k with
  | zero => intro j l; simp [loopFrom]
  | succ k ih =>
    intro j l
    simp only [loopFrom]
    rw [ih]
    simp
    omega

/-- C11: for every configured thread count `t`, the number of workers launched
by `count_kmers` and the depth of the cluster buffer are `max 1 (t - 1)`; this
is at least 1, and `t = 0`, `t = 1` and `t = 2` all give one worker. -/
theorem C11_counting_threads (config : count_config) :
    (count_kmers config).handles.length = max 1 (config.num_threads - 1) ∧
    (count_kmers config).buffer_depth = max 1 (config.num_threads - 1) ∧
    1 ≤ (count_kmers config).handles.length ∧
    (config.num_threads ≤ 2 → (count_kmers config).handles.length = 1) := by
  have h1 : counting_threads config = max 1 (config.num_threads - 1) := by
    unfold counting_threads
    by_cases h : config.num_threads ≤ 1
    · rw [if_pos h]; omega
    · rw [if_neg h]; omega
  have h2 : (count_kmers config).handles.length = counting_threads config := by
    unfold count_kmers forLoop
    simp only [loopFrom_push_length]
    simp
  refine ⟨by rw [h2, h1], h1, by rw [h2, h1]; omega, fun h => by rw [h2, h1]; omega⟩

theorem C11_counting_threads_witness :
    (count_kmers ⟨2, 1, 1, true⟩).handles.length = max 1 (2 - 1) ∧
    (count_kmers ⟨2, 1, 1, true⟩).buffer_depth = max 1 (2 - 1) ∧
    1 ≤ (count_kmers ⟨2, 1, 1, true⟩).handles.length ∧
    (2 ≤ 2 ∧ (count_kmers ⟨2, 1, 1, true⟩).handles.length = 1) :=
  ⟨(C11_counting_threads ⟨2, 1, 1, true⟩).1, (C11_counting_threads ⟨2, 1, 1, true⟩).2.1,
   (C11_counting_threads ⟨2, 1, 1, true⟩).2.2.1, by decide,
   (C11_counting_threads ⟨2, 1, 1, true⟩).2.2.2 (by decide)⟩

/-! ## The merge step in full -/

theorem max_zero_eq (x : ℚ) : (if x < 0 then 0 else x) = max 0 x := by
  by_cases h : x < 0
  · rw [if_pos h, max_eq_left (le_of_lt h)]
  · rw [if_neg h, max_eq_right (not_lt.mp h)]

/-- The merge loop, unrolled at its last iteration. -/
theorem mergeLoop_succ (n : Nat) : ∀ (k : Nat) (s : NJState),
    mergeLoop n (k + 1) s = (match mergeLoop n k s with
      | .error e => .error e
      | .ok s1 => mergeStep n s1) := by
  intro k
  induction k with
  | zero =>
    intro s
    simp only [mergeLoop]
    cases mergeStep n s <;> rfl
  | succ k ih =>
    intro s
    rw [mergeLoop]
    cases h : mergeStep n s with
    | error e => simp [mergeLoop, h]
    | ok s1 =>
      simp only []
      rw [ih s1]
      conv_rhs => rw [mergeLoop, h]

/-- Every field of the state after one merge step, in terms of the state of the
update loop at its end. -/
theorem mergeStep_full (n : Nat) (s : NJState) (s1 : NJState) (h : mergeStep n s = .ok s1)
    (hi : (selectPair n s).dMinIToOthers = s.dToAllOthers.getD (selectPair n s).mini 0)
    (hj : (selectPair n s).dMinJToOthers = s.dToAllOthers.getD (selectPair n s).minj 0) :
    ∃ u, forLoopE 0 n (updateBody n (selectPair n s).mini (selectPair n s).minj
        (mergedConnector s (selectPair n s).mini (selectPair n s).minj)
        (mergedGraph n s (selectPair n s).mini (selectPair n s).minj))
        ⟨s.mat, s.dToAllOthers, s.sumOfBranches, 0⟩ = .ok u ∧
      s1.mat = u.mat ∧
      s1.g = mergedGraph n s (selectPair n s).mini (selectPair n s).minj ∧
      s1.connector = mergedConnector s (selectPair n s).mini (selectPair n s).minj ∧
      s1.av = s.av.set (selectPair n s).mini
        (max 0 (entry n s.mat (selectPair n s).mini (selectPair n s).minj) / 2) ∧
      s1.dToAllOthers = u.dToAllOthers.set (selectPair n s).mini u.new_sum ∧
      s1.sumOfBranches = u.sumOfBranches ∧
      s1.fnseqs = s.fnseqs - 1 := by
  have hG : mergedGraph n s (selectPair n s).mini (selectPair n s).minj
      = addEdge (addEdge (addVertex s.g).1 (addVertex s.g).2
          (s.connector.getD (selectPair n s).mini nilVertex)
          (roundToSignificantFigures (max 0 (branchToNew n s (selectPair n s).mini
            (selectPair n s).minj - s.av.getD (selectPair n s).mini 0)) 5))
        (addVertex s.g).2 (s.connector.getD (selectPair n s).minj nilVertex)
        (roundToSignificantFigures (max 0 (entry n s.mat (selectPair n s).mini
          (selectPair n s).minj - branchToNew n s (selectPair n s).mini (selectPair n s).minj
          - s.av.getD (selectPair n s).minj 0)) 5) := by
    simp only [mergedGraph, addEdge, addVertex, List.append_assoc, List.singleton_append]
  rw [hG]
  unfold mergeStep at h
  simp only [max_zero_eq, hi, hj] at h
  split at h
  · cases h
  · rename_i u hu
    cases h
    exact ⟨u, hu, rfl, rfl, rfl, rfl, rfl, rfl, rfl⟩

/-! ## The cached sums in the update loop -/

theorem updateBody_fields (n mini minj : Nat) (connector : List TVertexDescriptor) (g : Graph)
    (J : Nat) (u u1 : UpdateState) (h : updateBody n mini minj connector g J u = .ok u1) :
    (isLive connector J ∧ mini ≠ J →
      u1.dToAllOthers = u.dToAllOthers.set J (u.dToAllOthers.getD J 0 - newDist n u.mat mini minj J) ∧
      u1.new_sum = u.new_sum + newDist n u.mat mini minj J ∧
      u1.sumOfBranches = u.sumOfBranches - newDist n u.mat mini minj J) ∧
    (¬ (isLive connector J ∧ mini ≠ J) →
      u1.dToAllOthers = u.dToAllOthers ∧ u1.new_sum = u.new_sum ∧
      u1.sumOfBranches = u.sumOfBranches - entry n u.mat J minj) := by
  unfold updateBody at h
  by_cases hc : connector.getD J nilVertex ≠ nilVertex ∧ mini ≠ J
  · rw [if_pos hc] at h
    refine ⟨fun _ => ?_, fun hn => absurd hc hn⟩
    by_cases ha : u.mat.getD (mini * n + J) 0 = u.mat.getD (J * n + mini) 0
    · rw [if_pos ha] at h
      cases h
      exact ⟨rfl, rfl, rfl⟩
    · rw [if_neg ha] at h; cases h
  · rw [if_neg hc] at h
    refine ⟨fun hp => absurd hp hc, fun _ => ?_⟩
    by_cases ha : u.mat.getD (J * n + minj) 0 = u.mat.getD (minj * n + J) 0
    · rw [if_pos ha] at h
      cases h
      exact ⟨rfl, rfl, rfl⟩
    · rw [if_neg ha] at h; cases h

theorem updated_succ (connector : List TVertexDescriptor) (mini J : Nat) :
    updated connector mini (J + 1) = if isLive connector J ∧ mini ≠ J
      then insert J (updated connector mini J) else updated connector mini J := by
  unfold updated
  rw [Finset.range_succ, Finset.filter_insert]

theorem skipped_succ (connector : List TVertexDescriptor) (mini J : Nat) :
    skipped connector mini (J + 1) = if ¬ (isLive connector J ∧ mini ≠ J)
      then insert J (skipped connector mini J) else skipped connector mini J := by
  unfold skipped
  rw [Finset.range_succ, Finset.filter_insert]

theorem not_mem_updated (connector : List TVertexDescriptor) (mini J : Nat) :
    J ∉ updated connector mini J := by
  simp [updated]

theorem not_mem_skipped (connector : List TVertexDescriptor) (mini J : Nat) :
    J ∉ skipped connector mini J := by
  simp [skipped]

/-- The update loop, in full: the merged matrix, and the cached sums in terms
of the new distances. -/
theorem updateLoop_full (n mini minj : Nat) (connector : List TVertexDescriptor) (g : Graph)
    (old : List ℚ) (hold : MatInv n old) (hi : mini < n) (hj : minj < n) (hij : mini ≠ minj)
    (hdead : ¬ isLive connector minj) (d : List ℚ) (sob ns : ℚ) (u : UpdateState)
    (hu : forLoopE 0 n (updateBody n mini minj connector g) ⟨old, d, sob, ns⟩ = .ok u) :
    u.mat.length = old.length ∧
    (∀ a b, a < n → b < n → entry n u.mat a b = mergedEntry n old connector mini minj n a b) ∧
    u.dToAllOthers.length = d.length ∧
    (∀ m, u.dToAllOthers.getD m 0 = if m ∈ updated connector mini n ∧ m < d.length
      then d.getD m 0 - newDist n old mini minj m else d.getD m 0) ∧
    u.new_sum = ns + ∑ m in updated connector mini n, newDist n old mini minj m ∧
    u.sumOfBranches = sob - ∑ m in updated connector mini n, newDist n old mini minj m
      - ∑ m in skipped connector mini n, entry n old m minj := by
  obtain ⟨u1, hu1, hI⟩ := forLoopE_inv 0 n (updateBody n mini minj connector g)
    ⟨old, d, sob, ns⟩ (fun J (u : UpdateState) => u.mat.length = old.length ∧
      (∀ a b, a < n → b < n → entry n u.mat a b = mergedEntry n old connector mini minj J a b) ∧
      u.dToAllOthers.length = d.length ∧
      (∀ m, u.dToAllOthers.getD m 0 = if m ∈ updated connector mini J ∧ m < d.length
        then d.getD m 0 - newDist n old mini minj m else d.getD m 0) ∧
      u.new_sum = ns + ∑ m in updated connector mini J, newDist n old mini minj m ∧
      u.sumOfBranches = sob - ∑ m in updated connector mini J, newDist n old mini minj m
        - ∑ m in skipped connector mini J, entry n old m minj)
    (Nat.zero_le n)
    ⟨rfl, fun a b _ _ =>
        (mergedEntry_old _ _ _ _ _ _ _ _ (by omega) (by omega) (by omega)).symm,
      rfl, fun m => by simp [updated], by simp [updated], by simp [updated, skipped]⟩
    (by
      intro J u0 _ hJ ⟨h1, h2, h3, h4, h5, h6⟩
      obtain ⟨u1, hb, hl1, hm1⟩ :=
        updateBody_inv n mini minj connector g old hold hi hj hij hdead J hJ u0 h1 h2
      obtain ⟨f1, f2⟩ := updateBody_fields n mini minj connector g J u0 u1 hb
      refine ⟨u1, hb, hl1, hm1, ?_⟩
      by_cases hc : isLive connector J ∧ mini ≠ J
      · obtain ⟨g1, g2, g3⟩ := f1 hc
        have hJj : J ≠ minj := by rintro rfl; exact hdead hc.1
        have e1 : entry n u0.mat mini J = entry n old mini J := by
          rw [h2 mini J hi hJ]
          exact mergedEntry_old _ _ _ _ _ _ _ _ (by omega) (by omega) (by omega)
        have e2 : entry n u0.mat minj J = entry n old minj J := by
          rw [h2 minj J hj hJ]
          exact mergedEntry_old _ _ _ _ _ _ _ _ (by omega) (by omega) (by omega)
        have enew : newDist n u0.mat mini minj J = newDist n old mini minj J := by
          unfold newDist; rw [e1, e2]
        rw [enew] at g1 g2 g3
        rw [updated_succ, skipped_succ, if_pos hc, if_neg (not_not.mpr hc),
          Finset.sum_insert (not_mem_updated _ _ _)]
        refine ⟨by rw [g1]; simpa using h3, ?_, by rw [g2, h5]; ring, by rw [g3, h6]; ring⟩
        intro m
        rw [g1, getD_set, h4 m, h4 J]
        have hJn : J ∉ updated connector mini J := not_mem_updated _ _ _
        by_cases hm : J = m
        · subst hm
          by_cases hlen : J < d.length
          · rw [if_pos ⟨rfl, by rw [h3]; exact hlen⟩,
              if_neg (fun hh => hJn hh.1),
              if_pos ⟨Finset.mem_insert_self _ _, hlen⟩]
          · rw [if_neg (fun hh => hlen (by rw [← h3]; exact hh.2)),
              if_neg (fun hh => hJn hh.1), if_neg (fun hh => hlen hh.2)]
        · rw [if_neg (fun hh => hm hh.1)]
          have : (m ∈ insert J (updated connector mini J) ∧ m < d.length) ↔
              (m ∈ updated connector mini J ∧ m < d.length) := by
            rw [Finset.mem_insert]
            constructor
            · rintro ⟨h | h, h'⟩
              · exact absurd h.symm hm
              · exact ⟨h, h'⟩
            · rintro ⟨h, h'⟩; exact ⟨Or.inr h, h'⟩
          simp only [this]
      · obtain ⟨g1, g2, g3⟩ := f2 hc
        have e1 : entry n u0.mat J minj = entry n old J minj := by
          rw [h2 J minj hJ hj]
          refine mergedEntry_old _ _ _ _ _ _ _ _ (by omega) ?_ (by omega)
          rintro ⟨_, _, x3, _⟩; exact hdead x3
        rw [e1] at g3
        rw [updated_succ, skipped_succ, if_neg hc, if_pos hc,
          Finset.sum_insert (not_mem_skipped _ _ _)]
        exact ⟨by rw [g1]; exact h3, fun m => by rw [g1]; exact h4 m, by rw [g2, h5],
          by rw [g3, h6]; ring⟩)
  rw [hu] at hu1
  cases hu1
  exact hI

/-! ## The bookkeeping of the merge loop -/

theorem isLive_mergedConnector (s : NJState) (mini minj : Nat)
    (hli : isLive s.connector mini) (hij : mini ≠ minj) (i : Nat) :
    isLive (mergedConnector s mini minj) i ↔ (i ≠ minj ∧ isLive s.connector i) := by
  have hil := isLive_lt _ _ hli
  unfold isLive mergedConnector
  rw [connector_merge _ _ _ _ hil hij]
  by_cases h1 : i = mini
  · subst h1
    simp only [if_true]
    exact ⟨fun _ => ⟨hij, hli⟩, fun _ => by simp [nilVertex]⟩
  · by_cases h2 : i = minj
    · subst h2; simp [h1]
    · simp [h1, h2]

theorem liveSet_mergedConnector (n : Nat) (s : NJState) (mini minj : Nat)
    (hli : isLive s.connector mini) (hij : mini ≠ minj) :
    liveSet n (mergedConnector s mini minj) = (liveSet n s.connector).erase minj := by
  ext i
  simp only [liveSet, Finset.mem_filter, Finset.mem_range, Finset.mem_erase,
    isLive_mergedConnector s mini minj hli hij]
  tauto

/-- The merged matrix, for entries inside the `n × n` square. -/
theorem mergedEntry_full (n : Nat) (old : List ℚ) (connector : List TVertexDescriptor)
    (mini minj a b : Nat) (ha : a < n) (hb : b < n) :
    mergedEntry n old connector mini minj n a b =
      if a = minj ∨ b = minj then 0
      else if a = mini ∧ isLive connector b ∧ b ≠ mini then newDist n old mini minj b
      else if b = mini ∧ isLive connector a ∧ a ≠ mini then newDist n old mini minj a
      else entry n old a b := by
  unfold mergedEntry newDist
  have c1 : (a = minj ∧ b < n ∨ b = minj ∧ a < n) ↔ (a = minj ∨ b = minj) := by omega
  have c2 : (a = mini ∧ b < n ∧ isLive connector b ∧ b ≠ mini) ↔
      (a = mini ∧ isLive connector b ∧ b ≠ mini) :=
    ⟨fun ⟨x1, _, x3, x4⟩ => ⟨x1, x3, x4⟩, fun ⟨x1, x3, x4⟩ => ⟨x1, hb, x3, x4⟩⟩
  have c3 : (b = mini ∧ a < n ∧ isLive connector a ∧ a ≠ mini) ↔
      (b = mini ∧ isLive connector a ∧ a ≠ mini) :=
    ⟨fun ⟨x1, _, x3, x4⟩ => ⟨x1, x3, x4⟩, fun ⟨x1, x3, x4⟩ => ⟨x1, ha, x3, x4⟩⟩
  simp only [c1, c2, c3]

/-- Everything a merge step does, for a state that satisfies the invariants:
the step fails no assertion and its result is described field by field. -/
theorem mergeStep_reach (n k : Nat) (s : NJState) (hm : MatInv n s.mat) (ht : TreeInv n k s)
    (hk : k + 2 ≤ n) :
    ∃ s1 u, mergeStep n s = .ok s1 ∧ MatInv n s1.mat ∧ TreeInv n (k + 1) s1 ∧
      (selectPair n s).mini < (selectPair n s).minj ∧ (selectPair n s).minj < n ∧
      isLive s.connector (selectPair n s).mini ∧ isLive s.connector (selectPair n s).minj ∧
      forLoopE 0 n (updateBody n (selectPair n s).mini (selectPair n s).minj
        (mergedConnector s (selectPair n s).mini (selectPair n s).minj)
        (mergedGraph n s (selectPair n s).mini (selectPair n s).minj))
        ⟨s.mat, s.dToAllOthers, s.sumOfBranches, 0⟩ = .ok u ∧
      s1.mat = u.mat ∧
      s1.g = mergedGraph n s (selectPair n s).mini (selectPair n s).minj ∧
      s1.connector = mergedConnector s (selectPair n s).mini (selectPair n s).minj ∧
      s1.av = s.av.set (selectPair n s).mini
        (max 0 (entry n s.mat (selectPair n s).mini (selectPair n s).minj) / 2) ∧
      s1.dToAllOthers = u.dToAllOthers.set (selectPair n s).mini u.new_sum ∧
      s1.sumOfBranches = u.sumOfBranches ∧
      s1.fnseqs = s.fnseqs - 1 := by
  obtain ⟨s1, h1, hm1, ht1⟩ := mergeStep_inv n k s hm ht hk
  have hcard : 2 ≤ (liveSet n s.connector).card := by have := ht.live_card; omega
  obtain ⟨hlt, hjn, hli, hlj⟩ := selectPair_found n s hcard
  obtain ⟨p, q, hpq, hq, hp, hq2⟩ := exists_live_pair n s.connector hcard
  have hinv := selectPair_inv n s (by omega)
  have hnf : (selectPair n s).notFound = false := by
    cases hx : (selectPair n s).notFound with
    | false => rfl
    | true => exact absurd (Or.inl hq) (hinv.none_found hx p q hpq hq hp hq2)
  obtain ⟨-, hv1, hv2⟩ := hinv.vals hnf
  obtain ⟨u, hu⟩ := mergeStep_full n s s1 h1 hv1 hv2
  exact ⟨s1, u, h1, hm1, ht1, hlt, hjn, hli, hlj, hu⟩

/-- One merge step keeps the bookkeeping. -/
theorem mergeStep_aux (n k : Nat) (s : NJState) (hm : MatInv n s.mat) (ht : TreeInv n k s)
    (ha : AuxInv n k s) (hk : k + 2 ≤ n) (s1 : NJState) (h : mergeStep n s = .ok s1) :
    AuxInv n (k + 1) s1 := by
  obtain ⟨s2, u, h2, -, -, hlt, hjn, hli, hlj, hu, e1, -, e3, e4, e5, -, e7⟩ :=
    mergeStep_reach n k s hm ht hk
  rw [h] at h2
  cases h2
  have hij : (selectPair n s).mini ≠ (selectPair n s).minj := by omega
  have hdead : ¬ isLive (mergedConnector s (selectPair n s).mini (selectPair n s).minj)
      (selectPair n s).minj := by
    rw [isLive_mergedConnector s _ _ hli hij]; exact fun hh => hh.1 rfl
  obtain ⟨-, f2, f3, -, -, -⟩ := updateLoop_full n _ _ _ _ s.mat hm (by omega) hjn hij hdead
    _ _ _ u hu
  generalize (selectPair n s).mini = mini at *
  generalize (selectPair n s).minj = minj at *
  constructor
  · rw [e4]; simp [ha.av_len]
  · rw [e5]; simp [f3, ha.d_len]
  · rw [e7, ha.fnseqs_eq]; push_cast; ring
  · intro a han
    rw [e1, f2 a a han han, mergedEntry_full n _ _ _ _ a a han han]
    by_cases c1 : a = minj ∨ a = minj
    · rw [if_pos c1]
    · rw [if_neg c1, if_neg (by rintro ⟨x1, _, x3⟩; exact x3 x1),
        if_neg (by rintro ⟨x1, _, x3⟩; exact x3 x1)]
      exact ha.diag a han
  · intro a b han hbn hd
    rw [e1, f2 a b han hbn, mergedEntry_full n _ _ _ _ a b han hbn]
    by_cases c1 : a = minj ∨ b = minj
    · rw [if_pos c1]
    · rw [if_neg c1]
      have hd2 : ¬ isLive s.connector a ∨ ¬ isLive s.connector b := by
        rw [e3] at hd
        rcases hd with hd | hd
        · left; intro hh; exact hd ((isLive_mergedConnector s _ _ hli hij a).mpr
            ⟨fun x => c1 (Or.inl x), hh⟩)
        · right; intro hh; exact hd ((isLive_mergedConnector s _ _ hli hij b).mpr
            ⟨fun x => c1 (Or.inr x), hh⟩)
      have c2 : ¬ (a = mini ∧ isLive (mergedConnector s mini minj) b ∧ b ≠ mini) := by
        rintro ⟨x1, x2, _⟩
        have := ((isLive_mergedConnector s _ _ hli hij b).mp x2).2
        rcases hd2 with hd2 | hd2
        · exact hd2 (x1 ▸ hli)
        · exact hd2 this
      have c3 : ¬ (b = mini ∧ isLive (mergedConnector s mini minj) a ∧ a ≠ mini) := by
        rintro ⟨x1, x2, _⟩
        have := ((isLive_mergedConnector s _ _ hli hij a).mp x2).2
        rcases hd2 with hd2 | hd2
        · exact hd2 this
        · exact hd2 (x1 ▸ hli)
      rw [if_neg c2, if_neg c3]
      exact ha.dead a b han hbn hd2

/-! ## The cached sums of the initial state -/

/-- The initial row sums. -/
theorem initDToAllOthers_spec (n : Nat) (mat : List ℚ) :
    (initDToAllOthers n mat).length = n ∧
    ∀ c, c < n → (initDToAllOthers n mat).getD c 0 = ∑ r in Finset.range n, entry n mat c r := by
  have h := forLoop_inv 0 n (fun col (d : List ℚ) =>
      forLoop 0 n (fun row (d : List ℚ) =>
        d.set col (d.getD col 0 + mat.getD (col * n + row) 0)) d) (List.replicate n 0)
    (fun C (d : List ℚ) => d.length = n ∧ ∀ c, d.getD c 0 =
      if c < C then ∑ r in Finset.range n, entry n mat c r else 0)
    (Nat.zero_le n)
    ⟨by simp, fun c => by
      rw [if_neg (by omega)]
      simp only [List.getD_eq_getElem?_getD, List.getElem?_replicate]
      split_ifs <;> rfl⟩
    (by
      intro C d _ hC ⟨h1, h2⟩
      have hq := forLoop_inv 0 n (fun row (d : List ℚ) =>
          d.set C (d.getD C 0 + mat.getD (C * n + row) 0)) d
        (fun R (d : List ℚ) => d.length = n ∧ ∀ c, d.getD c 0 =
          if c < C then ∑ r in Finset.range n, entry n mat c r
          else if c = C then ∑ r in Finset.range R, entry n mat c r else 0)
        (Nat.zero_le n)
        ⟨h1, fun c => by
          rw [h2 c]
          by_cases hc : c < C
          · rw [if_pos hc, if_pos hc]
          · rw [if_neg hc, if_neg hc]; simp⟩
        (by
          intro R d2 _ _ ⟨g1, g2⟩
          refine ⟨by simp [g1], fun c => ?_⟩
          show (d2.set C (d2.getD C 0 + mat.getD (C * n + R) 0)).getD c 0 = _
          rw [getD_set]
          by_cases hc : C = c
          · subst hc
            rw [if_pos ⟨rfl, by omega⟩, g2 C, if_neg (lt_irrefl _), if_pos rfl,
              if_neg (lt_irrefl _), if_pos rfl, Finset.sum_range_succ]
            rfl
          · rw [if_neg (fun hh => hc hh.1), g2 c]
            have hc' : ¬ c = C := fun hh => hc hh.symm
            by_cases hlt : c < C
            · rw [if_pos hlt, if_pos hlt]
            · rw [if_neg hlt, if_neg hlt, if_neg hc', if_neg hc'])
      refine ⟨hq.1, fun c => ?_⟩
      rw [hq.2 c]
      by_cases hlt : c < C
      · rw [if_pos hlt, if_pos (by omega)]
      · rw [if_neg hlt]
        by_cases hc : c = C
        · rw [if_pos hc, if_pos (by omega)]
        · rw [if_neg hc, if_neg (by omega)])
  refine ⟨h.1, fun c hc => ?_⟩
  have := h.2 c
  rw [if_pos hc] at this
  exact this

/-- The initial sum of all branches: the sum of the upper triangle. -/
theorem copyTriangle_sum (n : Nat) (mat : List ℚ) (hn : 1 ≤ n) (hlen : n * n ≤ mat.length) :
    (copyTriangle n mat).2
      = ∑ c in Finset.range n, ∑ r in Finset.range c, entry n mat r c := by
  have h := forLoop_inv 1 n (fun col st =>
    forLoop 0 col (fun row st =>
      let mat1 := st.1.set (col * n + row) (st.1.getD (row * n + col) 0)
      (mat1, st.2 + mat1.getD (col * n + row) 0)) st) (mat, (0 : ℚ))
    (fun col st => (st.1.length = mat.length ∧ ∀ a b, a < n → b < n →
      entry n st.1 a b = if b < a ∧ a < col then entry n mat b a else entry n mat a b) ∧
      st.2 = ∑ c in Finset.range col, ∑ r in Finset.range c, entry n mat r c)
    hn ⟨⟨rfl, fun a b _ _ => by
      have : ¬ (b < a ∧ a < 1) := by omega
      rw [if_neg this]⟩, by simp⟩
    (by
      intro col st hc1 hc2 ⟨hP, hS⟩
      have hq := forLoop_inv 0 col (fun row (st : List ℚ × ℚ) =>
        let mat1 := st.1.set (col * n + row) (st.1.getD (row * n + col) 0)
        (mat1, st.2 + mat1.getD (col * n + row) 0)) st
        (fun row st2 => (st2.1.length = mat.length ∧ ∀ a b, a < n → b < n →
          entry n st2.1 a b = if b < a ∧ (a < col ∨ (a = col ∧ b < row)) then entry n mat b a
            else entry n mat a b) ∧
          st2.2 = (∑ c in Finset.range col, ∑ r in Finset.range c, entry n mat r c)
            + ∑ r in Finset.range row, entry n mat r col)
        (Nat.zero_le col) ⟨⟨hP.1, fun a b ha hb => by
          rw [hP.2 a b ha hb]
          have : (b < a ∧ a < col) ↔ (b < a ∧ (a < col ∨ (a = col ∧ b < 0))) := by omega
          simp only [this]⟩, by simp [hS]⟩
        (by
          intro row st2 _ hr ⟨hQ, hS2⟩
          have hl : n * n ≤ st2.1.length := by rw [hQ.1]; exact hlen
          have hrow : row < n := by omega
          have hread : st2.1.getD (row * n + col) 0 = entry n mat row col := by
            have h1 := hQ.2 row col hrow hc2
            unfold entry at h1
            rw [h1, if_neg (by omega)]
            rfl
          refine ⟨⟨by simpa using hQ.1, ?_⟩, ?_⟩
          · intro a b ha hb
            show entry n (st2.1.set (col * n + row) (st2.1.getD (row * n + col) 0)) a b = _
            rw [entry_set n st2.1 a b col row _ hb hc2 hrow hl]
            by_cases hab : a = col ∧ b = row
            · obtain ⟨rfl, rfl⟩ := hab
              have c2 : (b < a ∧ (a < a ∨ (a = a ∧ b < b + 1))) := by omega
              rw [if_pos c2, if_pos ⟨rfl, rfl⟩, hread]
            · rw [if_neg hab, hQ.2 a b ha hb]
              have : (b < a ∧ (a < col ∨ (a = col ∧ b < row))) ↔
                  (b < a ∧ (a < col ∨ (a = col ∧ b < row + 1))) := by omega
              simp only [this]
          · show st2.2 + (st2.1.set (col * n + row) (st2.1.getD (row * n + col) 0)).getD
              (col * n + row) 0 = _
            have hlt : col * n + row < st2.1.length :=
              lt_of_lt_of_le (idx_lt n col row hc2 hrow) hl
            rw [getD_set, if_pos ⟨rfl, hlt⟩, hread, hS2, Finset.sum_range_succ, add_assoc])
      refine ⟨⟨hq.1.1, fun a b ha hb => ?_⟩, ?_⟩
      · rw [hq.1.2 a b ha hb]
        have : (b < a ∧ (a < col ∨ (a = col ∧ b < col))) ↔ (b < a ∧ a < col + 1) := by omega
        simp only [this]
      · rw [hq.2, Finset.sum_range_succ])
  exact h.2

/-! ## The cached sums -/

/-- For a symmetric function with zero diagonal, the sum over all ordered
pairs is twice the sum over the pairs `i < j`. -/
theorem sum_pairs (L : Finset Nat) (f : Nat → Nat → ℚ)
    (hs : ∀ i ∈ L, ∀ j ∈ L, f i j = f j i) (hd : ∀ i ∈ L, f i i = 0) :
    ∑ i in L, ∑ j in L, f i j = 2 * ∑ i in L, ∑ j in L.filter (fun j => i < j), f i j := by
  have hA : ∑ i in L, ∑ j in L.filter (fun j => i < j), f i j
      = ∑ i in L, ∑ j in L, (if i < j then f i j else 0) := by
    refine Finset.sum_congr rfl (fun i _ => ?_)
    rw [Finset.sum_filter]
  have hB : ∑ i in L, ∑ j in L, (if j < i then f i j else 0)
      = ∑ i in L, ∑ j in L, (if i < j then f i j else 0) := by
    rw [Finset.sum_comm]
    refine Finset.sum_congr rfl (fun i hi => Finset.sum_congr rfl (fun j hj => ?_))
    by_cases h : i < j
    · rw [if_pos h, if_pos h, hs j hj i hi]
    · rw [if_neg h, if_neg h]
  have hC : ∑ i in L, ∑ j in L, f i j
      = ∑ i in L, ∑ j in L, ((if i < j then f i j else 0) + (if j < i then f i j else 0)) := by
    refine Finset.sum_congr rfl (fun i hi => Finset.sum_congr rfl (fun j _ => ?_))
    rcases Nat.lt_trichotomy i j with h | h | h
    · rw [if_pos h, if_neg (by omega), add_zero]
    · subst h; rw [if_neg (lt_irrefl _), hd i hi, add_zero]
    · rw [if_neg (by omega), if_pos h, zero_add]
  rw [hC]
  simp only [Finset.sum_add_distrib]
  rw [hB, hA]
  ring

/-- The sum over the live pairs is half the sum of the live row sums. -/
theorem livePairSum_eq (n k : Nat) (s : NJState) (hm : MatInv n s.mat) (ha : AuxInv n k s) :
    2 * livePairSum n s = ∑ i in liveSet n s.connector, liveRowSum n s i := by
  unfold livePairSum liveRowSum
  have hlt : ∀ i ∈ liveSet n s.connector, i < n := by
    intro i hi
    simp only [liveSet, Finset.mem_filter, Finset.mem_range] at hi
    exact hi.1
  rw [sum_pairs (liveSet n s.connector) (fun i j => entry n s.mat i j)
    (fun i hi j hj => hm.symm i j (hlt i hi) (hlt j hj)) (fun i hi => ha.diag i (hlt i hi))]

theorem liveSet_lt (n : Nat) (connector : List TVertexDescriptor) (i : Nat)
    (h : i ∈ liveSet n connector) : i < n ∧ isLive connector i := by
  simpa [liveSet] using h

theorem mem_liveSet (n : Nat) (connector : List TVertexDescriptor) (i : Nat) (h1 : i < n)
    (h2 : isLive connector i) : i ∈ liveSet n connector := by
  simp only [liveSet, Finset.mem_filter, Finset.mem_range]; exact ⟨h1, h2⟩

theorem updated_eq (n : Nat) (connector : List TVertexDescriptor) (mini : Nat) :
    updated connector mini n = (liveSet n connector).erase mini := by
  ext m
  simp only [updated, liveSet, Finset.mem_filter, Finset.mem_range, Finset.mem_erase]
  constructor
  · rintro ⟨h1, h2, h3⟩; exact ⟨fun h => h3 h.symm, h1, h2⟩
  · rintro ⟨h1, h2, h3⟩; exact ⟨h2, h3, fun h => h1 h.symm⟩

/-- One merge step keeps the cached sums in agreement with the matrix. -/
theorem mergeStep_sum (n k : Nat) (s : NJState) (hm : MatInv n s.mat) (ht : TreeInv n k s)
    (ha : AuxInv n k s) (hsum : SumInv n s) (hk : k + 2 ≤ n) (s1 : NJState)
    (h : mergeStep n s = .ok s1) : SumInv n s1 := by
  obtain ⟨s2, u, h2, hm1, -, hlt, hjn, hli, hlj, hu, e1, -, e3, -, e5, e6, -⟩ :=
    mergeStep_reach n k s hm ht hk
  rw [h] at h2
  cases h2
  have ha1 := mergeStep_aux n k s hm ht ha hk s1 h
  have hij : (selectPair n s).mini ≠ (selectPair n s).minj := by omega
  have hdead : ¬ isLive (mergedConnector s (selectPair n s).mini (selectPair n s).minj)
      (selectPair n s).minj := by
    rw [isLive_mergedConnector s _ _ hli hij]; exact fun hh => hh.1 rfl
  obtain ⟨-, f2, f3, f4, f5, f6⟩ := updateLoop_full n _ _ _ _ s.mat hm (by omega) hjn hij hdead
    _ _ _ u hu
  have hL1 := liveSet_mergedConnector n s _ _ hli hij
  have hlive1 := isLive_mergedConnector s _ _ hli hij
  rw [updated_eq] at f4 f5 f6
  rw [← e3] at f2 f4 f5 f6 hL1 hlive1
  generalize (selectPair n s).mini = mini at *
  generalize (selectPair n s).minj = minj at *
  have hin : mini < n := by omega
  have hiL : mini ∈ liveSet n s.connector := by
    simp only [liveSet, Finset.mem_filter, Finset.mem_range]; exact ⟨hin, hli⟩
  have hjL : minj ∈ liveSet n s.connector := by
    simp only [liveSet, Finset.mem_filter, Finset.mem_range]; exact ⟨hjn, hlj⟩
  have hiL1 : mini ∈ liveSet n s1.connector := by
    rw [hL1]; exact Finset.mem_erase.mpr ⟨hij, hiL⟩
  -- the entries of the new matrix on the live nodes
  have hent : ∀ a b, a < n → b < n → entry n s1.mat a b =
      if a = minj ∨ b = minj then 0
      else if a = mini ∧ isLive s1.connector b ∧ b ≠ mini then newDist n s.mat mini minj b
      else if b = mini ∧ isLive s1.connector a ∧ a ≠ mini then newDist n s.mat mini minj a
      else entry n s.mat a b := by
    intro a b han hbn
    rw [e1, f2 a b han hbn, mergedEntry_full n _ _ _ _ a b han hbn]
  have hM : ∀ j, j ∈ (liveSet n s1.connector).erase mini →
      j < n ∧ j ≠ mini ∧ j ≠ minj ∧ isLive s1.connector j ∧ isLive s.connector j := by
    intro j hj
    obtain ⟨h1, h2⟩ := Finset.mem_erase.mp hj
    obtain ⟨h3, h4⟩ := liveSet_lt _ _ _ h2
    exact ⟨h3, h1, ((hlive1 j).mp h4).1, h4, ((hlive1 j).mp h4).2⟩
  -- the old row sums, split over minj, mini and the rest
  have hsplit : ∀ f : Nat → ℚ, ∑ j in liveSet n s.connector, f j
      = f minj + (f mini + ∑ j in (liveSet n s1.connector).erase mini, f j) := by
    intro f
    rw [hL1, Finset.add_sum_erase _ f (Finset.mem_erase.mpr ⟨hij, hiL⟩),
      Finset.add_sum_erase _ f hjL]
  have hsplit1 : ∀ f : Nat → ℚ, ∑ j in liveSet n s1.connector, f j
      = f mini + ∑ j in (liveSet n s1.connector).erase mini, f j := by
    intro f
    rw [Finset.add_sum_erase _ f hiL1]
  have hd1 : ∀ i, s1.dToAllOthers.getD i 0 = if i = mini then u.new_sum
      else u.dToAllOthers.getD i 0 := by
    intro i
    rw [e5, getD_set]
    by_cases hi : mini = i
    · subst hi; rw [if_pos ⟨rfl, by rw [f3, ha.d_len]; exact hin⟩, if_pos rfl]
    · rw [if_neg (fun hh => hi hh.1), if_neg (fun hh => hi hh.symm)]
  have hrow : ∀ i, i ∈ liveSet n s1.connector →
      s1.dToAllOthers.getD i 0 = liveRowSum n s1 i := by
    intro i hi
    obtain ⟨hi_n, hi_l⟩ := liveSet_lt _ _ _ hi
    unfold liveRowSum
    rw [hsplit1, hd1]
    by_cases him : i = mini
    · subst him
      rw [if_pos rfl, f5, hent i i hi_n hi_n, if_neg (by omega),
        if_neg (by rintro ⟨_, _, x⟩; exact x rfl), if_neg (by rintro ⟨_, _, x⟩; exact x rfl),
        ha.diag i hi_n, zero_add, zero_add]
      refine Finset.sum_congr rfl (fun j hj => ?_)
      obtain ⟨g1, g2, g3, g4, -⟩ := hM j hj
      rw [hent i j hi_n g1, if_neg (by omega), if_pos ⟨rfl, g4, g2⟩]
    · have hiM : i ∈ (liveSet n s1.connector).erase mini := Finset.mem_erase.mpr ⟨him, hi⟩
      obtain ⟨-, -, hi_j, -, hi_l0⟩ := hM i hiM
      rw [if_neg him, f4 i, if_pos ⟨hiM, by rw [ha.d_len]; exact hi_n⟩,
        hsum.rowsum i (mem_liveSet n _ i hi_n hi_l0)]
      unfold liveRowSum
      rw [hsplit (fun j => entry n s.mat i j)]
      have hrest : ∑ j in (liveSet n s1.connector).erase mini, entry n s1.mat i j
          = ∑ j in (liveSet n s1.connector).erase mini, entry n s.mat i j := by
        refine Finset.sum_congr rfl (fun j hj => ?_)
        obtain ⟨g1, g2, g3, g4, -⟩ := hM j hj
        rw [hent i j hi_n g1, if_neg (by omega), if_neg (fun hh => him hh.1),
          if_neg (fun hh => g2 hh.1)]
      rw [hrest, hent i mini hi_n hin, if_neg (by omega), if_neg (fun hh => him hh.1),
        if_pos ⟨rfl, hi_l, him⟩]
      unfold newDist
      rw [hm.symm i minj hi_n hjn, hm.symm i mini hi_n hin]
      ring
  refine ⟨hrow, ?_⟩
  -- the sum of branches
  have h2new := livePairSum_eq n (k + 1) s1 hm1 ha1
  have h2old := livePairSum_eq n k s hm ha
  have hnewsum : ∑ i in liveSet n s1.connector, liveRowSum n s1 i
      = ∑ i in (liveSet n s1.connector).erase mini, s.dToAllOthers.getD i 0 := by
    rw [hsplit1, ← hrow mini hiL1, hd1, if_pos rfl, f5, zero_add, ← Finset.sum_add_distrib]
    refine Finset.sum_congr rfl (fun j hj => ?_)
    obtain ⟨g1, g2, g3, g4, -⟩ := hM j hj
    have hjL1 : j ∈ liveSet n s1.connector := (Finset.mem_erase.mp hj).2
    rw [← hrow j hjL1, hd1, if_neg g2, f4 j, if_pos ⟨hj, by rw [ha.d_len]; exact g1⟩]
    ring
  have holdsum : ∑ i in liveSet n s.connector, liveRowSum n s i
      = s.dToAllOthers.getD minj 0 + (s.dToAllOthers.getD mini 0
        + ∑ i in (liveSet n s1.connector).erase mini, s.dToAllOthers.getD i 0) := by
    rw [hsplit (fun i => liveRowSum n s i), hsum.rowsum minj hjL, hsum.rowsum mini hiL]
    congr 2
    refine Finset.sum_congr rfl (fun j hj => ?_)
    obtain ⟨g1, g2, g3, g4, g5⟩ := hM j hj
    rw [hsum.rowsum j (mem_liveSet n _ j g1 g5)]
  have hdi : s.dToAllOthers.getD mini 0 = entry n s.mat mini minj
      + ∑ j in (liveSet n s1.connector).erase mini, entry n s.mat mini j := by
    rw [hsum.rowsum mini hiL]
    unfold liveRowSum
    rw [hsplit (fun j => entry n s.mat mini j), ha.diag mini hin, zero_add]
  have hdj : s.dToAllOthers.getD minj 0 = entry n s.mat mini minj
      + ∑ j in (liveSet n s1.connector).erase mini, entry n s.mat minj j := by
    rw [hsum.rowsum minj hjL]
    unfold liveRowSum
    rw [hsplit (fun j => entry n s.mat minj j), ha.diag minj hjn, zero_add,
      hm.symm minj mini hjn hin]
  have hnd : ∑ m in (liveSet n s1.connector).erase mini, newDist n s.mat mini minj m
      = (∑ j in (liveSet n s1.connector).erase mini, entry n s.mat mini j
        + ∑ j in (liveSet n s1.connector).erase mini, entry n s.mat minj j) / 2 := by
    unfold newDist
    rw [← Finset.sum_add_distrib, Finset.sum_div]
  have hskip : ∑ m in skipped s1.connector mini n, entry n s.mat m minj
      = entry n s.mat mini minj := by
    refine Finset.sum_eq_single mini ?_ ?_
    · intro m hmem hne
      simp only [skipped, Finset.mem_filter, Finset.mem_range] at hmem
      obtain ⟨hmn, hnot⟩ := hmem
      have hnl : ¬ isLive s1.connector m := fun hh => hnot ⟨hh, fun x => hne x.symm⟩
      by_cases hmj : m = minj
      · subst hmj; exact ha.diag m hmn
      · exact ha.dead m minj hmn hjn (Or.inl (fun hh => hnl ((hlive1 m).mpr ⟨hmj, hh⟩)))
    · intro hnot
      exfalso; apply hnot
      simp only [skipped, Finset.mem_filter, Finset.mem_range]
      exact ⟨hin, fun hh => hh.2 rfl⟩
  rw [holdsum, hdi, hdj] at h2old
  rw [hnewsum] at h2new
  rw [e6, f6, hskip, hnd, hsum.total]
  linarith

/-! ## The reachable states of the merge loop -/

theorem startState_liveSet (n : Nat) (mat : List ℚ) (hlen : n * n ≤ mat.length) :
    liveSet n (startState n mat).connector = Finset.range n := by
  obtain ⟨-, -, -, -, h5, -, -⟩ := initLeaves_spec n (clearVertices Graph.empty)
    (List.replicate n nilVertex) mat (by simp) hlen
  have hconn : (startState n mat).connector
      = (initLeaves n (clearVertices Graph.empty) (List.replicate n nilVertex) mat).2.1 := rfl
  ext i
  simp only [liveSet, isLive, Finset.mem_filter, Finset.mem_range, hconn, h5]
  constructor
  · exact fun h => h.1
  · intro h; exact ⟨h, by simp [h, nilVertex]⟩

/-- The matrix with which the merge loop is entered: the upper triangle of the
input, mirrored, with a zero diagonal. -/
theorem startState_entry (n : Nat) (mat : List ℚ) (hn : 1 ≤ n) (hlen : n * n ≤ mat.length)
    (a b : Nat) (ha : a < n) (hb : b < n) :
    entry n (startState n mat).mat a b =
      if a < b then entry n mat a b else if b < a then entry n mat b a else 0 := by
  obtain ⟨-, -, -, -, -, h6, h7⟩ := initLeaves_spec n (clearVertices Graph.empty)
    (List.replicate n nilVertex) mat (by simp) hlen
  obtain ⟨-, c2⟩ := copyTriangle_spec n
    (initLeaves n (clearVertices Graph.empty) (List.replicate n nilVertex) mat).2.2 hn
    (by rw [h6]; exact hlen)
  have hmat : (startState n mat).mat = (copyTriangle n
      (initLeaves n (clearVertices Graph.empty) (List.replicate n nilVertex) mat).2.2).1 := rfl
  rw [hmat, c2 a b ha hb]
  rcases Nat.lt_trichotomy a b with h | h | h
  · rw [if_neg (by omega), if_pos h, h7 a b ha hb, if_neg (by omega)]
  · subst h
    rw [if_neg (lt_irrefl _), if_neg (lt_irrefl _), if_neg (lt_irrefl _), h7 a a ha ha,
      if_pos rfl]
  · rw [if_pos h, if_neg (by omega), if_pos h, h7 b a hb ha, if_neg (by omega)]

/-- The merge loop is entered with consistent bookkeeping and cached sums. -/
theorem startState_sum (n : Nat) (mat : List ℚ) (hn : 1 ≤ n) (hlen : n * n ≤ mat.length) :
    AuxInv n 0 (startState n mat) ∧ SumInv n (startState n mat) := by
  obtain ⟨-, -, -, -, -, h6, h7⟩ := initLeaves_spec n (clearVertices Graph.empty)
    (List.replicate n nilVertex) mat (by simp) hlen
  have hL := startState_liveSet n mat hlen
  have hE := startState_entry n mat hn hlen
  have hd : (startState n mat).dToAllOthers = initDToAllOthers n (startState n mat).mat := rfl
  have hs : (startState n mat).sumOfBranches = (copyTriangle n
      (initLeaves n (clearVertices Graph.empty) (List.replicate n nilVertex) mat).2.2).2 := rfl
  obtain ⟨d1, d2⟩ := initDToAllOthers_spec n (startState n mat).mat
  constructor
  · constructor
    · show (List.replicate n (0 : ℚ)).length = n
      simp
    · rw [hd]; exact d1
    · show ((n : ℚ)) = (n : ℚ) - ((0 : ℕ) : ℚ)
      simp
    · intro a ha
      rw [hE a a ha ha, if_neg (lt_irrefl _), if_neg (lt_irrefl _)]
    · intro a b ha hb hdead
      exfalso
      have h1 := (liveSet_lt n _ a (by rw [hL]; exact Finset.mem_range.mpr ha)).2
      have h2 := (liveSet_lt n _ b (by rw [hL]; exact Finset.mem_range.mpr hb)).2
      rcases hdead with h | h
      · exact h h1
      · exact h h2
  · constructor
    · intro i hi
      rw [hL] at hi
      unfold liveRowSum
      rw [hL, hd, d2 i (Finset.mem_range.mp hi)]
    · unfold livePairSum
      rw [hL, hs, copyTriangle_sum n _ hn (by rw [h6]; exact hlen)]
      have e1 : ∑ c in Finset.range n, ∑ r in Finset.range c,
          entry n (initLeaves n (clearVertices Graph.empty) (List.replicate n nilVertex)
            mat).2.2 r c
          = ∑ c in Finset.range n, ∑ r in Finset.range n,
            (if r < c then entry n (startState n mat).mat r c else 0) := by
        refine Finset.sum_congr rfl (fun c hc => ?_)
        have hcn := Finset.mem_range.mp hc
        rw [← Finset.sum_filter]
        have : (Finset.range n).filter (fun r => r < c) = Finset.range c := by
          ext r; simp only [Finset.mem_filter, Finset.mem_range]; omega
        rw [this]
        refine Finset.sum_congr rfl (fun r hr => ?_)
        have hrc := Finset.mem_range.mp hr
        rw [hE r c (by omega) hcn, if_pos hrc, h7 r c (by omega) hcn, if_neg (by omega)]
      rw [e1, Finset.sum_comm]
      refine Finset.sum_congr rfl (fun i _ => ?_)
      rw [Finset.sum_filter]

/-- Every state of the merge loop is reached without a failing assertion and
satisfies all the invariants. -/
theorem mergeLoop_reach (n : Nat) (mat : List ℚ) (hn : 3 ≤ n) (hlen : n * n ≤ mat.length) :
    ∀ k, k + 3 ≤ n → ∃ s, mergeLoop n k (startState n mat) = .ok s ∧ MatInv n s.mat ∧
      TreeInv n k s ∧ AuxInv n k s ∧ SumInv n s := by
  intro k
  induction k with
  | zero =>
    intro _
    obtain ⟨h1, h2⟩ := startState_inv n mat (by omega) hlen
    obtain ⟨h3, h4⟩ := startState_sum n mat (by omega) hlen
    exact ⟨_, rfl, h1, h2, h3, h4⟩
  | succ k ih =>
    intro hk
    obtain ⟨s, hs, hm, ht, ha, hsum⟩ := ih (by omega)
    obtain ⟨s1, h1, hm1, ht1⟩ := mergeStep_inv n k s hm ht (by omega)
    refine ⟨s1, ?_, hm1, ht1, mergeStep_aux n k s hm ht ha (by omega) s1 h1,
      mergeStep_sum n k s hm ht ha hsum (by omega) s1 h1⟩
    rw [mergeLoop_succ, hs]
    exact h1

/-! ## The claims about the merge loop -/

theorem loopFrom_add {σ : Type} (body : Nat → σ → σ) : ∀ (a b j : Nat) (st : σ),
    loopFrom body (a + b) j st = loopFrom body b (j + a) (loopFrom body a j st) := by
  intro a
  induction a with
  | zero => intro b j st; simp [loopFrom]
  | succ a ih =>
    intro b j st
    have e : a + 1 + b = (a + b) + 1 := by omega
    rw [e]
    simp only [loopFrom]
    rw [ih]
    have e2 : j + 1 + a = j + (a + 1) := by omega
    rw [e2]

theorem liveList_length_mono (connector : List TVertexDescriptor) (i n : Nat) (h : i ≤ n) :
    (liveList i connector).length ≤ (liveList n connector).length := by
  induction n with
  | zero =>
    have : i = 0 := by omega
    subst this; exact le_refl _
  | succ m ih =>
    by_cases hi : i = m + 1
    · subst hi; exact le_refl _
    · have := ih (by omega)
      rw [liveList_succ, List.length_append]
      omega

/-- C14: for `n ≥ 3` and any input, after the initial triangle copy (`k = 0`)
and after every merge step the working matrix is symmetric with a zero
diagonal, `mat[i*n+j] = mat[j*n+i]` for all `i, j < n`, and the symmetry
assertions of the next merge step do not fail. -/
theorem C14_symmetric (n : Nat) (mat : List ℚ) (hn : 3 ≤ n) (hlen : n * n ≤ mat.length)
    (k : Nat) (hk : k + 3 ≤ n) :
    ∃ s, mergeLoop n k (startState n mat) = .ok s ∧
      (∀ i j, i < n → j < n → s.mat.getD (i * n + j) 0 = s.mat.getD (j * n + i) 0) ∧
      (∀ i, i < n → s.mat.getD (i * n + i) 0 = 0) ∧
      (k + 4 ≤ n → ∃ s1, mergeStep n s = .ok s1) := by
  obtain ⟨s, hs, hm, ht, ha, -⟩ := mergeLoop_reach n mat hn hlen k hk
  refine ⟨s, hs, hm.symm, ha.diag, fun h4 => ?_⟩
  obtain ⟨s1, h1, -⟩ := mergeStep_inv n k s hm ht (by omega)
  exact ⟨s1, h1⟩

theorem C14_symmetric_witness :
    (3 ≤ 4 ∧ 4 * 4 ≤ mat4.length ∧ 0 + 3 ≤ 4) ∧
    ∃ s, mergeLoop 4 0 (startState 4 mat4) = .ok s ∧
      (∀ i j, i < 4 → j < 4 → s.mat.getD (i * 4 + j) 0 = s.mat.getD (j * 4 + i) 0) ∧
      (∀ i, i < 4 → s.mat.getD (i * 4 + i) 0 = 0) ∧
      (0 + 4 ≤ 4 → ∃ s1, mergeStep 4 s = .ok s1) :=
  ⟨by decide, C14_symmetric 4 mat4 (by decide) (by decide) 0 (by decide)⟩

/-- C15: for every `n ≥ 3` and every input, `main_cycle` runs the merge loop
for exactly `n - 3` iterations (it is `mergeLoop n (n - 3)` on the start
state); each merge picks two distinct live slots `mini < minj` and removes exactly the live slot `minj`, so that `n - k` slots
are live after `k` merges and exactly three when `main_cycle` returns. The scan
for the remaining nodes then writes the three entries `l[0] < l[1] < l[2]`, and
whenever it reaches a live slot its write index `count` is below 3. -/
theorem C15_three_remain (n : Nat) (mat : List ℚ) (hn : 3 ≤ n) (hlen : n * n ≤ mat.length) :
    (∀ k, k + 4 ≤ n → ∃ s s1, mergeLoop n k (startState n mat) = .ok s ∧
        mergeStep n s = .ok s1 ∧ mergeLoop n (k + 1) (startState n mat) = .ok s1 ∧
        (selectPair n s).mini < (selectPair n s).minj ∧ (selectPair n s).minj < n ∧
        isLive s.connector (selectPair n s).mini ∧
        isLive s.connector (selectPair n s).minj ∧
        liveSet n s1.connector = (liveSet n s.connector).erase (selectPair n s).minj ∧
        (liveSet n s.connector).card = n - k) ∧
    ∃ s, mergeLoop n (n - 3) (startState n mat) = .ok s ∧
      main_cycle (initLeaves n (clearVertices Graph.empty) (List.replicate n nilVertex) mat).2.2
        (initLeaves n (clearVertices Graph.empty) (List.replicate n nilVertex) mat).1 n
        (initLeaves n (clearVertices Graph.empty) (List.replicate n nilVertex) mat).2.1
        (List.replicate n 0) = .ok s ∧
      (liveSet n s.connector).card = 3 ∧
      (∀ i, i < n → isLive s.connector i → (findRemaining i s.connector).2 < 3 ∧
        findRemaining n s.connector = loopFrom (fun i (st : List Nat × Nat) =>
          if s.connector.getD i nilVertex ≠ nilVertex then (st.1.set st.2 i, st.2 + 1) else st)
          (n - i) i (findRemaining i s.connector)) ∧
      ∃ a b c, findRemaining n s.connector = ([a, b, c], 3) ∧ a < b ∧ b < c ∧ c < n ∧
        liveSet n s.connector = {a, b, c} := by
  constructor
  · intro k hk
    obtain ⟨s, hs, hm, ht, -, -⟩ := mergeLoop_reach n mat hn hlen k (by omega)
    obtain ⟨s1, u, h1, -, -, hlt, hjn, hli, hlj, -, -, -, e3, -⟩ :=
      mergeStep_reach n k s hm ht (by omega)
    refine ⟨s, s1, hs, h1, ?_, hlt, hjn, hli, hlj, ?_, ?_⟩
    · rw [mergeLoop_succ, hs]; exact h1
    · rw [e3]; exact liveSet_mergedConnector n s _ _ hli (by omega)
    · have := ht.live_card; omega
  · obtain ⟨s, hs, -, ht, -, -⟩ := mergeLoop_reach n mat hn hlen (n - 3) (by omega)
    have hcard : (liveSet n s.connector).card = 3 := by have := ht.live_card; omega
    obtain ⟨a, b, c, h1, h2, hab, hbc, hcn, hla, hlb, hlc, hall⟩ :=
      findRemaining_three n s.connector hcard
    refine ⟨s, hs, hs, hcard, ?_, a, b, c, Prod.ext h1 h2, hab, hbc, hcn, ?_⟩
    · intro i hi hlive
      constructor
      · rw [(findRemaining_inv i s.connector).2.1]
        have h3 := liveList_length_mono s.connector (i + 1) n (by omega)
        rw [liveList_succ, if_pos hlive, List.length_append, List.length_singleton] at h3
        have h4 : (liveList n s.connector).length = 3 := by
          have h5 := liveSet_card_eq n s.connector
          rw [hcard] at h5
          exact h5.symm
        omega
      · unfold findRemaining forLoop
        have e : n - 0 = (i - 0) + (n - i) := by omega
        rw [e, loopFrom_add]
        simp
    · ext x
      simp only [liveSet, Finset.mem_filter, Finset.mem_range, Finset.mem_insert,
        Finset.mem_singleton]
      constructor
      · rintro ⟨hx1, hx2⟩; exact hall x hx1 hx2
      · rintro (rfl | rfl | rfl)
        · exact ⟨by omega, hla⟩
        · exact ⟨by omega, hlb⟩
        · exact ⟨hcn, hlc⟩

theorem C15_three_remain_witness :
    (3 ≤ 4 ∧ 4 * 4 ≤ mat4.length) ∧
    (∀ k, k + 4 ≤ 4 → ∃ s s1, mergeLoop 4 k (startState 4 mat4) = .ok s ∧
        mergeStep 4 s = .ok s1 ∧ mergeLoop 4 (k + 1) (startState 4 mat4) = .ok s1 ∧
        (selectPair 4 s).mini < (selectPair 4 s).minj ∧ (selectPair 4 s).minj < 4 ∧
        isLive s.connector (selectPair 4 s).mini ∧
        isLive s.connector (selectPair 4 s).minj ∧
        liveSet 4 s1.connector = (liveSet 4 s.connector).erase (selectPair 4 s).minj ∧
        (liveSet 4 s.connector).card = 4 - k) ∧
    ∃ s, mergeLoop 4 (4 - 3) (startState 4 mat4) = .ok s ∧
      main_cycle (initLeaves 4 (clearVertices Graph.empty) (List.replicate 4 nilVertex) mat4).2.2
        (initLeaves 4 (clearVertices Graph.empty) (List.replicate 4 nilVertex) mat4).1 4
        (initLeaves 4 (clearVertices Graph.empty) (List.replicate 4 nilVertex) mat4).2.1
        (List.replicate 4 0) = .ok s ∧
      (liveSet 4 s.connector).card = 3 ∧
      (∀ i, i < 4 → isLive s.connector i → (findRemaining i s.connector).2 < 3 ∧
        findRemaining 4 s.connector = loopFrom (fun i (st : List Nat × Nat) =>
          if s.connector.getD i nilVertex ≠ nilVertex then (st.1.set st.2 i, st.2 + 1) else st)
          (4 - i) i (findRemaining i s.connector)) ∧
      ∃ a b c, findRemaining 4 s.connector = ([a, b, c], 3) ∧ a < b ∧ b < c ∧ c < 4 ∧
        liveSet 4 s.connector = {a, b, c} :=
  ⟨by decide, C15_three_remain 4 mat4 (by decide) (by decide)⟩

/-- C16: in every merge iteration of `main_cycle`, with `r ≥ 4` live nodes
remaining, `fnseqs` equals `r`, the joined pair consists of two live slots
`mini < minj`, and its `total` is at most the `total` of every live pair
`p < q`, where `total(i, j) = (d[i] + d[j] + (r - 2) * mat[i][j]
+ 2 * (sumOfBranches - d[i] - d[j])) / (2 * (r - 2))`. -/
theorem C16_least_total (n : Nat) (mat : List ℚ) (hn : 3 ≤ n) (hlen : n * n ≤ mat.length)
    (k : Nat) (hk : k + 4 ≤ n) :
    ∃ s, mergeLoop n k (startState n mat) = .ok s ∧
      s.fnseqs = ((liveSet n s.connector).card : ℚ) ∧ 4 ≤ (liveSet n s.connector).card ∧
      (selectPair n s).mini < (selectPair n s).minj ∧
      isLive s.connector (selectPair n s).mini ∧
      isLive s.connector (selectPair n s).minj ∧
      (∀ i j, pairTotal n s i j =
        (s.dToAllOthers.getD i 0 + s.dToAllOthers.getD j 0
          + (((liveSet n s.connector).card : ℚ) - 2) * s.mat.getD (i * n + j) 0
          + 2 * (s.sumOfBranches - s.dToAllOthers.getD i 0 - s.dToAllOthers.getD j 0))
        / (2 * (((liveSet n s.connector).card : ℚ) - 2))) ∧
      ∀ p q, p < q → q < n → isLive s.connector p → isLive s.connector q →
        pairTotal n s (selectPair n s).mini (selectPair n s).minj ≤ pairTotal n s p q := by
  obtain ⟨s, hs, hm, ht, ha, -⟩ := mergeLoop_reach n mat hn hlen k (by omega)
  have hcard : (liveSet n s.connector).card = n - k := by have := ht.live_card; omega
  have hr : s.fnseqs = ((liveSet n s.connector).card : ℚ) := by
    rw [ha.fnseqs_eq, hcard, Nat.cast_sub (by omega)]
  obtain ⟨hlt, hjn, hli, hlj⟩ := selectPair_found n s (by omega)
  refine ⟨s, hs, hr, by omega, hlt, hli, hlj, fun i j => ?_, ?_⟩
  · rw [← hr]; rfl
  · intro p q hpq hq hp hq2
    have hinv := selectPair_inv n s (by omega)
    have hnf : (selectPair n s).notFound = false := by
      cases hx : (selectPair n s).notFound with
      | false => rfl
      | true => exact absurd (Or.inl hq) (hinv.none_found hx p q hpq hq hp hq2)
    have hl := hinv.least hnf p q hpq hq hp hq2 (Or.inl hq)
    rw [(hinv.vals hnf).1] at hl
    rcases hl with h | h
    · exact le_of_lt h
    · exact le_of_eq h.1

theorem C16_least_total_witness :
    (3 ≤ 4 ∧ 4 * 4 ≤ mat4.length ∧ 0 + 4 ≤ 4) ∧
    ∃ s, mergeLoop 4 0 (startState 4 mat4) = .ok s ∧
      s.fnseqs = ((liveSet 4 s.connector).card : ℚ) ∧ 4 ≤ (liveSet 4 s.connector).card ∧
      (selectPair 4 s).mini < (selectPair 4 s).minj ∧
      isLive s.connector (selectPair 4 s).mini ∧
      isLive s.connector (selectPair 4 s).minj ∧
      (∀ i j, pairTotal 4 s i j =
        (s.dToAllOthers.getD i 0 + s.dToAllOthers.getD j 0
          + (((liveSet 4 s.connector).card : ℚ) - 2) * s.mat.getD (i * 4 + j) 0
          + 2 * (s.sumOfBranches - s.dToAllOthers.getD i 0 - s.dToAllOthers.getD j 0))
        / (2 * (((liveSet 4 s.connector).card : ℚ) - 2))) ∧
      ∀ p q, p < q → q < 4 → isLive s.connector p → isLive s.connector q →
        pairTotal 4 s (selectPair 4 s).mini (selectPair 4 s).minj ≤ pairTotal 4 s p q :=
  ⟨by decide, C16_least_total 4 mat4 (by decide) (by decide) 0 (by decide)⟩

/-- The entries of the matrix after a merge step of a reachable state. -/
theorem mergeStep_entry (n k : Nat) (s : NJState) (hm : MatInv n s.mat) (ht : TreeInv n k s)
    (hk : k + 2 ≤ n) (s1 : NJState) (h : mergeStep n s = .ok s1) (a b : Nat) (ha : a < n)
    (hb : b < n) :
    entry n s1.mat a b =
      if a = (selectPair n s).minj ∨ b = (selectPair n s).minj then 0
      else if a = (selectPair n s).mini ∧ isLive s1.connector b ∧ b ≠ (selectPair n s).mini
        then newDist n s.mat (selectPair n s).mini (selectPair n s).minj b
      else if b = (selectPair n s).mini ∧ isLive s1.connector a ∧ a ≠ (selectPair n s).mini
        then newDist n s.mat (selectPair n s).mini (selectPair n s).minj a
      else entry n s.mat a b := by
  obtain ⟨s2, u, h2, -, -, hlt, hjn, hli, hlj, hu, e1, -, e3, -⟩ :=
    mergeStep_reach n k s hm ht hk
  rw [h] at h2
  cases h2
  have hij : (selectPair n s).mini ≠ (selectPair n s).minj := by omega
  have hdead : ¬ isLive (mergedConnector s (selectPair n s).mini (selectPair n s).minj)
      (selectPair n s).minj := by
    rw [isLive_mergedConnector s _ _ hli hij]; exact fun hh => hh.1 rfl
  obtain ⟨-, f2, -⟩ := updateLoop_full n _ _ _ _ s.mat hm (by omega) hjn hij hdead
    _ _ _ u hu
  rw [e1, f2 a b ha hb, mergedEntry_full n _ _ _ _ a b ha hb, e3]

/-- C17: in every merge iteration, joining the live pair `(i, j)` with `r` live
nodes remaining, `dmin = mat[i][j]` and
`b = (dmin + d[i] / (r - 2) - d[j] / (r - 2)) / 2`, exactly one vertex is
created and exactly two edges are added, from it to the vertices held in
`connector[i]` and `connector[j]`, with the weights
`roundToSignificantFigures (max 0 (b - av[i])) 5` and
`roundToSignificantFigures (max 0 (dmin - b - av[j])) 5`; the new distances of
the matrix are not rounded. -/
theorem C17_merge_edges (n : Nat) (mat : List ℚ) (hn : 3 ≤ n) (hlen : n * n ≤ mat.length)
    (k : Nat) (hk : k + 4 ≤ n) :
    ∃ s s1, mergeLoop n k (startState n mat) = .ok s ∧ mergeStep n s = .ok s1 ∧
      s.fnseqs = ((liveSet n s.connector).card : ℚ) ∧
      isLive s.connector (selectPair n s).mini ∧ isLive s.connector (selectPair n s).minj ∧
      s1.g.numVertices = s.g.numVertices + 1 ∧
      s1.g.edges = s.g.edges ++
        [⟨some s.g.numVertices, s.connector.getD (selectPair n s).mini nilVertex,
           roundToSignificantFigures
             (max 0 (branchToNew n s (selectPair n s).mini (selectPair n s).minj - s.av.getD (selectPair n s).mini 0)) 5⟩,
         ⟨some s.g.numVertices, s.connector.getD (selectPair n s).minj nilVertex,
           roundToSignificantFigures
             (max 0 (s.mat.getD ((selectPair n s).mini * n + (selectPair n s).minj) 0 - branchToNew n s (selectPair n s).mini (selectPair n s).minj
               - s.av.getD (selectPair n s).minj 0)) 5⟩] ∧
      branchToNew n s (selectPair n s).mini (selectPair n s).minj =
        (s.mat.getD ((selectPair n s).mini * n + (selectPair n s).minj) 0
          + s.dToAllOthers.getD (selectPair n s).mini 0 / (((liveSet n s.connector).card : ℚ) - 2)
          - s.dToAllOthers.getD (selectPair n s).minj 0 / (((liveSet n s.connector).card : ℚ) - 2)) / 2 ∧
      ∀ m, m < n → isLive s.connector m → m ≠ (selectPair n s).mini → m ≠ (selectPair n s).minj →
        s1.mat.getD ((selectPair n s).mini * n + m) 0
          = (s.mat.getD ((selectPair n s).mini * n + m) 0 + s.mat.getD ((selectPair n s).minj * n + m) 0) / 2 := by
  obtain ⟨s, hs, hm, ht, ha, -⟩ := mergeLoop_reach n mat hn hlen k (by omega)
  have hcard : (liveSet n s.connector).card = n - k := by have := ht.live_card; omega
  have hr : s.fnseqs = ((liveSet n s.connector).card : ℚ) := by
    rw [ha.fnseqs_eq, hcard, Nat.cast_sub (by omega)]
  obtain ⟨s1, u, h1, -, -, hlt, hjn, hli, hlj, -, -, e2, e3, -⟩ :=
    mergeStep_reach n k s hm ht (by omega)
  refine ⟨s, s1, hs, h1, hr, hli, hlj, by rw [e2]; rfl, by rw [e2]; rfl, by rw [← hr]; rfl, ?_⟩
  intro m hmn hml hmi hmj
  have he := mergeStep_entry n k s hm ht (by omega) s1 h1 (selectPair n s).mini m (by omega) hmn
  have hml1 : isLive s1.connector m := by
    rw [e3, isLive_mergedConnector s _ _ hli (by omega)]; exact ⟨hmj, hml⟩
  rw [if_neg (by omega), if_pos ⟨rfl, hml1, hmi⟩] at he
  exact he

theorem C17_merge_edges_witness :
    (3 ≤ 4 ∧ 4 * 4 ≤ mat4.length ∧ 0 + 4 ≤ 4) ∧
    ∃ s s1, mergeLoop 4 0 (startState 4 mat4) = .ok s ∧ mergeStep 4 s = .ok s1 ∧
      s.fnseqs = ((liveSet 4 s.connector).card : ℚ) ∧
      isLive s.connector (selectPair 4 s).mini ∧ isLive s.connector (selectPair 4 s).minj ∧
      s1.g.numVertices = s.g.numVertices + 1 ∧
      s1.g.edges = s.g.edges ++
        [⟨some s.g.numVertices, s.connector.getD (selectPair 4 s).mini nilVertex,
           roundToSignificantFigures
             (max 0 (branchToNew 4 s (selectPair 4 s).mini (selectPair 4 s).minj - s.av.getD (selectPair 4 s).mini 0)) 5⟩,
         ⟨some s.g.numVertices, s.connector.getD (selectPair 4 s).minj nilVertex,
           roundToSignificantFigures
             (max 0 (s.mat.getD ((selectPair 4 s).mini * 4 + (selectPair 4 s).minj) 0 - branchToNew 4 s (selectPair 4 s).mini (selectPair 4 s).minj
               - s.av.getD (selectPair 4 s).minj 0)) 5⟩] ∧
      branchToNew 4 s (selectPair 4 s).mini (selectPair 4 s).minj =
        (s.mat.getD ((selectPair 4 s).mini * 4 + (selectPair 4 s).minj) 0
          + s.dToAllOthers.getD (selectPair 4 s).mini 0 / (((liveSet 4 s.connector).card : ℚ) - 2)
          - s.dToAllOthers.getD (selectPair 4 s).minj 0 / (((liveSet 4 s.connector).card : ℚ) - 2)) / 2 ∧
      ∀ m, m < 4 → isLive s.connector m → m ≠ (selectPair 4 s).mini → m ≠ (selectPair 4 s).minj →
        s1.mat.getD ((selectPair 4 s).mini * 4 + m) 0
          = (s.mat.getD ((selectPair 4 s).mini * 4 + m) 0 + s.mat.getD ((selectPair 4 s).minj * 4 + m) 0) / 2 :=
  ⟨by decide, C17_merge_edges 4 mat4 (by decide) (by decide) 0 (by decide)⟩

/-- C19: the state change of one merge of the live pair `(i, j)` in
`main_cycle`. For every other live node `m` the entries `mat[i][m]` and
`mat[m][i]` both become `(mat[i][m] + mat[j][m]) / 2` of the old matrix; every
entry of row `j` and of column `j` becomes 0; every entry outside the rows and
columns `i` and `j` is unchanged; `av[i]` becomes `max(mat[i][j], 0) / 2` and
every other entry of `av` is unchanged; `connector[j]` becomes nil,
`connector[i]` becomes the new internal vertex, and every other slot of
`connector` is unchanged. -/
theorem C19_merge_state (n : Nat) (mat : List ℚ) (hn : 3 ≤ n) (hlen : n * n ≤ mat.length)
    (k : Nat) (hk : k + 4 ≤ n) :
    ∃ s s1, mergeLoop n k (startState n mat) = .ok s ∧ mergeStep n s = .ok s1 ∧
      (selectPair n s).mini < (selectPair n s).minj ∧ (selectPair n s).minj < n ∧ isLive s.connector (selectPair n s).mini ∧ isLive s.connector (selectPair n s).minj ∧
      (∀ m, m < n → isLive s.connector m → m ≠ (selectPair n s).mini → m ≠ (selectPair n s).minj →
        s1.mat.getD ((selectPair n s).mini * n + m) 0
          = (s.mat.getD ((selectPair n s).mini * n + m) 0 + s.mat.getD ((selectPair n s).minj * n + m) 0) / 2 ∧
        s1.mat.getD (m * n + (selectPair n s).mini) 0
          = (s.mat.getD ((selectPair n s).mini * n + m) 0 + s.mat.getD ((selectPair n s).minj * n + m) 0) / 2) ∧
      (∀ a, a < n → s1.mat.getD ((selectPair n s).minj * n + a) 0 = 0 ∧ s1.mat.getD (a * n + (selectPair n s).minj) 0 = 0) ∧
      (∀ a b, a < n → b < n → a ≠ (selectPair n s).mini → a ≠ (selectPair n s).minj → b ≠ (selectPair n s).mini → b ≠ (selectPair n s).minj →
        s1.mat.getD (a * n + b) 0 = s.mat.getD (a * n + b) 0) ∧
      s1.av.getD (selectPair n s).mini 0 = max (s.mat.getD ((selectPair n s).mini * n + (selectPair n s).minj) 0) 0 / 2 ∧
      (∀ m, m ≠ (selectPair n s).mini → s1.av.getD m 0 = s.av.getD m 0) ∧
      s1.connector.getD (selectPair n s).minj nilVertex = nilVertex ∧
      s1.connector.getD (selectPair n s).mini nilVertex = some s.g.numVertices ∧
      s1.g.numVertices = s.g.numVertices + 1 ∧
      (∀ m, m ≠ (selectPair n s).mini → m ≠ (selectPair n s).minj →
        s1.connector.getD m nilVertex = s.connector.getD m nilVertex) := by
  obtain ⟨s, hs, hm, ht, ha, -⟩ := mergeLoop_reach n mat hn hlen k (by omega)
  obtain ⟨s1, u, h1, -, -, hlt, hjn, hli, hlj, -, -, e2, e3, e4, -⟩ :=
    mergeStep_reach n k s hm ht (by omega)
  have he := mergeStep_entry n k s hm ht (by omega) s1 h1
  have hil := isLive_lt _ _ hli
  have hget : ∀ i, s1.connector.getD i nilVertex =
      if i = (selectPair n s).mini then some s.g.numVertices
      else if i = (selectPair n s).minj then nilVertex
      else s.connector.getD i nilVertex := by
    intro i; rw [e3]; exact connector_merge _ _ _ _ hil (by omega) i
  refine ⟨s, s1, hs, h1, hlt, hjn, hli, hlj, ?_, ?_, ?_, ?_, ?_, ?_, ?_, by rw [e2]; rfl, ?_⟩
  · intro m hmn hml hmi hmj
    have hml1 : isLive s1.connector m := by
      rw [e3, isLive_mergedConnector s _ _ hli (by omega)]; exact ⟨hmj, hml⟩
    have h1 := he (selectPair n s).mini m (by omega) hmn
    have h2 := he m (selectPair n s).mini hmn (by omega)
    rw [if_neg (by omega), if_pos ⟨rfl, hml1, hmi⟩] at h1
    rw [if_neg (by omega), if_neg (fun hh => hmi hh.1), if_pos ⟨rfl, hml1, hmi⟩] at h2
    exact ⟨h1, h2⟩
  · intro a han
    have h1 := he (selectPair n s).minj a hjn han
    have h2 := he a (selectPair n s).minj han hjn
    rw [if_pos (Or.inl rfl)] at h1
    rw [if_pos (Or.inr rfl)] at h2
    exact ⟨h1, h2⟩
  · intro a b han hbn hai haj hbi hbj
    have h1 := he a b han hbn
    rw [if_neg (by omega), if_neg (fun hh => hai hh.1), if_neg (fun hh => hbi hh.1)] at h1
    exact h1
  · rw [e4, getD_set, if_pos ⟨rfl, by rw [ha.av_len]; omega⟩, max_comm]
    rfl
  · intro m hmi
    rw [e4, getD_set, if_neg (fun hh => hmi hh.1.symm)]
  · rw [hget, if_neg (by omega), if_pos rfl]
  · rw [hget, if_pos rfl]
  · intro m hmi hmj
    rw [hget, if_neg hmi, if_neg hmj]

theorem C19_merge_state_witness :
    (3 ≤ 4 ∧ 4 * 4 ≤ mat4.length ∧ 0 + 4 ≤ 4) ∧
    ∃ s s1, mergeLoop 4 0 (startState 4 mat4) = .ok s ∧ mergeStep 4 s = .ok s1 ∧
      (selectPair 4 s).mini < (selectPair 4 s).minj ∧ (selectPair 4 s).minj < 4 ∧ isLive s.connector (selectPair 4 s).mini ∧ isLive s.connector (selectPair 4 s).minj ∧
      (∀ m, m < 4 → isLive s.connector m → m ≠ (selectPair 4 s).mini → m ≠ (selectPair 4 s).minj →
        s1.mat.getD ((selectPair 4 s).mini * 4 + m) 0
          = (s.mat.getD ((selectPair 4 s).mini * 4 + m) 0 + s.mat.getD ((selectPair 4 s).minj * 4 + m) 0) / 2 ∧
        s1.mat.getD (m * 4 + (selectPair 4 s).mini) 0
          = (s.mat.getD ((selectPair 4 s).mini * 4 + m) 0 + s.mat.getD ((selectPair 4 s).minj * 4 + m) 0) / 2) ∧
      (∀ a, a < 4 → s1.mat.getD ((selectPair 4 s).minj * 4 + a) 0 = 0 ∧ s1.mat.getD (a * 4 + (selectPair 4 s).minj) 0 = 0) ∧
      (∀ a b, a < 4 → b < 4 → a ≠ (selectPair 4 s).mini → a ≠ (selectPair 4 s).minj → b ≠ (selectPair 4 s).mini → b ≠ (selectPair 4 s).minj →
        s1.mat.getD (a * 4 + b) 0 = s.mat.getD (a * 4 + b) 0) ∧
      s1.av.getD (selectPair 4 s).mini 0 = max (s.mat.getD ((selectPair 4 s).mini * 4 + (selectPair 4 s).minj) 0) 0 / 2 ∧
      (∀ m, m ≠ (selectPair 4 s).mini → s1.av.getD m 0 = s.av.getD m 0) ∧
      s1.connector.getD (selectPair 4 s).minj nilVertex = nilVertex ∧
      s1.connector.getD (selectPair 4 s).mini nilVertex = some s.g.numVertices ∧
      s1.g.numVertices = s.g.numVertices + 1 ∧
      (∀ m, m ≠ (selectPair 4 s).mini → m ≠ (selectPair 4 s).minj →
        s1.connector.getD m nilVertex = s.connector.getD m nilVertex) :=
  ⟨by decide, C19_merge_state 4 mat4 (by decide) (by decide) 0 (by decide)⟩

/-! ## The claim about the final resolution -/

/-- The tree after the final resolution of the three remaining nodes, with its
weights. -/
theorem finalJoin_full (n : Nat) (s : NJState) (a b c : Nat)
    (h : (findRemaining n s.connector).1 = [a, b, c]) :
    finalJoin n s =
      ⟨s.g.numVertices + 2,
       s.g.edges ++
          [⟨some s.g.numVertices, s.connector.getD a nilVertex,
             roundToSignificantFigures (max 0 ((s.mat.getD (a * n + b) 0 + s.mat.getD (a * n + c) 0 - s.mat.getD (b * n + c) 0) / 2 - s.av.getD a 0)) 5⟩,
           ⟨some s.g.numVertices, s.connector.getD b nilVertex,
             roundToSignificantFigures (max 0 ((s.mat.getD (b * n + c) 0 + s.mat.getD (a * n + b) 0 - s.mat.getD (a * n + c) 0) / 2 - s.av.getD b 0)) 5⟩,
           ⟨some (s.g.numVertices + 1), s.connector.getD c nilVertex,
             roundToSignificantFigures (max 0 ((s.mat.getD (b * n + c) 0 + s.mat.getD (a * n + c) 0 - s.mat.getD (a * n + b) 0) / 2 - s.av.getD c 0) / 2) 5⟩,
           ⟨some (s.g.numVertices + 1), some s.g.numVertices,
             roundToSignificantFigures (max 0 ((s.mat.getD (b * n + c) 0 + s.mat.getD (a * n + c) 0 - s.mat.getD (a * n + b) 0) / 2 - s.av.getD c 0) / 2) 5⟩],
       some (s.g.numVertices + 1)⟩ := by
  unfold finalJoin
  simp only [h, addEdge, addVertex, List.append_assoc, List.singleton_append,
    List.getD_cons_zero, List.getD_cons_succ, max_zero_eq]
  rfl

/-- C18: the final resolution for `n ≥ 3`. With `a < b < c` the three live
slots after `main_cycle` and `branch(a) = max 0 ((mat[a,b] + mat[a,c] -
mat[b,c]) / 2 - av[a])`, and `branch(b)`, `branch(c)` alike, `neighbour_joining`
adds one internal vertex `X` with edges to `connector[a]` and `connector[b]` of
weights `round5(branch(a))` and `round5(branch(b))`, then a vertex `R` with edges
to `connector[c]` and to `X` that both have weight `round5(branch(c) / 2)`, and
designates `R` as the root. -/
theorem C18_final_resolution (mat : List ℚ) (hn : 3 ≤ Nat.sqrt mat.length) :
    ∃ s a b c, mergeLoop (Nat.sqrt mat.length) ((Nat.sqrt mat.length) - 3) (startState (Nat.sqrt mat.length) mat) = .ok s ∧
      a < b ∧ b < c ∧ c < (Nat.sqrt mat.length) ∧
      (∀ i, i < (Nat.sqrt mat.length) → (isLive s.connector i ↔ (i = a ∨ i = b ∨ i = c))) ∧
      neighbour_joining mat = .ok
        ⟨s.g.numVertices + 2,
         s.g.edges ++
          [⟨some s.g.numVertices, s.connector.getD a nilVertex,
             roundToSignificantFigures (max 0 ((s.mat.getD (a * (Nat.sqrt mat.length) + b) 0 + s.mat.getD (a * (Nat.sqrt mat.length) + c) 0 - s.mat.getD (b * (Nat.sqrt mat.length) + c) 0) / 2 - s.av.getD a 0)) 5⟩,
           ⟨some s.g.numVertices, s.connector.getD b nilVertex,
             roundToSignificantFigures (max 0 ((s.mat.getD (b * (Nat.sqrt mat.length) + c) 0 + s.mat.getD (a * (Nat.sqrt mat.length) + b) 0 - s.mat.getD (a * (Nat.sqrt mat.length) + c) 0) / 2 - s.av.getD b 0)) 5⟩,
           ⟨some (s.g.numVertices + 1), s.connector.getD c nilVertex,
             roundToSignificantFigures (max 0 ((s.mat.getD (b * (Nat.sqrt mat.length) + c) 0 + s.mat.getD (a * (Nat.sqrt mat.length) + c) 0 - s.mat.getD (a * (Nat.sqrt mat.length) + b) 0) / 2 - s.av.getD c 0) / 2) 5⟩,
           ⟨some (s.g.numVertices + 1), some s.g.numVertices,
             roundToSignificantFigures (max 0 ((s.mat.getD (b * (Nat.sqrt mat.length) + c) 0 + s.mat.getD (a * (Nat.sqrt mat.length) + c) 0 - s.mat.getD (a * (Nat.sqrt mat.length) + b) 0) / 2 - s.av.getD c 0) / 2) 5⟩],
         some (s.g.numVertices + 1)⟩ := by
  obtain ⟨s, hs, -, ht, hres⟩ := neighbour_joining_n_ge3 _ mat hn (sqrt_sq_le mat)
  have hcard : (liveSet (Nat.sqrt mat.length) s.connector).card = 3 := by
    have := ht.live_card; omega
  obtain ⟨a, b, c, h1, -, hab, hbc, hcn, hla, hlb, hlc, hall⟩ :=
    findRemaining_three _ s.connector hcard
  refine ⟨s, a, b, c, hs, hab, hbc, hcn, ?_, ?_⟩
  · intro i hi
    constructor
    · exact hall i hi
    · rintro (rfl | rfl | rfl)
      · exact hla
      · exact hlb
      · exact hlc
  · unfold neighbour_joining
    rw [hres, finalJoin_full _ s a b c h1]

theorem C18_final_resolution_witness :
    3 ≤ Nat.sqrt mat4.length ∧
    ∃ s a b c, mergeLoop (Nat.sqrt mat4.length) ((Nat.sqrt mat4.length) - 3) (startState (Nat.sqrt mat4.length) mat4) = .ok s ∧
      a < b ∧ b < c ∧ c < (Nat.sqrt mat4.length) ∧
      (∀ i, i < (Nat.sqrt mat4.length) → (isLive s.connector i ↔ (i = a ∨ i = b ∨ i = c))) ∧
      neighbour_joining mat4 = .ok
        ⟨s.g.numVertices + 2,
         s.g.edges ++
          [⟨some s.g.numVertices, s.connector.getD a nilVertex,
             roundToSignificantFigures (max 0 ((s.mat.getD (a * (Nat.sqrt mat4.length) + b) 0 + s.mat.getD (a * (Nat.sqrt mat4.length) + c) 0 - s.mat.getD (b * (Nat.sqrt mat4.length) + c) 0) / 2 - s.av.getD a 0)) 5⟩,
           ⟨some s.g.numVertices, s.connector.getD b nilVertex,
             roundToSignificantFigures (max 0 ((s.mat.getD (b * (Nat.sqrt mat4.length) + c) 0 + s.mat.getD (a * (Nat.sqrt mat4.length) + b) 0 - s.mat.getD (a * (Nat.sqrt mat4.length) + c) 0) / 2 - s.av.getD b 0)) 5⟩,
           ⟨some (s.g.numVertices + 1), s.connector.getD c nilVertex,
             roundToSignificantFigures (max 0 ((s.mat.getD (b * (Nat.sqrt mat4.length) + c) 0 + s.mat.getD (a * (Nat.sqrt mat4.length) + c) 0 - s.mat.getD (a * (Nat.sqrt mat4.length) + b) 0) / 2 - s.av.getD c 0) / 2) 5⟩,
           ⟨some (s.g.numVertices + 1), some s.g.numVertices,
             roundToSignificantFigures (max 0 ((s.mat.getD (b * (Nat.sqrt mat4.length) + c) 0 + s.mat.getD (a * (Nat.sqrt mat4.length) + c) 0 - s.mat.getD (a * (Nat.sqrt mat4.length) + b) 0) / 2 - s.av.getD c 0) / 2) 5⟩],
         some (s.g.numVertices + 1)⟩ :=
  ⟨by decide!, C18_final_resolution mat4 (by decide!)⟩

/-! ## The claim about the cached sums -/

/-- The incremental updates of the cached sums in one merge step. -/
theorem mergeStep_updates (n k : Nat) (s : NJState) (hm : MatInv n s.mat) (ht : TreeInv n k s)
    (ha : AuxInv n k s) (hk : k + 2 ≤ n) (s1 : NJState) (h : mergeStep n s = .ok s1) :
    (∀ m, m < n → isLive s1.connector m → m ≠ (selectPair n s).mini →
      s1.dToAllOthers.getD m 0 = s.dToAllOthers.getD m 0
        - newDist n s.mat (selectPair n s).mini (selectPair n s).minj m) ∧
    s1.dToAllOthers.getD (selectPair n s).mini 0
      = ∑ m in (liveSet n s1.connector).erase (selectPair n s).mini,
          newDist n s.mat (selectPair n s).mini (selectPair n s).minj m ∧
    s1.sumOfBranches = s.sumOfBranches
      - ∑ m in (liveSet n s1.connector).erase (selectPair n s).mini,
          newDist n s.mat (selectPair n s).mini (selectPair n s).minj m
      - entry n s.mat (selectPair n s).mini (selectPair n s).minj := by
  obtain ⟨s2, u, h2, hm1, -, hlt, hjn, hli, hlj, hu, e1, -, e3, -, e5, e6, -⟩ :=
    mergeStep_reach n k s hm ht hk
  rw [h] at h2
  cases h2
  have hij : (selectPair n s).mini ≠ (selectPair n s).minj := by omega
  have hdead : ¬ isLive (mergedConnector s (selectPair n s).mini (selectPair n s).minj)
      (selectPair n s).minj := by
    rw [isLive_mergedConnector s _ _ hli hij]; exact fun hh => hh.1 rfl
  obtain ⟨-, -, f3, f4, f5, f6⟩ := updateLoop_full n _ _ _ _ s.mat hm (by omega) hjn hij hdead
    _ _ _ u hu
  have hlive1 := isLive_mergedConnector s _ _ hli hij
  rw [updated_eq] at f4 f5 f6
  rw [← e3] at f4 f5 f6 hlive1
  generalize (selectPair n s).mini = mini at *
  generalize (selectPair n s).minj = minj at *
  have hin : mini < n := by omega
  have hd1 : ∀ i, s1.dToAllOthers.getD i 0 = if i = mini then u.new_sum
      else u.dToAllOthers.getD i 0 := by
    intro i
    rw [e5, getD_set]
    by_cases hi : mini = i
    · subst hi; rw [if_pos ⟨rfl, by rw [f3, ha.d_len]; exact hin⟩, if_pos rfl]
    · rw [if_neg (fun hh => hi hh.1), if_neg (fun hh => hi hh.symm)]
  have hskip : ∑ m in skipped s1.connector mini n, entry n s.mat m minj
      = entry n s.mat mini minj := by
    refine Finset.sum_eq_single mini ?_ ?_
    · intro m hmem hne
      simp only [skipped, Finset.mem_filter, Finset.mem_range] at hmem
      obtain ⟨hmn, hnot⟩ := hmem
      have hnl : ¬ isLive s1.connector m := fun hh => hnot ⟨hh, fun x => hne x.symm⟩
      by_cases hmj : m = minj
      · subst hmj; exact ha.diag m hmn
      · exact ha.dead m minj hmn hjn (Or.inl (fun hh => hnl ((hlive1 m).mpr ⟨hmj, hh⟩)))
    · intro hnot
      exfalso; apply hnot
      simp only [skipped, Finset.mem_filter, Finset.mem_range]
      exact ⟨hin, fun hh => hh.2 rfl⟩
  refine ⟨?_, ?_, ?_⟩
  · intro m hmn hml hmi
    rw [hd1, if_neg hmi, f4 m,
      if_pos ⟨Finset.mem_erase.mpr ⟨hmi, mem_liveSet n _ m hmn hml⟩, by rw [ha.d_len]; exact hmn⟩]
  · rw [hd1, if_pos rfl, f5, zero_add]
  · rw [e6, f6, hskip]

/-- C13: the cached-sum invariant of `main_cycle`, in exact arithmetic, for any
input and `n ≥ 3`. At the start of every merge iteration and on exit (after
`k ≤ n - 3` merges), `dToAllOthers[i]` is the sum of `mat[i*n+j]` over the live
`j`, for every live `i`, and `sumOfBranches` is the sum of `mat[i*n+j]` over the
live pairs `i < j`. One merge step subtracts the new averaged distance from the
sum of every other live node, sets the sum of the merged node to the total of
the new distances, and decreases `sumOfBranches` by the new distances and by the
joined distance; both equalities hold again afterwards. -/
theorem C13_cached_sums (n : Nat) (mat : List ℚ) (hn : 3 ≤ n) (hlen : n * n ≤ mat.length)
    (k : Nat) (hk : k + 3 ≤ n) :
    ∃ s, mergeLoop n k (startState n mat) = .ok s ∧
      (∀ i, i < n → isLive s.connector i →
        s.dToAllOthers.getD i 0 = ∑ j in liveSet n s.connector, s.mat.getD (i * n + j) 0) ∧
      s.sumOfBranches = ∑ i in liveSet n s.connector,
        ∑ j in (liveSet n s.connector).filter (fun j => i < j), s.mat.getD (i * n + j) 0 ∧
      (k + 4 ≤ n → ∃ s1, mergeStep n s = .ok s1 ∧
        (∀ m, m < n → isLive s1.connector m → m ≠ (selectPair n s).mini →
          s1.dToAllOthers.getD m 0 = s.dToAllOthers.getD m 0
            - (s.mat.getD ((selectPair n s).mini * n + m) 0 + s.mat.getD ((selectPair n s).minj * n + m) 0) / 2) ∧
        s1.dToAllOthers.getD (selectPair n s).mini 0 = ∑ m in (liveSet n s1.connector).erase (selectPair n s).mini,
          (s.mat.getD ((selectPair n s).mini * n + m) 0 + s.mat.getD ((selectPair n s).minj * n + m) 0) / 2 ∧
        s1.sumOfBranches = s.sumOfBranches
          - ∑ m in (liveSet n s1.connector).erase (selectPair n s).mini,
              (s.mat.getD ((selectPair n s).mini * n + m) 0 + s.mat.getD ((selectPair n s).minj * n + m) 0) / 2
          - s.mat.getD ((selectPair n s).mini * n + (selectPair n s).minj) 0 ∧
        (∀ i, i < n → isLive s1.connector i →
          s1.dToAllOthers.getD i 0
            = ∑ j in liveSet n s1.connector, s1.mat.getD (i * n + j) 0) ∧
        s1.sumOfBranches = ∑ i in liveSet n s1.connector,
          ∑ j in (liveSet n s1.connector).filter (fun j => i < j),
            s1.mat.getD (i * n + j) 0) := by
  obtain ⟨s, hs, hm, ht, ha, hsum⟩ := mergeLoop_reach n mat hn hlen k hk
  refine ⟨s, hs, fun i hi hl => hsum.rowsum i (mem_liveSet n _ i hi hl), hsum.total,
    fun hk4 => ?_⟩
  obtain ⟨s1, h1, -⟩ := mergeStep_inv n k s hm ht (by omega)
  obtain ⟨u1, u2, u3⟩ := mergeStep_updates n k s hm ht ha (by omega) s1 h1
  have hsum1 := mergeStep_sum n k s hm ht ha hsum (by omega) s1 h1
  exact ⟨s1, h1, u1, u2, u3, fun i hi hl => hsum1.rowsum i (mem_liveSet n _ i hi hl),
    hsum1.total⟩

theorem C13_cached_sums_witness :
    (3 ≤ 4 ∧ 4 * 4 ≤ mat4.length ∧ 0 + 3 ≤ 4) ∧
    ∃ s, mergeLoop 4 0 (startState 4 mat4) = .ok s ∧
      (∀ i, i < 4 → isLive s.connector i →
        s.dToAllOthers.getD i 0 = ∑ j in liveSet 4 s.connector, s.mat.getD (i * 4 + j) 0) ∧
      s.sumOfBranches = ∑ i in liveSet 4 s.connector,
        ∑ j in (liveSet 4 s.connector).filter (fun j => i < j), s.mat.getD (i * 4 + j) 0 ∧
      (0 + 4 ≤ 4 → ∃ s1, mergeStep 4 s = .ok s1 ∧
        (∀ m, m < 4 → isLive s1.connector m → m ≠ (selectPair 4 s).mini →
          s1.dToAllOthers.getD m 0 = s.dToAllOthers.getD m 0
            - (s.mat.getD ((selectPair 4 s).mini * 4 + m) 0 + s.mat.getD ((selectPair 4 s).minj * 4 + m) 0) / 2) ∧
        s1.dToAllOthers.getD (selectPair 4 s).mini 0 = ∑ m in (liveSet 4 s1.connector).erase (selectPair 4 s).mini,
          (s.mat.getD ((selectPair 4 s).mini * 4 + m) 0 + s.mat.getD ((selectPair 4 s).minj * 4 + m) 0) / 2 ∧
        s1.sumOfBranches = s.sumOfBranches
          - ∑ m in (liveSet 4 s1.connector).erase (selectPair 4 s).mini,
              (s.mat.getD ((selectPair 4 s).mini * 4 + m) 0 + s.mat.getD ((selectPair 4 s).minj * 4 + m) 0) / 2
          - s.mat.getD ((selectPair 4 s).mini * 4 + (selectPair 4 s).minj) 0 ∧
        (∀ i, i < 4 → isLive s1.connector i →
          s1.dToAllOthers.getD i 0
            = ∑ j in liveSet 4 s1.connector, s1.mat.getD (i * 4 + j) 0) ∧
        s1.sumOfBranches = ∑ i in liveSet 4 s1.connector,
          ∑ j in (liveSet 4 s1.connector).filter (fun j => i < j),
            s1.mat.getD (i * 4 + j) 0) :=
  ⟨by decide, C13_cached_sums 4 mat4 (by decide) (by decide) 0 (by decide)⟩

/-! ## Independence of the entries outside the upper triangle -/

theorem loopFrom_congr {σ : Type} (b1 b2 : Nat → σ → σ) : ∀ (fuel j : Nat) (st : σ),
    (∀ i s, j ≤ i → i < j + fuel → b1 i s = b2 i s) →
    loopFrom b1 fuel j st = loopFrom b2 fuel j st := by
  intro fuel
  induction fuel with
  | zero => intro j st _; rfl
  | succ k ih =>
    intro j st h
    simp only [loopFrom]
    rw [h j st (le_refl j) (by omega)]
    exact ih (j + 1) _ (fun i s h1 h2 => h i s (by omega) (by omega))

theorem forLoop_congr {σ : Type} (lo hi : Nat) (b1 b2 : Nat → σ → σ) (init : σ)
    (h : ∀ i s, lo ≤ i → i < hi → b1 i s = b2 i s) :
    forLoop lo hi b1 init = forLoop lo hi b2 init := by
  unfold forLoop
  exact loopFrom_congr b1 b2 (hi - lo) lo init (fun i s h1 h2 => h i s h1 (by omega))

theorem list_ext_getD (l1 l2 : List ℚ) (hl : l1.length = l2.length)
    (h : ∀ i, i < l1.length → l1.getD i 0 = l2.getD i 0) : l1 = l2 := by
  apply List.ext_getElem hl
  intro i h1 h2
  have := h i h1
  rw [List.getD_eq_getElem _ _ h1, List.getD_eq_getElem _ _ h2] at this
  exact this

theorem connector_ext (l1 l2 : List TVertexDescriptor) (hl : l1.length = l2.length)
    (h : ∀ i, l1.getD i nilVertex = l2.getD i nilVertex) : l1 = l2 := by
  apply List.ext_getElem hl
  intro i h1 h2
  have := h i
  rw [List.getD_eq_getElem _ _ h1, List.getD_eq_getElem _ _ h2] at this
  exact this

/-- The pair search reads the matrix inside the `n × n` square only. -/
theorem selectPair_congr (n : Nat) (s t : NJState) (h : StateEq n s t) :
    selectPair n s = selectPair n t := by
  unfold selectPair
  apply forLoop_congr
  intro col sel _ hcol
  show (if s.connector.getD col nilVertex ≠ nilVertex then
      forLoop 0 col (selectBody n s col) sel else sel)
    = (if t.connector.getD col nilVertex ≠ nilVertex then
      forLoop 0 col (selectBody n t col) sel else sel)
  rw [h.connector]
  by_cases hc : t.connector.getD col nilVertex ≠ nilVertex
  · rw [if_pos hc, if_pos hc]
    apply forLoop_congr
    intro row sel2 _ hrow
    unfold selectBody pairTotal
    have he := h.entries row col (by omega) hcol
    unfold entry at he
    rw [h.connector, h.dToAllOthers, h.sumOfBranches, h.fnseqs, he]
  · rw [if_neg hc, if_neg hc]

/-- The cached sums and the length of the matrix after a merge step, in terms of
the state before it. -/
theorem mergeStep_numeric (n k : Nat) (s : NJState) (hm : MatInv n s.mat) (ht : TreeInv n k s)
    (ha : AuxInv n k s) (hk : k + 2 ≤ n) (s1 : NJState) (h : mergeStep n s = .ok s1) :
    s1.mat.length = s.mat.length ∧ s1.dToAllOthers.length = s.dToAllOthers.length ∧
    (∀ m, s1.dToAllOthers.getD m 0 =
      if m = (selectPair n s).mini then
        ∑ x in updated s1.connector (selectPair n s).mini n,
          newDist n s.mat (selectPair n s).mini (selectPair n s).minj x
      else if m ∈ updated s1.connector (selectPair n s).mini n ∧ m < s.dToAllOthers.length then
        s.dToAllOthers.getD m 0 - newDist n s.mat (selectPair n s).mini (selectPair n s).minj m
      else s.dToAllOthers.getD m 0) ∧
    s1.sumOfBranches = s.sumOfBranches
      - ∑ x in updated s1.connector (selectPair n s).mini n,
          newDist n s.mat (selectPair n s).mini (selectPair n s).minj x
      - ∑ x in skipped s1.connector (selectPair n s).mini n,
          entry n s.mat x (selectPair n s).minj := by
  obtain ⟨s2, u, h2, hm1, -, hlt, hjn, hli, hlj, hu, e1, -, e3, -, e5, e6, -⟩ :=
    mergeStep_reach n k s hm ht hk
  rw [h] at h2
  cases h2
  have hij : (selectPair n s).mini ≠ (selectPair n s).minj := by omega
  have hdead : ¬ isLive (mergedConnector s (selectPair n s).mini (selectPair n s).minj)
      (selectPair n s).minj := by
    rw [isLive_mergedConnector s _ _ hli hij]; exact fun hh => hh.1 rfl
  obtain ⟨f1, -, f3, f4, f5, f6⟩ := updateLoop_full n _ _ _ _ s.mat hm (by omega) hjn hij hdead
    _ _ _ u hu
  rw [← e3] at f4 f5 f6
  refine ⟨by rw [e1, f1], by rw [e5]; simp [f3], fun m => ?_, by rw [e6, f6]⟩
  rw [e5, getD_set]
  by_cases hmi : (selectPair n s).mini = m
  · rw [if_pos ⟨hmi, by rw [f3, ha.d_len]; omega⟩, if_pos hmi.symm, f5, zero_add]
  · rw [if_neg (fun hh => hmi hh.1), if_neg (fun hh => hmi hh.symm), f4 m]

/-- A merge step takes states that agree to states that agree. -/
theorem mergeStep_congr (n k : Nat) (s t : NJState) (h : StateEq n s t)
    (hms : MatInv n s.mat) (hts : TreeInv n k s) (has : AuxInv n k s)
    (hmt : MatInv n t.mat) (htt : TreeInv n k t) (hat : AuxInv n k t) (hk : k + 2 ≤ n)
    (s1 t1 : NJState) (hs1 : mergeStep n s = .ok s1) (ht1 : mergeStep n t = .ok t1) :
    StateEq n s1 t1 := by
  have hsel := selectPair_congr n s t h
  obtain ⟨s2, us, a2, -, -, hlt, hjn, hli, hlj, -, -, g2, g3, g4, -, -, g7⟩ :=
    mergeStep_reach n k s hms hts hk
  rw [hs1] at a2; cases a2
  obtain ⟨t2, ut, b2, -, -, -, -, -, -, -, -, k2, k3, k4, -, -, k7⟩ :=
    mergeStep_reach n k t hmt htt hk
  rw [ht1] at b2; cases b2
  obtain ⟨p1, p2, p3, p4⟩ := mergeStep_numeric n k s hms hts has hk s1 hs1
  obtain ⟨q1, q2, q3, q4⟩ := mergeStep_numeric n k t hmt htt hat hk t1 ht1
  have es := mergeStep_entry n k s hms hts hk s1 hs1
  have et := mergeStep_entry n k t hmt htt hk t1 ht1
  rw [← hsel] at k2 k3 k4 q3 q4 et
  generalize (selectPair n s).mini = mini at *
  generalize (selectPair n s).minj = minj at *
  have hin : mini < n := by omega
  have hent := h.entries
  have hnd : ∀ m, m < n → newDist n s.mat mini minj m = newDist n t.mat mini minj m := by
    intro m hm
    unfold newDist
    rw [hent mini m hin hm, hent minj m hjn hm]
  have hconn : s1.connector = t1.connector := by
    rw [g3, k3]; unfold mergedConnector; rw [h.connector, h.g]
  have hupd : ∀ x, x ∈ updated t1.connector mini n → x < n := by
    intro x hx
    simp only [updated, Finset.mem_filter, Finset.mem_range] at hx
    exact hx.1
  have hskp : ∀ x, x ∈ skipped t1.connector mini n → x < n := by
    intro x hx
    simp only [skipped, Finset.mem_filter, Finset.mem_range] at hx
    exact hx.1
  have hsumnd : ∑ x in updated t1.connector mini n, newDist n s.mat mini minj x
      = ∑ x in updated t1.connector mini n, newDist n t.mat mini minj x :=
    Finset.sum_congr rfl (fun x hx => hnd x (hupd x hx))
  constructor
  · rw [g2, k2]
    unfold mergedGraph branchToNew
    rw [h.g, h.connector, h.av, h.dToAllOthers, h.fnseqs, hent mini minj hin hjn]
  · exact hconn
  · rw [g4, k4, h.av, hent mini minj hin hjn]
  · apply list_ext_getD
    · rw [p2, q2, h.dToAllOthers]
    · intro m _
      rw [p3 m, q3 m, hconn, hsumnd, h.dToAllOthers]
      by_cases c1 : m = mini
      · rw [if_pos c1, if_pos c1]
      · rw [if_neg c1, if_neg c1]
        by_cases c2 : m ∈ updated t1.connector mini n ∧ m < t.dToAllOthers.length
        · rw [if_pos c2, if_pos c2, hnd m (hupd m c2.1)]
        · rw [if_neg c2, if_neg c2]
  · rw [p4, q4, hconn, hsumnd, h.sumOfBranches]
    congr 1
    exact Finset.sum_congr rfl (fun x hx => hent x minj (hskp x hx) hjn)
  · rw [g7, k7, h.fnseqs]
  · rw [p1, q1, h.len]
  · intro a b han hbn
    rw [es a b han hbn, et a b han hbn, hconn]
    by_cases c1 : a = minj ∨ b = minj
    · rw [if_pos c1, if_pos c1]
    · rw [if_neg c1, if_neg c1]
      by_cases c2 : a = mini ∧ isLive t1.connector b ∧ b ≠ mini
      · rw [if_pos c2, if_pos c2, hnd b hbn]
      · rw [if_neg c2, if_neg c2]
        by_cases c3 : b = mini ∧ isLive t1.connector a ∧ a ≠ mini
        · rw [if_pos c3, if_pos c3, hnd a han]
        · rw [if_neg c3, if_neg c3, hent a b han hbn]

theorem graph_ext (g1 g2 : Graph) (h1 : g1.numVertices = g2.numVertices)
    (h2 : g1.edges = g2.edges) (h3 : g1.data_root = g2.data_root) : g1 = g2 := by
  cases g1; cases g2; simp_all

/-- Inputs that agree on the strictly upper triangle enter the merge loop in
states that agree. -/
theorem startState_congr (n : Nat) (mat1 mat2 : List ℚ) (hn : 1 ≤ n)
    (hlen : n * n ≤ mat1.length) (hl : mat1.length = mat2.length)
    (h : ∀ i j, i < j → j < n → entry n mat1 i j = entry n mat2 i j) :
    StateEq n (startState n mat1) (startState n mat2) := by
  have hlen2 : n * n ≤ mat2.length := by rw [← hl]; exact hlen
  obtain ⟨a1, a2, a3, a4, a5, a6, -⟩ := initLeaves_spec n (clearVertices Graph.empty)
    (List.replicate n nilVertex) mat1 (by simp) hlen
  obtain ⟨b1, b2, b3, b4, b5, b6, -⟩ := initLeaves_spec n (clearVertices Graph.empty)
    (List.replicate n nilVertex) mat2 (by simp) hlen2
  obtain ⟨c1, -⟩ := copyTriangle_spec n
    (initLeaves n (clearVertices Graph.empty) (List.replicate n nilVertex) mat1).2.2 hn
    (by rw [a6]; exact hlen)
  obtain ⟨d1, -⟩ := copyTriangle_spec n
    (initLeaves n (clearVertices Graph.empty) (List.replicate n nilVertex) mat2).2.2 hn
    (by rw [b6]; exact hlen2)
  have hE : ∀ a b, a < n → b < n →
      entry n (startState n mat1).mat a b = entry n (startState n mat2).mat a b := by
    intro a b ha hb
    rw [startState_entry n mat1 hn hlen a b ha hb, startState_entry n mat2 hn hlen2 a b ha hb]
    by_cases c1 : a < b
    · rw [if_pos c1, if_pos c1, h a b c1 hb]
    · rw [if_neg c1, if_neg c1]
      by_cases c2 : b < a
      · rw [if_pos c2, if_pos c2, h b a c2 ha]
      · rw [if_neg c2, if_neg c2]
  have hL1 := startState_liveSet n mat1 hlen
  have hL2 := startState_liveSet n mat2 hlen2
  obtain ⟨x1, x2⟩ := startState_sum n mat1 hn hlen
  obtain ⟨y1, y2⟩ := startState_sum n mat2 hn hlen2
  have hmem : ∀ i, i ∈ Finset.range n → i < n := fun i hi => Finset.mem_range.mp hi
  constructor
  · exact graph_ext _ _ (a1.trans b1.symm) (a2.trans b2.symm) (a3.trans b3.symm)
  · apply connector_ext
    · exact a4.trans b4.symm
    · intro i
      exact (a5 i).trans (b5 i).symm
  · rfl
  · apply list_ext_getD
    · rw [x1.d_len, y1.d_len]
    · intro i hi
      rw [x1.d_len] at hi
      rw [x2.rowsum i (by rw [hL1]; exact Finset.mem_range.mpr hi),
        y2.rowsum i (by rw [hL2]; exact Finset.mem_range.mpr hi)]
      unfold liveRowSum
      rw [hL1, hL2]
      exact Finset.sum_congr rfl (fun j hj => hE i j hi (hmem j hj))
  · rw [x2.total, y2.total]
    unfold livePairSum
    rw [hL1, hL2]
    refine Finset.sum_congr rfl (fun i hi => Finset.sum_congr rfl (fun j hj => ?_))
    exact hE i j (hmem i hi) (hmem j (Finset.mem_filter.mp hj).1)
  · rfl
  · exact (c1.trans a6).trans (hl.trans (d1.trans b6).symm)
  · exact hE

/-- The two merge loops stay in agreement. -/
theorem mergeLoop_congr (n : Nat) (mat1 mat2 : List ℚ) (hn : 3 ≤ n)
    (hlen : n * n ≤ mat1.length) (hl : mat1.length = mat2.length)
    (h : ∀ i j, i < j → j < n → entry n mat1 i j = entry n mat2 i j) :
    ∀ k, k + 3 ≤ n → ∀ s t, mergeLoop n k (startState n mat1) = .ok s →
      mergeLoop n k (startState n mat2) = .ok t → StateEq n s t := by
  have hlen2 : n * n ≤ mat2.length := by rw [← hl]; exact hlen
  intro k
  induction k with
  | zero =>
    intro _ s t hs ht
    cases hs; cases ht
    exact startState_congr n mat1 mat2 (by omega) hlen hl h
  | succ k ih =>
    intro hk s t hs ht
    obtain ⟨sk, e1, m1, t1, a1, -⟩ := mergeLoop_reach n mat1 hn hlen k (by omega)
    obtain ⟨tk, e2, m2, t2, a2, -⟩ := mergeLoop_reach n mat2 hn hlen2 k (by omega)
    rw [mergeLoop_succ, e1] at hs
    rw [mergeLoop_succ, e2] at ht
    exact mergeStep_congr n k sk tk (ih (by omega) sk tk e1 e2) m1 t1 a1 m2 t2 a2 (by omega)
      s t hs ht

/-- C20: the tree returned by `neighbour_joining` depends only on the strictly
upper triangle of the input. Two inputs of the same length that agree on every
entry at a flat index `i * n + j` with `i < j < n` yield the same result,
whatever they hold on the diagonal, in the lower triangle, or at the indices from
`n * n` on. -/
theorem C20_upper_triangle (mat1 mat2 : List ℚ) (hl : mat1.length = mat2.length)
    (h : ∀ i j, i < j → j < Nat.sqrt mat1.length →
      mat1.getD (i * Nat.sqrt mat1.length + j) 0 = mat2.getD (i * Nat.sqrt mat1.length + j) 0) :
    neighbour_joining mat1 = neighbour_joining mat2 := by
  unfold neighbour_joining
  rw [← hl]
  generalize hn : Nat.sqrt mat1.length = n at h
  have hlen : n * n ≤ mat1.length := by rw [← hn]; exact sqrt_sq_le mat1
  by_cases h0 : n = 0
  · have hz : mat1.length = 0 := by
      rw [h0] at hn; exact Nat.sqrt_eq_zero.mp hn
    have e1 : mat1 = [] := List.length_eq_zero.mp hz
    have e2 : mat2 = [] := List.length_eq_zero.mp (by rw [← hl]; exact hz)
    rw [e1, e2]
  by_cases h1 : n = 1
  · rw [h1, neighbour_joining_n_one, neighbour_joining_n_one]
  by_cases h2 : n = 2
  · have := h 0 1 (by omega) (by omega)
    rw [h2] at this
    simp only [zero_mul, zero_add] at this
    rw [h2, neighbour_joining_n_two, neighbour_joining_n_two, this]
  have hn3 : 3 ≤ n := by omega
  have hlen2 : n * n ≤ mat2.length := by rw [← hl]; exact hlen
  obtain ⟨s, hs, -, ht, hres1⟩ := neighbour_joining_n_ge3 n mat1 hn3 hlen
  obtain ⟨t, ht2, -, -, hres2⟩ := neighbour_joining_n_ge3 n mat2 hn3 hlen2
  have heq := mergeLoop_congr n mat1 mat2 hn3 hlen hl h (n - 3) (by omega) s t hs ht2
  have hcard : (liveSet n s.connector).card = 3 := by have := ht.live_card; omega
  obtain ⟨a, b, c, f1, -, hab, hbc, hcn, -⟩ := findRemaining_three n s.connector hcard
  have f2 : (findRemaining n t.connector).1 = [a, b, c] := by rw [← heq.connector]; exact f1
  rw [hres1, hres2, finalJoin_full n s a b c f1, finalJoin_full n t a b c f2]
  have e := heq.entries
  have eab := e a b (by omega) (by omega)
  have eac := e a c (by omega) hcn
  have ebc := e b c (by omega) hcn
  unfold entry at eab eac ebc
  rw [heq.g, heq.connector, heq.av, eab, eac, ebc]

theorem C20_upper_triangle_witness :
    (mat4.length = mat4b.length ∧
      ∀ i j, i < j → j < Nat.sqrt mat4.length →
        mat4.getD (i * Nat.sqrt mat4.length + j) 0
          = mat4b.getD (i * Nat.sqrt mat4.length + j) 0) ∧
    neighbour_joining mat4 = neighbour_joining mat4b :=
  have h : ∀ i j, i < j → j < Nat.sqrt mat4.length →
      mat4.getD (i * Nat.sqrt mat4.length + j) 0
        = mat4b.getD (i * Nat.sqrt mat4.length + j) 0 := by
    have e : Nat.sqrt mat4.length = 4 := by decide!
    rw [e]
    intro i j hij hj
    interval_cases j <;> interval_cases i <;> decide!
  ⟨⟨by decide, h⟩, C20_upper_triangle mat4 mat4b (by decide) h⟩

end Chopper
